import Mathlib

/-!
# GenJack: a shallow embedding of `genjack.go`

The Go program evolves blackjack policy tables.  This file embeds its game
engine (`sumHand`, `playHand`, `playDealerHand`, `playHands`), the genome
operations (`initialize`, `mutate`), the workers and the receive loop of
`dispatchHands`, the `ByRatio` sort interface and the generation loop of
`runDNA`, and proves properties of them.

Modelling conventions.

* Go `int` values are `Int`, and sums are the mathematical ones.  Go's addition
  wraps at 64 bits (`wrapInt64`); a sum of the model is the sum of the code
  whenever it fits in 64 bits (`FitsInt64`), and the theorem on the score step
  carries that hypothesis.
* `Action` is an `int` in Go, so it is an `Int` here, with `HOLD = 0` and
  `HIT = 1`; a table cell can therefore in principle hold any integer.
* `[10][42]Action` is a function `Fin 10 → Fin 42 → Action`; an index outside
  the array bounds is a Go run-time panic, modelled as `Fault.indexOutOfRange`.
* The global `math/rand` source is a stream `Source = Nat → Nat` of raw
  outputs together with a read position that is threaded through the
  functions.  `rand.Intn n` is the raw output modulo `n`, `rand.Float32` a
  24-bit fraction in `[0, 1)`.
* The unbounded loops of `playHand` and `playDealerHand` take a fuel argument;
  running out of fuel is `Fault.outOfFuel`.  The theorems show that twenty
  units are never exhausted.
* The eight goroutines of `dispatchHands` write disjoint index ranges, so their
  joint effect is the effect of running them one after the other, each with the
  draws it received; the receive loop that closes the channel is modelled on its
  own (`barrier`).
* `sort.Sort` is library code that reaches the population only through
  `Len`, `Less` and `Swap`; its effect is a sequence of `Swap` calls, and its
  postcondition is `SortedByLess`.  The library's insertion sort, which is what
  `sort.Sort` runs on a slice of at most twelve elements, is embedded as
  `sortActors` and shown to meet that postcondition.
-/

namespace GenJack

/-! ## Data model -/

/-- Go `type Action int`. -/
abbrev Action := Int

/-- Go `HOLD Action = 0`. -/
def HOLD : Action := 0

/-- Go `HIT Action = 1`. -/
def HIT : Action := 1

/-- Go `const ACTIONS = 2`. -/
def ACTIONS : Nat := 2

/-- Go `const ROUTINES = 8`. -/
def ROUTINES : Nat := 8

/-- Go `[10][42]Action`. -/
abbrev Table := Fin 10 → Fin 42 → Action

/-- Go `type Actor struct`. -/
structure Actor where
  actions : Table
  ratio : Int
  lifetimeRatio : Int

/-- The Go zero value of `Actor`, as produced by `make([]Actor, n)`. -/
def Actor.zero : Actor := ⟨fun _ _ => 0, 0, 0⟩

/-- Ways in which a run of the embedded code can fail to return a value. -/
inductive Fault where
  | outOfFuel
  | indexOutOfRange
  deriving DecidableEq, Repr

/-- The raw output stream of the global random source. -/
abbrev Source := Nat → Nat

/-- Go `rand.Intn(n)`: the draw at position `pos`, a value in `[0, n)`. -/
def rand.Intn (src : Source) (pos : Nat) (n : Nat) : Int := ((src pos % n : Nat) : Int)

/-- Go `rand.Float32()`: the draw at position `pos`, a value in `[0, 1)`.
A finite `float32` is a rational number and `<` on floats compares the
numbers they denote, so rationals model the comparison exactly. -/
def rand.Float32 (src : Source) (pos : Nat) : ℚ := ((src pos % 2 ^ 24 : Nat) : ℚ) / 2 ^ 24

/-- Array access `actions[r][c]` with Go's bounds check. -/
def index (t : Table) (r c : Int) : Option Action :=
  if h : (0 ≤ r ∧ r < 10) ∧ (0 ≤ c ∧ c < 42) then
    some (t ⟨r.toNat, by omega⟩ ⟨c.toNat, by omega⟩)
  else none

/-- Array store `actions[ix][ij] = a`. -/
def setCell (t : Table) (ix : Fin 10) (ij : Fin 42) (a : Action) : Table :=
  fun i j => if i = ix ∧ j = ij then a else t i j

/-- Every cell of the table is `HOLD` or `HIT`. -/
def ValidTable (t : Table) : Prop := ∀ i j, t i j = HOLD ∨ t i j = HIT

/-! ## Genome operations -/

/-- Body of the inner loop of `initialize`: `actions[ix][ij] = Action(rand.Intn(ACTIONS))`. -/
def initializeCell (src : Source) (ix : Fin 10) (st : Table × Nat) (ij : Fin 42) : Table × Nat :=
  (setCell st.1 ix ij (rand.Intn src st.2 ACTIONS), st.2 + 1)

/-- Inner loop of `initialize`: `for ij := range actor.actions[ix]`. -/
def initializeRow (src : Source) (st : Table × Nat) (ix : Fin 10) : Table × Nat :=
  (List.finRange 42).foldl (initializeCell src ix) st

/-- Go `func (actor *Actor) initialize()` (the bare name is reserved in Lean); returns the
actor and the new read position.  The sum `lifetimeRatio + ratio` is the mathematical
one; Go's 64-bit addition gives `wrapInt64` of it, which is the same value whenever the
sum satisfies `FitsInt64`. -/
def initializeActor (actor : Actor) (src : Source) (pos : Nat) : Actor × Nat :=
  let st := (List.finRange 10).foldl (initializeRow src) (actor.actions, pos)
  ({ actions := st.1, lifetimeRatio := actor.lifetimeRatio + actor.ratio, ratio := 0 }, st.2)

/-- Body of the inner loop of `mutate`:
`if rand.Float32() < mut { actions[ix][ij] = Action(rand.Intn(ACTIONS)) }`. -/
def mutateCell (mutRate : ℚ) (src : Source) (ix : Fin 10) (st : Table × Nat) (ij : Fin 42) :
    Table × Nat :=
  if rand.Float32 src st.2 < mutRate then
    (setCell st.1 ix ij (rand.Intn src (st.2 + 1) ACTIONS), st.2 + 2)
  else
    (st.1, st.2 + 1)

/-- Inner loop of `mutate`: `for ij := range actor.actions[ix]`. -/
def mutateRow (mutRate : ℚ) (src : Source) (st : Table × Nat) (ix : Fin 10) : Table × Nat :=
  (List.finRange 42).foldl (mutateCell mutRate src ix) st

/-- Go `func (actor *Actor) mutate(mut float32)`; returns the actor and the new read
position.  The sum `lifetimeRatio + ratio` is the mathematical one; Go's 64-bit addition
gives `wrapInt64` of it, which is the same value whenever the sum satisfies `FitsInt64`. -/
def mutate (actor : Actor) (mutRate : ℚ) (src : Source) (pos : Nat) : Actor × Nat :=
  let st := (List.finRange 10).foldl (mutateRow mutRate src) (actor.actions, pos)
  ({ actions := st.1, lifetimeRatio := actor.lifetimeRatio + actor.ratio, ratio := 0 }, st.2)

/-- The loop state of `mutate` on arrival at cell `(ix, ij)`: rows before `ix` are done,
and so are the cells before `ij` of row `ix`.  Its second component is the read position
of the `rand.Float32()` call made for that cell. -/
def mutateStateAt (actor : Actor) (mutRate : ℚ) (src : Source) (pos : Nat) (ix : Fin 10)
    (ij : Fin 42) : Table × Nat :=
  ((List.finRange 42).take ij.val).foldl (mutateCell mutRate src ix)
    (((List.finRange 10).take ix.val).foldl (mutateRow mutRate src) (actor.actions, pos))

/-! ## Game engine -/

/-- Go `sort.Sort(sort.Reverse(sort.IntSlice(hand)))`: the hand in descending order. -/
def sortReverse (hand : List Int) : List Int := hand.insertionSort (fun a b => a ≥ b)

/-- The `for ix, card := range *hand` loop of `sumHand`, started at index `ix` with
running total `sum`; `len` is `len(*hand)`. -/
def sumLoop (len : Nat) : Nat → Int → List Int → Int
  | _, sum, [] => sum
  | ix, sum, card :: rest =>
    if card = 1 ∧ sum + ((len : Int) - (ix : Int)) < 12 then
      sumLoop len (ix + 1) (sum + 11) rest
    else
      sumLoop len (ix + 1) (sum + card) rest

/-- Go `func sumHand(hand *[]int) int`.  The function sorts the slice in place, so the
result is the total together with the hand as the call leaves it. -/
def sumHand (hand : List Int) : Int × List Int :=
  (sumLoop (sortReverse hand).length 0 0 (sortReverse hand), sortReverse hand)

/-- Go `func drawCard(hand *[]int) int`: total, hand and read position after the draw. -/
def drawCard (src : Source) (hand : List Int) (pos : Nat) : Int × List Int × Nat :=
  let s := sumHand (hand ++ [rand.Intn src pos 10 + 1])
  (s.1, s.2, pos + 1)

/-- Go `func playHand(hand *[]int, actor *Actor, dealerCard int) int`, with one unit of
fuel per loop iteration.  Returns the total, the hand and the read position.  A cell that
is neither `HOLD` nor `HIT` matches no `case`, so the loop repeats without drawing. -/
def playHand (actor : Actor) (dealerCard : Int) (src : Source) :
    Nat → List Int → Nat → Except Fault (Int × List Int × Nat)
  | 0, _, _ => .error .outOfFuel
  | fuel + 1, hand, pos =>
    let s := sumHand hand
    if s.1 > 21 then .ok (s.1, s.2, pos)
    else if s.1 = 21 then .ok (s.1, s.2, pos)
    else
      match index actor.actions (dealerCard - 1) (s.1 - 1) with
      | none => .error .indexOutOfRange
      | some a =>
        if a = HOLD then .ok (s.1, s.2, pos)
        else if a = HIT then
          playHand actor dealerCard src fuel (s.2 ++ [rand.Intn src pos 10 + 1]) (pos + 1)
        else playHand actor dealerCard src fuel s.2 pos

/-- The `for sum < 17` loop of `playDealerHand`, with one unit of fuel per test. -/
def dealerLoop (src : Source) : Nat → Int → List Int → Nat → Except Fault (Int × List Int × Nat)
  | 0, _, _, _ => .error .outOfFuel
  | fuel + 1, sum, hand, pos =>
    if sum < 17 then
      let d := drawCard src hand pos
      dealerLoop src fuel d.1 d.2.1 d.2.2
    else .ok (sum, hand, pos)

/-- Go `func playDealerHand(hand *[]int) int`. -/
def playDealerHand (src : Source) (fuel : Nat) (hand : List Int) (pos : Nat) :
    Except Fault (Int × List Int × Nat) :=
  let s := sumHand hand
  dealerLoop src fuel s.1 s.2 pos

/-- Body of the `for i := 0; i < numHands; i++` loop of `playHands`: one hand. -/
def playOneHand (src : Source) (fuel : Nat) (actor : Actor) (pos : Nat) :
    Except Fault (Actor × Nat) :=
  let hand : List Int := [rand.Intn src pos 10 + 1, rand.Intn src (pos + 1) 10 + 1]
  let dealerHand : List Int := [rand.Intn src (pos + 2) 10 + 1, rand.Intn src (pos + 3) 10 + 1]
  match playHand actor (rand.Intn src (pos + 2) 10 + 1) src fuel hand (pos + 4) with
  | .error e => .error e
  | .ok (finalSum, _, pos1) =>
    if finalSum = 21 then .ok ({ actor with ratio := actor.ratio + 4 }, pos1)
    else if finalSum > 21 then .ok ({ actor with ratio := actor.ratio - 2 }, pos1)
    else
      match playDealerHand src fuel dealerHand pos1 with
      | .error e => .error e
      | .ok (dealerSum, _, pos2) =>
        if dealerSum > 21 then .ok ({ actor with ratio := actor.ratio + 1 }, pos2)
        else if finalSum > dealerSum then .ok ({ actor with ratio := actor.ratio + 2 }, pos2)
        else if finalSum = dealerSum then .ok ({ actor with ratio := actor.ratio + 1 }, pos2)
        else .ok ({ actor with ratio := actor.ratio - 1 }, pos2)

/-- The loop of `playHands` with `n` iterations left. -/
def playHandsLoop (src : Source) (fuel : Nat) : Nat → Actor → Nat → Except Fault (Actor × Nat)
  | 0, actor, pos => .ok (actor, pos)
  | n + 1, actor, pos =>
    match playOneHand src fuel actor pos with
    | .error e => .error e
    | .ok (actor1, pos1) => playHandsLoop src fuel n actor1 pos1

/-- Go `func playHands(actor *Actor, numHands int)`. -/
def playHands (src : Source) (fuel : Nat) (actor : Actor) (numHands : Int) (pos : Nat) :
    Except Fault (Actor × Nat) :=
  playHandsLoop src fuel numHands.toNat actor pos

/-! ## Fitness evaluation and ranking -/

/-- The values `ix` takes in a Go loop `for ix := start; ix < end; ix++`. -/
def loopIndices (start end_ : Nat) : List Nat := List.range' start (end_ - start)

/-- The `(start, end)` arguments of the `ROUTINES` calls of `handRoutine` that
`dispatchHands` spawns for a population of `total` actors, in spawn order: the loop
`for ix := 0; ix < ROUTINES-1; ix++` followed by the call for the last shard. -/
def shardRanges (total : Nat) : List (Nat × Nat) :=
  let chunk := total / ROUTINES
  (loopIndices 0 (ROUTINES - 1)).map (fun ix => (ix * chunk, (ix + 1) * chunk))
    ++ [((ROUTINES - 1) * chunk, total)]

/-- The loop of `handRoutine` over the indices still to visit: `playHands(&actors[ix], numHands)`. -/
def handRoutineLoop (src : Source) (fuel : Nat) (numHands : Int) :
    List Nat → List Actor → Nat → Except Fault (List Actor × Nat)
  | [], actors, pos => .ok (actors, pos)
  | ix :: rest, actors, pos =>
    match actors[ix]? with
    | none => .error .indexOutOfRange
    | some actor =>
      match playHands src fuel actor numHands pos with
      | .error e => .error e
      | .ok (actor1, pos1) => handRoutineLoop src fuel numHands rest (actors.set ix actor1) pos1

/-- Go `func handRoutine(actors *[]Actor, numHands int, start int, end int, res chan int)`,
run on its own: the population, the read position of the draws this worker received, and
the message `end - start` it sends on the channel. -/
def handRoutine (src : Source) (fuel : Nat) (actors : List Actor) (numHands : Int)
    (start end_ : Nat) (pos : Nat) : Except Fault (List Actor × Nat × Int) :=
  match handRoutineLoop src fuel numHands (loopIndices start end_) actors pos with
  | .error e => .error e
  | .ok (actors1, pos1) => .ok (actors1, pos1, (end_ : Int) - (start : Int))

/-- Go `func (a ByRatio) Len() int`. -/
def ByRatio.Len (a : List Actor) : Nat := a.length

/-- Go `func (a ByRatio) Swap(i, j int)`: `a[i], a[j] = a[j], a[i]`; `none` is the
index-out-of-range panic. -/
def ByRatio.Swap (a : List Actor) (i j : Nat) : Option (List Actor) :=
  match a[i]?, a[j]? with
  | some x, some y => some ((a.set i y).set j x)
  | _, _ => none

/-- Go `func (a ByRatio) Less(i, j int) bool`; `none` is the index-out-of-range panic. -/
def ByRatio.Less (a : List Actor) (i j : Nat) : Option Bool :=
  match a[i]?, a[j]? with
  | some x, some y => some (decide (x.lifetimeRatio > y.lifetimeRatio))
  | _, _ => none

/-- The effect on the population of a run of `sort.Sort(ByRatio(actors))`.  The library
reaches the data only through `Len`, `Less` and `Swap`, so whatever it does to the slice
is the effect of the sequence of `Swap` calls it makes. -/
def applySwaps : List (Nat × Nat) → List Actor → Option (List Actor)
  | [], a => some a
  | (i, j) :: rest, a =>
    match ByRatio.Swap a i j with
    | none => none
    | some a1 => applySwaps rest a1

/-! ## Specification-side definitions -/

/-- The next `k` cards dealt from read position `pos`, each `rand.Intn(10) + 1`. -/
def drawn (src : Source) : Nat → Nat → List Int
  | _, 0 => []
  | pos, k + 1 => (rand.Intn src pos 10 + 1) :: drawn src (pos + 1) k

/-- The score delta of one hand as the scoring table of the specification words it, for
player total `p` and dealer total `d`: `+4` if `p = 21`; `-2` if `p > 21`; otherwise `+1`
if `d > 21`, else `+2` if `p > d`, else `+1` if `p = d`, else `-1`. -/
def handDelta (p d : Int) : Int :=
  if p = 21 then 4
  else if p > 21 then -2
  else if d > 21 then 1
  else if p > d then 2
  else if p = d then 1
  else -1

/-- The fold of the documented hand-total procedure: `total` is the running total and the
list holds the cards not yet processed, the current one first.  An ace adds 11 when the
running total plus the number of unprocessed cards is below 12; otherwise the card adds
its face value. -/
def documentedFold : Int → List Int → Int
  | total, [] => total
  | total, card :: rest =>
    if card = 1 ∧ total + (((card :: rest).length : Nat) : Int) < 12 then
      documentedFold (total + 11) rest
    else
      documentedFold (total + card) rest

/-- The documented hand total: sort the cards descending, then fold left to right. -/
def documentedSumHand (hand : List Int) : Int := documentedFold 0 (sortReverse hand)

/-- A valid policy table that says `HIT` on a total of 16 and `HOLD` everywhere else. -/
def hitOnSixteen : Table := fun _ j => if j.val = 15 then HIT else HOLD

/-- The policy table that says `HIT` in every cell. -/
def alwaysHit : Table := fun _ _ => HIT

/-- The policy table that says `HOLD` in every cell. -/
def alwaysHold : Table := fun _ _ => HOLD

/-! ## Evaluation of a population and per-hand deltas -/

/-- The loop of `dispatchHands` over the shards still to hand out, run as if each worker
ran to completion on its own: worker `w` plays its shard with the draws `srcs w` that
the shared random source gave it.  The shards are disjoint, so the order in which the
workers' effects are applied does not matter. -/
def dispatchLoop (srcs : Nat → Source) (fuel : Nat) (numHands : Int) :
    List (Nat × Nat) → Nat → List Actor → Except Fault (List Actor)
  | [], _, actors => .ok actors
  | (start, end_) :: rest, w, actors =>
    match handRoutine (srcs w) fuel actors numHands start end_ 0 with
    | .error e => .error e
    | .ok (actors1, _, _) => dispatchLoop srcs fuel numHands rest (w + 1) actors1

/-- Go `func dispatchHands(actors *[]Actor, numHands int)`: the population once all
`ROUTINES` workers have completed. -/
def dispatchHands (srcs : Nat → Source) (fuel : Nat) (actors : List Actor) (numHands : Int) :
    Except Fault (List Actor) :=
  dispatchLoop srcs fuel numHands (shardRanges actors.length) 0 actors

/-- The delta of the scoring table for the hand dealt at read position `pos`: the player
total `p` is what `playHand` returns on the two cards dealt, the dealer total `d` what
`playDealerHand` returns on the dealer's two cards. -/
def handDeltaAt (src : Source) (fuel : Nat) (actor : Actor) (pos : Nat) : Int :=
  match playHand actor (rand.Intn src (pos + 2) 10 + 1) src fuel
      [rand.Intn src pos 10 + 1, rand.Intn src (pos + 1) 10 + 1] (pos + 4) with
  | .error _ => 0
  | .ok (p, _, pos1) =>
    match playDealerHand src fuel
        [rand.Intn src (pos + 2) 10 + 1, rand.Intn src (pos + 3) 10 + 1] pos1 with
    | .error _ => handDelta p 0
    | .ok (d, _, _) => handDelta p d

/-- The read position at which the hand dealt at `pos` ends: after the player's draws when
the player total is 21 or more, after the dealer's draws otherwise. -/
def handEnd (src : Source) (fuel : Nat) (actor : Actor) (pos : Nat) : Nat :=
  match playHand actor (rand.Intn src (pos + 2) 10 + 1) src fuel
      [rand.Intn src pos 10 + 1, rand.Intn src (pos + 1) 10 + 1] (pos + 4) with
  | .error _ => pos
  | .ok (p, _, pos1) =>
    if 21 ≤ p then pos1
    else
      match playDealerHand src fuel
          [rand.Intn src (pos + 2) 10 + 1, rand.Intn src (pos + 3) 10 + 1] pos1 with
      | .error _ => pos1
      | .ok (_, _, pos2) => pos2

/-- The scoring-table deltas of `n` consecutive hands, the first dealt at `pos`. -/
def handDeltas (src : Source) (fuel : Nat) (actor : Actor) : Nat → Nat → List Int
  | 0, _ => []
  | n + 1, pos =>
    handDeltaAt src fuel actor pos :: handDeltas src fuel actor n (handEnd src fuel actor pos)

/-- The population `after` holds the actors of `before` up to their generation scores:
the same number of actors and, position by position, the same table and the same
lifetime ratio. -/
def SameGenomes (before after : List Actor) : Prop :=
  after.length = before.length
    ∧ ∀ (i : Nat) (a : Actor), before[i]? = some a →
        ∃ a' : Actor, after[i]? = some a' ∧ a'.actions = a.actions
          ∧ a'.lifetimeRatio = a.lifetimeRatio

/-- Every actor of the population has a table of `HOLD` and `HIT` cells. -/
def ValidPopulation (actors : List Actor) : Prop := ∀ a ∈ actors, ValidTable a.actions

/-- The postcondition of Go's `sort.Sort`, taken from the library's contract: when it
returns, no element is `Less` than an element before it. -/
def SortedByLess (a : List Actor) : Prop :=
  ∀ i j : Nat, i < j → j < a.length → ByRatio.Less a j i = some false

/-- The completion messages `end - start` of the `ROUTINES` workers, in spawn order. -/
def shardSizes (total : Nat) : List Int :=
  (shardRanges total).map fun r => (r.2 : Int) - (r.1 : Int)

/-- The receive loop of `dispatchHands`,
`for finished := range rchan { results += finished; if results >= total { close(rchan) } }`,
fed the completion messages in their order of arrival: the number of messages received
when `close(rchan)` executes, or `none` when every message arrives and the channel is
never closed.  `results` is the running sum and `received` the number of messages taken
so far. -/
def barrier (total : Int) : Int → Nat → List Int → Option Nat
  | _, _, [] => none
  | results, received, finished :: rest =>
    if results + finished ≥ total then some (received + 1)
    else barrier total (results + finished) (received + 1) rest

/-! ## The evolution loop -/

/-- The `float32` nearest to the Go constant `0.01`, the rate `runDNA` passes to `mutate`
for the first fifth of the population. -/
def eliteRate : ℚ := 10737418 / 2 ^ 30

/-- The `float32` nearest to the Go constant `0.05`, the rate `runDNA` passes to `mutate`
for the rest of the population. -/
def restRate : ℚ := 13421773 / 2 ^ 28

/-- What a run of `runDNA` meets that the program does not decide: the draws the random
source gives to the `initialize` calls, to the `mutate` calls of each generation and to
each worker of each generation, and the `Swap` calls `sort.Sort` makes in each
generation. -/
structure Run where
  initSrc : Source
  mutSrc : Nat → Source
  workSrc : Nat → Nat → Source
  swaps : Nat → List (Nat × Nat)

/-- The first lines of `runDNA`: `make([]Actor, actorCount)` followed by
`for ix := range actors { actors[ix].initialize() }`. -/
def initPopulation (src : Source) : Nat → Nat → List Actor × Nat
  | 0, pos => ([], pos)
  | n + 1, pos =>
    ((initializeActor Actor.zero src pos).1
        :: (initPopulation src n (initializeActor Actor.zero src pos).2).1,
      (initPopulation src n (initializeActor Actor.zero src pos).2).2)

/-- A loop `for ix := ...; ...; ix++ { actors[ix].mutate(mutRate) }` of `runDNA` over the
indices still to visit. -/
def mutateLoop (mutRate : ℚ) (src : Source) :
    List Nat → List Actor → Nat → Except Fault (List Actor × Nat)
  | [], actors, pos => .ok (actors, pos)
  | ix :: rest, actors, pos =>
    match actors[ix]? with
    | none => .error .indexOutOfRange
    | some actor =>
      mutateLoop mutRate src rest (actors.set ix (mutate actor mutRate src pos).1)
        (mutate actor mutRate src pos).2

/-- The mutation phase of a generation of `runDNA`: with `tops := int(actorCount / 5)`, the
loop over `0 .. tops-1` with rate `0.01` and the loop over `tops .. actorCount-1` with rate
`0.05`. -/
def mutatePopulation (src : Source) (actors : List Actor) (pos : Nat) :
    Except Fault (List Actor × Nat) :=
  match mutateLoop eliteRate src (loopIndices 0 (actors.length / 5)) actors pos with
  | .error e => .error e
  | .ok (actors1, pos1) =>
    mutateLoop restRate src (loopIndices (actors.length / 5) actors.length) actors1 pos1

/-- A generation of `runDNA` up to its ranking step: the mutation phase and
`dispatchHands(&actors, gamesPerGen)`.  The result is the population `sort.Sort` ranks. -/
def evaluateGeneration (run : Run) (fuel : Nat) (gamesPerGen : Int) (gen : Nat)
    (actors : List Actor) : Except Fault (List Actor) :=
  match mutatePopulation (run.mutSrc gen) actors 0 with
  | .error e => .error e
  | .ok (actors1, _) => dispatchHands (run.workSrc gen) fuel actors1 gamesPerGen

/-- The ranking step `sort.Sort(ByRatio(actors))` of generation `gen`. -/
def rankGeneration (run : Run) (gen : Nat) (actors : List Actor) : Except Fault (List Actor) :=
  match applySwaps (run.swaps gen) actors with
  | none => .error .indexOutOfRange
  | some sorted => .ok sorted

/-- The body of the loop `for gen := 0; gen < genCount; gen++` of `runDNA`. -/
def generation (run : Run) (fuel : Nat) (gamesPerGen : Int) (gen : Nat) (actors : List Actor) :
    Except Fault (List Actor) :=
  match evaluateGeneration run fuel gamesPerGen gen actors with
  | .error e => .error e
  | .ok evaluated => rankGeneration run gen evaluated

/-- The loop over the generations of `runDNA` with `n` generations left, `gen` being the
next one. -/
def generationsLoop (run : Run) (fuel : Nat) (gamesPerGen : Int) :
    Nat → Nat → List Actor → Except Fault (List Actor)
  | 0, _, actors => .ok actors
  | n + 1, gen, actors =>
    match generation run fuel gamesPerGen gen actors with
    | .error e => .error e
    | .ok actors1 => generationsLoop run fuel gamesPerGen n (gen + 1) actors1

/-- Go `func runDNA(actorCount int, genCount int, gamesPerGen int)` up to the report: the
population when the loop over the generations ends. -/
def runDNA (run : Run) (fuel : Nat) (actorCount : Nat) (genCount : Int) (gamesPerGen : Int) :
    Except Fault (List Actor) :=
  generationsLoop run fuel gamesPerGen genCount.toNat 0
    (initPopulation run.initSrc actorCount 0).1

/-! ## The score ledger

A ghost companion of the population: `ledger[i]` lists, oldest first, the generation
scores of the actor that currently stands at position `i`.  It is updated next to the
program's own steps and never read by them. -/

/-- After the evaluation of a generation every actor's ledger gains the ratio the actor
ends the evaluation with. -/
def ledgerAfterEvaluate (ledger : List (List Int)) (actors : List Actor) : List (List Int) :=
  List.zipWith (fun h a => h ++ [a.ratio]) ledger actors

/-- The ledger follows a `Swap(i, j)` of the population. -/
def swapLedger (ledger : List (List Int)) (i j : Nat) : List (List Int) :=
  match ledger[i]?, ledger[j]? with
  | some x, some y => (ledger.set i y).set j x
  | _, _ => ledger

/-- The ledger follows the `Swap` calls of a ranking step. -/
def ledgerSwaps : List (Nat × Nat) → List (List Int) → List (List Int)
  | [], ledger => ledger
  | (i, j) :: rest, ledger => ledgerSwaps rest (swapLedger ledger i j)

/-- The body of the generation loop with the ledger alongside. -/
def generationLedger (run : Run) (fuel : Nat) (gamesPerGen : Int) (gen : Nat)
    (st : List Actor × List (List Int)) : Except Fault (List Actor × List (List Int)) :=
  match evaluateGeneration run fuel gamesPerGen gen st.1 with
  | .error e => .error e
  | .ok evaluated =>
    match rankGeneration run gen evaluated with
    | .error e => .error e
    | .ok sorted => .ok (sorted, ledgerSwaps (run.swaps gen) (ledgerAfterEvaluate st.2 evaluated))

/-- The loop over the generations with the ledger alongside. -/
def generationsLedger (run : Run) (fuel : Nat) (gamesPerGen : Int) :
    Nat → Nat → List Actor × List (List Int) → Except Fault (List Actor × List (List Int))
  | 0, _, st => .ok st
  | n + 1, gen, st =>
    match generationLedger run fuel gamesPerGen gen st with
    | .error e => .error e
    | .ok st1 => generationsLedger run fuel gamesPerGen n (gen + 1) st1

/-- The population and the ledger after `gens` generations of `runDNA`. -/
def runLedger (run : Run) (fuel : Nat) (actorCount : Nat) (gens : Nat) (gamesPerGen : Int) :
    Except Fault (List Actor × List (List Int)) :=
  generationsLedger run fuel gamesPerGen gens 0
    ((initPopulation run.initSrc actorCount 0).1, List.replicate actorCount [])

/-- What the ledger records about an actor after `gens` generations: one score per
generation, each the sum of the scoring-table deltas of the `gamesPerGen` hands of a
`playHands` call; the actor's ratio is the last score and its lifetime ratio the sum of
all scores but the last. -/
def LedgerOf (fuel : Nat) (gamesPerGen : Int) (gens : Nat) (a : Actor) (h : List Int) : Prop :=
  h.length = gens ∧ a.ratio = h.getLastD 0 ∧ a.lifetimeRatio = h.dropLast.sum
    ∧ ∀ s ∈ h, ∃ (src : Source) (player : Actor) (pos : Nat),
        s = (handDeltas src fuel player gamesPerGen.toNat pos).sum

/-- The ledger describes every actor of the population. -/
def LedgerInv (fuel : Nat) (gamesPerGen : Int) (gens : Nat) (actors : List Actor)
    (ledger : List (List Int)) : Prop :=
  ledger.length = actors.length
    ∧ ∀ (i : Nat) (a : Actor) (h : List Int), actors[i]? = some a → ledger[i]? = some h →
        LedgerOf fuel gamesPerGen gens a h

/-- A run used for concrete evaluations: every draw of `initialize` and `mutate` is 0,
every draw of a worker is 5 (so every card is a 6), and `sort.Sort` makes no `Swap`. -/
def quietRun : Run := ⟨fun _ => 0, fun _ _ => 0, fun _ _ _ => 5, fun _ => []⟩

/-! ## Machine integers and the library sort -/

/-- The value fits in Go's 64-bit `int`: it lies between `math.MinInt64` and
`math.MaxInt64`. -/
def FitsInt64 (x : Int) : Prop := -9223372036854775808 ≤ x ∧ x ≤ 9223372036854775807

/-- The value a Go 64-bit `int` holds when the mathematical result of an operation is
`x`: the representative of `x` modulo `2^64` between `math.MinInt64` and
`math.MaxInt64`. -/
def wrapInt64 (x : Int) : Int :=
  (x + 9223372036854775808) % 18446744073709551616 - 9223372036854775808

/-- The inner loop of the insertion sort of Go's `sort` package, run on `ByRatio`:
`for j := i; j > 0 && data.Less(j, j-1); j-- { data.Swap(j, j-1) }`.  The result is the
list of `Swap` calls the loop makes when it starts at `j` on the population `a`. -/
def insertionInner : Nat → List Actor → List (Nat × Nat)
  | 0, _ => []
  | j + 1, a =>
    match ByRatio.Less a (j + 1) j with
    | some true =>
      match ByRatio.Swap a (j + 1) j with
      | some a1 => (j + 1, j) :: insertionInner j a1
      | none => []
    | _ => []

/-- The outer loop `for i := 1; i < n; i++` of the insertion sort over the values of `i`
still to come: the `Swap` calls of the inner loop for the first `i`, then those of the
remaining iterations on the population the first leaves. -/
def insertionOuter : List Nat → List Actor → List (Nat × Nat)
  | [], _ => []
  | i :: rest, a =>
    match applySwaps (insertionInner i a) a with
    | some a1 => insertionInner i a ++ insertionOuter rest a1
    | none => insertionInner i a

/-- The `Swap` calls of `insertionSort(data, 0, n)` on `ByRatio(actors)`. -/
def insertionSortSwaps (actors : List Actor) : List (Nat × Nat) :=
  insertionOuter (loopIndices 1 actors.length) actors

/-- Go `sort.Sort(ByRatio(actors))`, run with `insertionSort` of the `sort` package, the
routine to which `sort.Sort` hands a slice of at most twelve elements.  On longer slices
the library makes other `Swap` calls, which may leave actors of equal lifetime ratio in
another order; they meet the same postcondition, `SortedByLess`. -/
def sortActors (actors : List Actor) : Option (List Actor) :=
  applySwaps (insertionSortSwaps actors) actors

/-- The order in which an ascending list of actors is kept: by lifetime ratio. -/
abbrev lifeLe (x y : Actor) : Prop := x.lifetimeRatio ≤ y.lifetimeRatio

/-! ## Lemmas on the hand total -/

theorem sortReverse_perm (hand : List Int) : (sortReverse hand).Perm hand :=
  List.perm_insertionSort _ hand

theorem sortReverse_congr {h₁ h₂ : List Int} (h : h₁.Perm h₂) :
    sortReverse h₁ = sortReverse h₂ := by
  have hp : (sortReverse h₁).Perm (sortReverse h₂) :=
    ((sortReverse_perm h₁).trans h).trans (sortReverse_perm h₂).symm
  exact List.eq_of_perm_of_sorted hp (List.sorted_insertionSort _ h₁)
    (List.sorted_insertionSort _ h₂)

theorem sumHand_congr {h₁ h₂ : List Int} (h : h₁.Perm h₂) : sumHand h₁ = sumHand h₂ := by
  unfold sumHand
  rw [sortReverse_congr h]

theorem sumHand_snd_perm (hand : List Int) : (sumHand hand).2.Perm hand :=
  sortReverse_perm hand

theorem sumLoop_ge (len : Nat) (cards : List Int) :
    ∀ (ix : Nat) (sum : Int), sum + cards.sum ≤ sumLoop len ix sum cards := by
  induction cards with
  | nil => intro ix sum; simp [sumLoop]
  | cons card rest ih =>
    intro ix sum
    unfold sumLoop
    split
    · next h =>
      have := ih (ix + 1) (sum + 11)
      simp only [List.sum_cons]
      omega
    · have := ih (ix + 1) (sum + card)
      simp only [List.sum_cons]
      omega

theorem sum_le_sumHand (hand : List Int) : hand.sum ≤ (sumHand hand).1 := by
  have h := sumLoop_ge (sortReverse hand).length (sortReverse hand) 0 0
  rw [(sortReverse_perm hand).sum_eq] at h
  simpa [sumHand] using h

theorem card_bounds (src : Source) (pos : Nat) :
    1 ≤ rand.Intn src pos 10 + 1 ∧ rand.Intn src pos 10 + 1 ≤ 10 := by
  unfold rand.Intn
  have := Nat.mod_lt (src pos) (show 0 < 10 by decide)
  omega

theorem drawn_ge_one (src : Source) : ∀ (k pos : Nat), ∀ c ∈ drawn src pos k, 1 ≤ c ∧ c ≤ 10 := by
  intro k
  induction k with
  | zero => intro pos c hc; simp [drawn] at hc
  | succ k ih =>
    intro pos c hc
    simp only [drawn, List.mem_cons] at hc
    rcases hc with rfl | hc
    · exact card_bounds src pos
    · exact ih (pos + 1) c hc

theorem drawn_length (src : Source) : ∀ (k pos : Nat), (drawn src pos k).length = k := by
  intro k
  induction k with
  | zero => intro pos; rfl
  | succ k ih => intro pos; simp [drawn, ih]

theorem length_le_sum (cards : List Int) (h : ∀ c ∈ cards, 1 ≤ c) :
    (cards.length : Int) ≤ cards.sum := by
  induction cards with
  | nil => simp
  | cons c rest ih =>
    have h1 := h c (List.mem_cons_self _ _)
    have h2 := ih (fun x hx => h x (List.mem_cons_of_mem _ hx))
    simp only [List.length_cons, List.sum_cons]
    push_cast
    omega

theorem drawn_sum_ge (src : Source) (pos k : Nat) : (k : Int) ≤ (drawn src pos k).sum := by
  have := length_le_sum (drawn src pos k) (fun c hc => (drawn_ge_one src k pos c hc).1)
  rwa [drawn_length] at this

theorem drawn_append (src : Source) : ∀ (k pos : Nat),
    drawn src pos (k + 1) = drawn src pos k ++ [rand.Intn src (pos + k) 10 + 1] := by
  intro k
  induction k with
  | zero => intro pos; simp [drawn]
  | succ k ih =>
    intro pos
    rw [drawn, ih (pos + 1)]
    simp [drawn, Nat.add_assoc, Nat.add_comm 1 k]

theorem index_valid (t : Table) (hv : ValidTable t) (r c : Int)
    (hr : 0 ≤ r ∧ r < 10) (hc : 0 ≤ c ∧ c < 42) :
    index t r c = some HOLD ∨ index t r c = some HIT := by
  unfold index
  rw [dif_pos ⟨hr, hc⟩]
  rcases hv ⟨r.toNat, by omega⟩ ⟨c.toNat, by omega⟩ with h | h
  · left; rw [h]
  · right; rw [h]

theorem sum_pos_of_cards (hand : List Int) (hne : hand ≠ []) (h : ∀ c ∈ hand, 1 ≤ c) :
    1 ≤ hand.sum := by
  have := length_le_sum hand h
  have hl : 0 < hand.length := List.length_pos.mpr hne
  omega

/-- The run of the `playHand` loop from an in-memory hand `cur` that is a rearrangement of
the logical hand `ext`: it stops after `k` draws at the first extension whose total is
at least 21 or whose cell says `HOLD`. -/
theorem playHand_run (actor : Actor) (u : Int) (src : Source)
    (hv : ValidTable actor.actions) (hu : 1 ≤ u ∧ u ≤ 10) :
    ∀ (fuel : Nat) (cur ext : List Int) (pos : Nat),
      cur.Perm ext → ext ≠ [] → (∀ c ∈ ext, 1 ≤ c) → 1 ≤ fuel → 22 ≤ (fuel : Int) + ext.sum →
      ∃ k : Nat,
        playHand actor u src fuel cur pos
            = .ok ((sumHand (ext ++ drawn src pos k)).1, (sumHand (ext ++ drawn src pos k)).2,
                pos + k)
          ∧ ((sumHand (ext ++ drawn src pos k)).1 > 21
              ∨ (sumHand (ext ++ drawn src pos k)).1 = 21
              ∨ index actor.actions (u - 1) ((sumHand (ext ++ drawn src pos k)).1 - 1)
                  = some HOLD)
          ∧ ∀ j < k, (sumHand (ext ++ drawn src pos j)).1 < 21
              ∧ index actor.actions (u - 1) ((sumHand (ext ++ drawn src pos j)).1 - 1)
                  = some HIT := by
  intro fuel
  induction fuel with
  | zero => intro cur ext pos _ _ _ h1 _; omega
  | succ fuel ih =>
    intro cur ext pos hperm hne hcards _ hfuel
    have hs : sumHand cur = sumHand ext := sumHand_congr hperm
    have hext0 : ext ++ drawn src pos 0 = ext := by simp [drawn]
    unfold playHand
    simp only [hs]
    by_cases h1 : (sumHand ext).1 > 21
    · refine ⟨0, ?_, ?_, ?_⟩
      · simp [hext0, h1]
      · rw [hext0]; exact Or.inl h1
      · intro j hj; omega
    by_cases h2 : (sumHand ext).1 = 21
    · refine ⟨0, ?_, ?_, ?_⟩
      · simp [hext0, h2]
      · rw [hext0]; exact Or.inr (Or.inl h2)
      · intro j hj; omega
    have hsum := sum_le_sumHand ext
    have hpos := sum_pos_of_cards ext hne hcards
    rcases index_valid actor.actions hv (u - 1) ((sumHand ext).1 - 1) (by omega) (by omega)
      with hc | hc
    · refine ⟨0, ?_, ?_, ?_⟩
      · simp [hext0, h1, h2, hc]
      · rw [hext0]; exact Or.inr (Or.inr hc)
      · intro j hj; omega
    · have hcb := card_bounds src pos
      have hperm' : ((sumHand ext).2 ++ [rand.Intn src pos 10 + 1]).Perm
          (ext ++ [rand.Intn src pos 10 + 1]) :=
        (sumHand_snd_perm ext).append_right _
      have hcards' : ∀ c ∈ ext ++ [rand.Intn src pos 10 + 1], 1 ≤ c := by
        intro c hc
        rcases List.mem_append.mp hc with h | h
        · exact hcards c h
        · rw [List.mem_singleton.mp h]; exact hcb.1
      have hsum' : (ext ++ [rand.Intn src pos 10 + 1]).sum = ext.sum + (rand.Intn src pos 10 + 1) := by
        simp
      obtain ⟨k, hrun, hstop, hcont⟩ := ih ((sumHand ext).2 ++ [rand.Intn src pos 10 + 1])
        (ext ++ [rand.Intn src pos 10 + 1]) (pos + 1) hperm' (by simp) hcards'
        (by omega) (by rw [hsum']; push_cast at hfuel ⊢; omega)
      have hassoc : ∀ j, (ext ++ [rand.Intn src pos 10 + 1]) ++ drawn src (pos + 1) j
          = ext ++ drawn src pos (j + 1) := by
        intro j; simp [drawn]
      simp only [hassoc] at hrun hstop hcont
      refine ⟨k + 1, ?_, hstop, ?_⟩
      · have hne' : ¬ (HIT = HOLD) := by decide
        simp only [h1, h2, hc, if_false, hne', if_true]
        rw [hrun]
        simp [Nat.add_assoc, Nat.add_comm 1 k]
      · intro j hj
        cases j with
        | zero => rw [hext0]; exact ⟨by omega, hc⟩
        | succ j => exact hcont j (by omega)

/-- The run of the dealer loop when the variable `sum` and the in-memory hand are the two
results of `sumHand` on the logical hand `ext`: it stops after `k` draws at the first
extension whose total is at least 17. -/
theorem dealerLoop_run (src : Source) :
    ∀ (fuel : Nat) (ext : List Int) (pos : Nat),
      (∀ c ∈ ext, 1 ≤ c) → 1 ≤ fuel → 18 ≤ (fuel : Int) + ext.sum →
      ∃ k : Nat,
        dealerLoop src fuel (sumHand ext).1 (sumHand ext).2 pos
            = .ok ((sumHand (ext ++ drawn src pos k)).1, (sumHand (ext ++ drawn src pos k)).2,
                pos + k)
          ∧ 17 ≤ (sumHand (ext ++ drawn src pos k)).1
          ∧ ∀ j < k, (sumHand (ext ++ drawn src pos j)).1 < 17 := by
  intro fuel
  induction fuel with
  | zero => intro ext pos _ h1 _; omega
  | succ fuel ih =>
    intro ext pos hcards _ hfuel
    have hext0 : ext ++ drawn src pos 0 = ext := by simp [drawn]
    unfold dealerLoop
    by_cases h1 : (sumHand ext).1 < 17
    · have hsum := sum_le_sumHand ext
      have hcb := card_bounds src pos
      have hdraw : sumHand ((sumHand ext).2 ++ [rand.Intn src pos 10 + 1])
          = sumHand (ext ++ [rand.Intn src pos 10 + 1]) :=
        sumHand_congr ((sumHand_snd_perm ext).append_right _)
      have hcards' : ∀ c ∈ ext ++ [rand.Intn src pos 10 + 1], 1 ≤ c := by
        intro c hc
        rcases List.mem_append.mp hc with h | h
        · exact hcards c h
        · rw [List.mem_singleton.mp h]; exact hcb.1
      have hsum' : (ext ++ [rand.Intn src pos 10 + 1]).sum
          = ext.sum + (rand.Intn src pos 10 + 1) := by simp
      obtain ⟨k, hrun, hstop, hcont⟩ := ih (ext ++ [rand.Intn src pos 10 + 1]) (pos + 1)
        hcards' (by omega) (by rw [hsum']; push_cast at hfuel ⊢; omega)
      have hassoc : ∀ j, (ext ++ [rand.Intn src pos 10 + 1]) ++ drawn src (pos + 1) j
          = ext ++ drawn src pos (j + 1) := by
        intro j; simp [drawn]
      simp only [hassoc] at hrun hstop hcont
      refine ⟨k + 1, ?_, hstop, ?_⟩
      · simp only [h1, if_true, drawCard, hdraw]
        rw [hrun]
        simp [Nat.add_assoc, Nat.add_comm 1 k]
      · intro j hj
        cases j with
        | zero => rw [hext0]; exact h1
        | succ j => exact hcont j (by omega)
    · refine ⟨0, ?_, ?_, ?_⟩
      · simp [hext0, h1]
      · rw [hext0]; omega
      · intro j hj; omega

theorem playDealerHand_run (src : Source) (fuel : Nat) (hand : List Int) (pos : Nat)
    (hcards : ∀ c ∈ hand, 1 ≤ c) (hf : 1 ≤ fuel) (hfuel : 18 ≤ (fuel : Int) + hand.sum) :
    ∃ k : Nat,
      playDealerHand src fuel hand pos
          = .ok ((sumHand (hand ++ drawn src pos k)).1, (sumHand (hand ++ drawn src pos k)).2,
              pos + k)
        ∧ 17 ≤ (sumHand (hand ++ drawn src pos k)).1
        ∧ ∀ j < k, (sumHand (hand ++ drawn src pos j)).1 < 17 :=
  dealerLoop_run src fuel hand pos hcards hf hfuel

theorem two_cards_facts (a b : Int) (ha : 1 ≤ a ∧ a ≤ 10) (hb : 1 ≤ b ∧ b ≤ 10) :
    ([a, b] : List Int) ≠ [] ∧ (∀ c ∈ ([a, b] : List Int), 1 ≤ c) ∧ ([a, b] : List Int).sum = a + b := by
  refine ⟨by simp, ?_, by simp⟩
  intro c hc
  simp only [List.mem_cons, List.mem_singleton, List.not_mem_nil, or_false] at hc
  rcases hc with rfl | rfl
  · exact ha.1
  · exact hb.1

/-- Every hand of the evaluation loop returns. -/
theorem playOneHand_ok (src : Source) (fuel : Nat) (actor : Actor) (pos : Nat)
    (hv : ValidTable actor.actions) (hf : 20 ≤ fuel) :
    ∃ r : Actor × Nat, playOneHand src fuel actor pos = .ok r ∧ r.1.actions = actor.actions
      ∧ r.1.lifetimeRatio = actor.lifetimeRatio := by
  have hc0 := card_bounds src pos
  have hc1 := card_bounds src (pos + 1)
  have hc2 := card_bounds src (pos + 2)
  have hc3 := card_bounds src (pos + 3)
  obtain ⟨hne, hcards, hsum⟩ := two_cards_facts _ _ hc0 hc1
  obtain ⟨_, hcardsD, hsumD⟩ := two_cards_facts _ _ hc2 hc3
  obtain ⟨k, hrun, -, -⟩ := playHand_run actor (rand.Intn src (pos + 2) 10 + 1) src hv hc2 fuel
    _ _ (pos + 4) (List.Perm.refl _) hne hcards (by omega) (by rw [hsum]; omega)
  unfold playOneHand
  simp only [hrun]
  split_ifs
  · exact ⟨_, rfl, rfl, rfl⟩
  · exact ⟨_, rfl, rfl, rfl⟩
  · obtain ⟨kd, hrunD, -, -⟩ := playDealerHand_run src fuel _ (pos + 4 + k) hcardsD (by omega)
      (by rw [hsumD]; omega)
    simp only [hrunD]
    split_ifs <;> exact ⟨_, rfl, rfl, rfl⟩

theorem playHandsLoop_ok (src : Source) (fuel : Nat) (hf : 20 ≤ fuel) :
    ∀ (n : Nat) (actor : Actor) (pos : Nat), ValidTable actor.actions →
      ∃ r : Actor × Nat, playHandsLoop src fuel n actor pos = .ok r
        ∧ r.1.actions = actor.actions ∧ r.1.lifetimeRatio = actor.lifetimeRatio := by
  intro n
  induction n with
  | zero => intro actor pos _; exact ⟨_, rfl, rfl, rfl⟩
  | succ n ih =>
    intro actor pos hv
    obtain ⟨r, hr, hact, hlife⟩ := playOneHand_ok src fuel actor pos hv hf
    obtain ⟨r2, hr2, hact2, hlife2⟩ := ih r.1 r.2 (by rw [hact]; exact hv)
    refine ⟨r2, ?_, hact2.trans hact, hlife2.trans hlife⟩
    unfold playHandsLoop
    simp only [hr]
    exact hr2

/-! ## Lemmas on the loops over the table cells -/

theorem finRange_split (n : Nat) (k : Fin n) :
    List.finRange n = (List.finRange n).take k.val ++ k :: (List.finRange n).drop (k.val + 1)
      ∧ k ∉ (List.finRange n).take k.val ∧ k ∉ (List.finRange n).drop (k.val + 1) := by
  have hlen : k.val < (List.finRange n).length := by simp
  have hget : (List.finRange n)[k.val] = k := by simp
  have hsplit : List.finRange n
      = (List.finRange n).take k.val ++ k :: (List.finRange n).drop (k.val + 1) := by
    conv_lhs => rw [← List.take_append_drop k.val (List.finRange n)]
    rw [List.drop_eq_getElem_cons hlen, hget]
  have hnd := List.nodup_finRange n
  rw [hsplit] at hnd
  have h := List.nodup_append.mp hnd
  refine ⟨hsplit, ?_, ?_⟩
  · intro hmem
    exact h.2.2 hmem (List.mem_cons_self _ _)
  · exact (List.nodup_cons.mp h.2.1).1

/-- A loop over cells none of which is `(i, j)` leaves cell `(i, j)` as it was, when each
step writes at most its own cell. -/
theorem foldCells_frame (step : Fin 10 → Table × Nat → Fin 42 → Table × Nat)
    (hframe : ∀ ix st ij i j, ¬ (i = ix ∧ j = ij) → (step ix st ij).1 i j = st.1 i j)
    (ix i : Fin 10) (j : Fin 42) :
    ∀ (cells : List (Fin 42)) (st : Table × Nat), (∀ ij ∈ cells, ¬ (i = ix ∧ j = ij)) →
      (cells.foldl (step ix) st).1 i j = st.1 i j := by
  intro cells
  induction cells with
  | nil => intro st _; rfl
  | cons ij rest ih =>
    intro st h
    rw [List.foldl_cons, ih _ (fun ij' hij' => h ij' (List.mem_cons_of_mem _ hij'))]
    exact hframe ix st ij i j (h ij (List.mem_cons_self _ _))

theorem foldRows_frame (step : Fin 10 → Table × Nat → Fin 42 → Table × Nat)
    (hframe : ∀ ix st ij i j, ¬ (i = ix ∧ j = ij) → (step ix st ij).1 i j = st.1 i j)
    (i : Fin 10) (j : Fin 42) :
    ∀ (rows : List (Fin 10)) (st : Table × Nat), i ∉ rows →
      (rows.foldl (fun st ix => (List.finRange 42).foldl (step ix) st) st).1 i j = st.1 i j := by
  intro rows
  induction rows with
  | nil => intro st _; rfl
  | cons ix rest ih =>
    intro st h
    have hne : i ≠ ix := fun e => h (e ▸ List.mem_cons_self _ _)
    rw [List.foldl_cons, ih _ (fun hmem => h (List.mem_cons_of_mem _ hmem))]
    exact foldCells_frame step hframe ix i j _ st (fun ij _ hh => hne hh.1)

/-- The value a double loop over the table leaves in cell `(ix, ij)` is the one the step
for that cell writes, and the cell still has its initial value when that step starts. -/
theorem foldCells_at (step : Fin 10 → Table × Nat → Fin 42 → Table × Nat)
    (hframe : ∀ ix st ij i j, ¬ (i = ix ∧ j = ij) → (step ix st ij).1 i j = st.1 i j)
    (st0 : Table × Nat) (ix : Fin 10) (ij : Fin 42) :
    ((List.finRange 10).foldl (fun st ix => (List.finRange 42).foldl (step ix) st) st0).1 ix ij
        = (step ix
            (((List.finRange 42).take ij.val).foldl (step ix)
              (((List.finRange 10).take ix.val).foldl
                (fun st ix => (List.finRange 42).foldl (step ix) st) st0)) ij).1 ix ij
      ∧ (((List.finRange 42).take ij.val).foldl (step ix)
          (((List.finRange 10).take ix.val).foldl
            (fun st ix => (List.finRange 42).foldl (step ix) st) st0)).1 ix ij = st0.1 ix ij := by
  obtain ⟨hrows, hr1, hr2⟩ := finRange_split 10 ix
  obtain ⟨hcols, hc1, hc2⟩ := finRange_split 42 ij
  have hrow : ∀ st : Table × Nat, (List.finRange 42).foldl (step ix) st
      = ((List.finRange 42).drop (ij.val + 1)).foldl (step ix)
          (step ix (((List.finRange 42).take ij.val).foldl (step ix) st) ij) := by
    intro st
    conv_lhs => rw [hcols]
    rw [List.foldl_append, List.foldl_cons]
  constructor
  · conv_lhs => rw [hrows]
    rw [List.foldl_append, List.foldl_cons, foldRows_frame step hframe ix ij _ _ hr2]
    rw [hrow]
    exact foldCells_frame step hframe ix ix ij _ _
      (fun ij' hij' hh => by obtain ⟨_, rfl⟩ := hh; exact hc2 hij')
  · rw [foldCells_frame step hframe ix ix ij _ _ (fun ij' hij' hh => by
      obtain ⟨_, rfl⟩ := hh; exact hc1 hij')]
    exact foldRows_frame step hframe ix ij _ _ hr1

theorem setCell_same (t : Table) (ix : Fin 10) (ij : Fin 42) (a : Action) :
    setCell t ix ij a ix ij = a := by
  simp [setCell]

theorem setCell_other (t : Table) (ix : Fin 10) (ij : Fin 42) (a : Action) (i : Fin 10)
    (j : Fin 42) (h : ¬ (i = ix ∧ j = ij)) : setCell t ix ij a i j = t i j := by
  simp [setCell, h]

theorem initializeCell_frame (src : Source) :
    ∀ ix st ij i j, ¬ (i = ix ∧ j = ij) → (initializeCell src ix st ij).1 i j = st.1 i j :=
  fun ix st ij i j h => setCell_other st.1 ix ij _ i j h

theorem mutateCell_frame (mutRate : ℚ) (src : Source) :
    ∀ ix st ij i j, ¬ (i = ix ∧ j = ij) → (mutateCell mutRate src ix st ij).1 i j = st.1 i j := by
  intro ix st ij i j h
  unfold mutateCell
  split
  · exact setCell_other st.1 ix ij _ i j h
  · rfl

theorem intn_two (src : Source) (pos : Nat) :
    rand.Intn src pos ACTIONS = HOLD ∨ rand.Intn src pos ACTIONS = HIT := by
  unfold rand.Intn ACTIONS HOLD HIT
  have := Nat.mod_lt (src pos) (show 0 < 2 by decide)
  omega

theorem float32_range (src : Source) (pos : Nat) :
    0 ≤ rand.Float32 src pos ∧ rand.Float32 src pos < 1 := by
  unfold rand.Float32
  have h : src pos % 2 ^ 24 < 2 ^ 24 := Nat.mod_lt _ (by positivity)
  have h' : ((src pos % 2 ^ 24 : Nat) : ℚ) < 2 ^ 24 := by exact_mod_cast h
  constructor
  · positivity
  · rw [div_lt_one (by positivity)]
    exact h'

/-- The cell `(ix, ij)` after `mutate`: what the step for that cell leaves there. -/
theorem mutate_cell (actor : Actor) (mutRate : ℚ) (src : Source) (pos : Nat) (ix : Fin 10)
    (ij : Fin 42) :
    (mutate actor mutRate src pos).1.actions ix ij
        = (mutateCell mutRate src ix (mutateStateAt actor mutRate src pos ix ij) ij).1 ix ij
      ∧ (mutateStateAt actor mutRate src pos ix ij).1 ix ij = actor.actions ix ij :=
  foldCells_at (mutateCell mutRate src) (mutateCell_frame mutRate src) (actor.actions, pos) ix ij

/-- The cell `(ix, ij)` after `initialize` is the draw made for it. -/
theorem initialize_cell (actor : Actor) (src : Source) (pos : Nat) (ix : Fin 10) (ij : Fin 42) :
    ∃ q : Nat, (initializeActor actor src pos).1.actions ix ij = rand.Intn src q ACTIONS :=
  ⟨_, ((foldCells_at (initializeCell src) (initializeCell_frame src) (actor.actions, pos)
    ix ij).1).trans (setCell_same _ ix ij _)⟩

theorem sumLoop_eq_documentedFold (len : Nat) (cards : List Int) :
    ∀ (ix : Nat) (sum : Int), len = ix + cards.length →
      sumLoop len ix sum cards = documentedFold sum cards := by
  induction cards with
  | nil => intro ix sum _; rfl
  | cons card rest ih =>
    intro ix sum hlen
    have hrem : (len : Int) - (ix : Int) = (((card :: rest).length : Nat) : Int) := by
      rw [hlen]; push_cast; ring
    have hlen' : len = (ix + 1) + rest.length := by
      rw [hlen, List.length_cons]; omega
    unfold sumLoop documentedFold
    rw [hrem, ih (ix + 1) (sum + 11) hlen', ih (ix + 1) (sum + card) hlen']

theorem sum_eq_of_no_ace (len : Nat) (cards : List Int) (h : ∀ c ∈ cards, c ≠ 1) :
    ∀ (ix : Nat) (sum : Int), sumLoop len ix sum cards = sum + cards.sum := by
  induction cards with
  | nil => intro ix sum; simp [sumLoop]
  | cons card rest ih =>
    intro ix sum
    have h1 : card ≠ 1 := h card (List.mem_cons_self _ _)
    unfold sumLoop
    simp only [h1, false_and, if_false, List.sum_cons]
    rw [ih (fun c hc => h c (List.mem_cons_of_mem _ hc))]
    ring

theorem sumHand_no_ace (hand : List Int) (h : ∀ c ∈ hand, c ≠ 1) :
    (sumHand hand).1 = hand.sum := by
  unfold sumHand
  simp only
  rw [sum_eq_of_no_ace _ _ (fun c hc => h c ((sortReverse_perm hand).mem_iff.mp hc))]
  rw [(sortReverse_perm hand).sum_eq]
  simp

/-- A run that stops at `k` and a run that stops at `k'` stop at the same point. -/
theorem stop_unique (t : Table) (r : Int) (total : Nat → Int) (k k' : Nat)
    (hstop : total k > 21 ∨ total k = 21 ∨ index t r (total k - 1) = some HOLD)
    (hcont : ∀ j < k, total j < 21 ∧ index t r (total j - 1) = some HIT)
    (hstop' : total k' > 21 ∨ total k' = 21 ∨ index t r (total k' - 1) = some HOLD)
    (hcont' : ∀ j < k', total j < 21 ∧ index t r (total j - 1) = some HIT) : k = k' := by
  have hne : (some HIT : Option Action) ≠ some HOLD := by decide
  rcases Nat.lt_trichotomy k k' with h | h | h
  · obtain ⟨h1, h2⟩ := hcont' k h
    rcases hstop with h3 | h3 | h3
    · omega
    · omega
    · rw [h2] at h3; exact absurd h3 hne
  · exact h
  · obtain ⟨h1, h2⟩ := hcont k' h
    rcases hstop' with h3 | h3 | h3
    · omega
    · omega
    · rw [h2] at h3; exact absurd h3 hne

theorem hitOnSixteen_valid : ValidTable hitOnSixteen := by
  intro i j
  unfold hitOnSixteen
  split
  · exact Or.inr rfl
  · exact Or.inl rfl

theorem alwaysHit_valid : ValidTable alwaysHit := fun _ _ => Or.inr rfl

theorem alwaysHold_valid : ValidTable alwaysHold := fun _ _ => Or.inl rfl

/-! ## The claims -/

/-- The number of draws of a player run is at most `21` minus the plain sum of the hand. -/
theorem draws_le (src : Source) (pos : Nat) (hand : List Int) (k : Nat)
    (hcont : ∀ j < k, (sumHand (hand ++ drawn src pos j)).1 < 21) :
    k = 0 ∨ (k : Int) + hand.sum ≤ 21 := by
  cases k with
  | zero => exact Or.inl rfl
  | succ j =>
    right
    have h1 := hcont j (Nat.lt_succ_self j)
    have h2 := sum_le_sumHand (hand ++ drawn src pos j)
    have h3 := drawn_sum_ge src pos j
    rw [List.sum_append] at h2
    push_cast
    omega

/-- C2: from an initial hand of two cards in 1..10, `playHand` returns the `sumHand`
total of the shortest extension of the hand by drawn cards whose total `t` is above 21,
equal to 21, or has `table[u-1][t-1] = HOLD`; at every shorter extension the total is
below 21 and the cell says `HIT`; the read position advances by one per `HIT`. -/
theorem playHand_shortest_extension (actor : Actor) (u : Int) (src : Source) (pos fuel : Nat)
    (a b : Int) (hv : ValidTable actor.actions) (hu : 1 ≤ u ∧ u ≤ 10)
    (ha : 1 ≤ a ∧ a ≤ 10) (hb : 1 ≤ b ∧ b ≤ 10) (hf : 20 ≤ fuel) :
    ∃ k : Nat,
      playHand actor u src fuel [a, b] pos
          = .ok ((sumHand ([a, b] ++ drawn src pos k)).1,
              (sumHand ([a, b] ++ drawn src pos k)).2, pos + k)
        ∧ ((sumHand ([a, b] ++ drawn src pos k)).1 > 21
            ∨ (sumHand ([a, b] ++ drawn src pos k)).1 = 21
            ∨ index actor.actions (u - 1) ((sumHand ([a, b] ++ drawn src pos k)).1 - 1)
                = some HOLD)
        ∧ ∀ j < k, (sumHand ([a, b] ++ drawn src pos j)).1 < 21
            ∧ index actor.actions (u - 1) ((sumHand ([a, b] ++ drawn src pos j)).1 - 1)
                = some HIT := by
  obtain ⟨hne, hcards, hsum⟩ := two_cards_facts a b ha hb
  exact playHand_run actor u src hv hu fuel [a, b] [a, b] pos (List.Perm.refl _) hne hcards
    (by omega) (by rw [hsum]; omega)

theorem playHand_shortest_extension_witness :
    ValidTable alwaysHit ∧
    ∃ k : Nat,
      playHand ⟨alwaysHit, 0, 0⟩ 3 (fun _ => 5) 20 [5, 6] 0
          = .ok ((sumHand ([5, 6] ++ drawn (fun _ => 5) 0 k)).1,
              (sumHand ([5, 6] ++ drawn (fun _ => 5) 0 k)).2, 0 + k)
        ∧ ((sumHand ([5, 6] ++ drawn (fun _ => 5) 0 k)).1 > 21
            ∨ (sumHand ([5, 6] ++ drawn (fun _ => 5) 0 k)).1 = 21
            ∨ index alwaysHit (3 - 1) ((sumHand ([5, 6] ++ drawn (fun _ => 5) 0 k)).1 - 1)
                = some HOLD)
        ∧ ∀ j < k, (sumHand ([5, 6] ++ drawn (fun _ => 5) 0 j)).1 < 21
            ∧ index alwaysHit (3 - 1) ((sumHand ([5, 6] ++ drawn (fun _ => 5) 0 j)).1 - 1)
                = some HIT :=
  ⟨alwaysHit_valid,
    playHand_shortest_extension ⟨alwaysHit, 0, 0⟩ 3 (fun _ => 5) 0 20 5 6 alwaysHit_valid
      (by decide) (by decide) (by decide) (by decide)⟩

/-- C3: `sumHand` computes the documented procedure (sort descending, then fold left to
right, an ace adding 11 when the running total plus the number of unprocessed cards,
the current one included, is below 12), and `sumHand [10,10] = 20`,
`sumHand [1,10] = 21`, `sumHand [1,1,9] = 21`. -/
theorem sumHand_documented :
    (∀ hand : List Int, (sumHand hand).1 = documentedSumHand hand)
    ∧ (sumHand [10, 10]).1 = 20 ∧ (sumHand [1, 10]).1 = 21 ∧ (sumHand [1, 1, 9]).1 = 21 := by
  refine ⟨fun hand => ?_, by decide, by decide, by decide⟩
  unfold sumHand documentedSumHand
  exact sumLoop_eq_documentedFold _ _ 0 0 (by simp)

/-- C4: from a dealer hand of two cards in 1..10, `playDealerHand` returns; it draws
exactly while the `sumHand` total is below 17 and returns the total of the final hand,
which is at least 17; a hand that starts at 17 or more gets no card, the soft 17
`[1, 6]` included. -/
theorem playDealerHand_stands_on_17 (src : Source) (pos fuel : Nat) (a b : Int)
    (ha : 1 ≤ a ∧ a ≤ 10) (hb : 1 ≤ b ∧ b ≤ 10) (hf : 16 ≤ fuel) :
    (∃ k : Nat,
      playDealerHand src fuel [a, b] pos
          = .ok ((sumHand ([a, b] ++ drawn src pos k)).1,
              (sumHand ([a, b] ++ drawn src pos k)).2, pos + k)
        ∧ 17 ≤ (sumHand ([a, b] ++ drawn src pos k)).1
        ∧ (∀ j < k, (sumHand ([a, b] ++ drawn src pos j)).1 < 17)
        ∧ (17 ≤ (sumHand [a, b]).1 → k = 0))
    ∧ playDealerHand src fuel [1, 6] pos = .ok (17, [6, 1], pos) := by
  obtain ⟨-, hcards, hsum⟩ := two_cards_facts a b ha hb
  constructor
  · obtain ⟨k, hrun, hstop, hcont⟩ := playDealerHand_run src fuel [a, b] pos hcards (by omega)
      (by rw [hsum]; omega)
    refine ⟨k, hrun, hstop, hcont, fun h17 => ?_⟩
    cases k with
    | zero => rfl
    | succ j =>
      have := hcont 0 (Nat.succ_pos j)
      simp only [drawn, List.append_nil] at this
      omega
  · obtain ⟨f, rfl⟩ : ∃ f, fuel = f + 1 := ⟨fuel - 1, by omega⟩
    have h : sumHand [1, 6] = (17, [6, 1]) := by decide
    simp [playDealerHand, dealerLoop, h]

theorem playDealerHand_stands_on_17_witness :
    (16 ≤ 16) ∧
    ((∃ k : Nat,
      playDealerHand (fun _ => 1) 16 [2, 3] 0
          = .ok ((sumHand ([2, 3] ++ drawn (fun _ => 1) 0 k)).1,
              (sumHand ([2, 3] ++ drawn (fun _ => 1) 0 k)).2, 0 + k)
        ∧ 17 ≤ (sumHand ([2, 3] ++ drawn (fun _ => 1) 0 k)).1
        ∧ (∀ j < k, (sumHand ([2, 3] ++ drawn (fun _ => 1) 0 j)).1 < 17)
        ∧ (17 ≤ (sumHand [2, 3]).1 → k = 0))
    ∧ playDealerHand (fun _ => 1) 16 [1, 6] 0 = .ok (17, [6, 1], 0)) :=
  ⟨by decide,
    playDealerHand_stands_on_17 (fun _ => 1) 0 16 2 3 (by decide) (by decide) (by decide)⟩

/-- C5: `playHand` terminates: for a valid table (the all-`HIT` table included), an
upcard in 1..10 and two initial cards in 1..10 there is one result, reached after at
most 19 draws, that the loop returns for every fuel of 20 or more, so the fuel bound
is never what stops it. -/
theorem playHand_terminates (actor : Actor) (u : Int) (src : Source) (pos : Nat) (a b : Int)
    (hv : ValidTable actor.actions) (hu : 1 ≤ u ∧ u ≤ 10)
    (ha : 1 ≤ a ∧ a ≤ 10) (hb : 1 ≤ b ∧ b ≤ 10) :
    ∃ (total : Int) (hand : List Int) (k : Nat), k ≤ 19 ∧
      ∀ fuel : Nat, 20 ≤ fuel →
        playHand actor u src fuel [a, b] pos = .ok (total, hand, pos + k) := by
  obtain ⟨hne, hcards, hsum⟩ := two_cards_facts a b ha hb
  obtain ⟨k, hrun, hstop, hcont⟩ := playHand_run actor u src hv hu 20 [a, b] [a, b] pos
    (List.Perm.refl _) hne hcards (by omega) (by rw [hsum]; omega)
  refine ⟨(sumHand ([a, b] ++ drawn src pos k)).1, (sumHand ([a, b] ++ drawn src pos k)).2, k,
    ?_, fun fuel hf => ?_⟩
  · rcases draws_le src pos [a, b] k (fun j hj => (hcont j hj).1) with h | h
    · omega
    · rw [hsum] at h; omega
  · obtain ⟨k', hrun', hstop', hcont'⟩ := playHand_run actor u src hv hu fuel [a, b] [a, b] pos
      (List.Perm.refl _) hne hcards (by omega) (by rw [hsum]; omega)
    have hk : k = k' := stop_unique actor.actions (u - 1)
      (fun j => (sumHand ([a, b] ++ drawn src pos j)).1) k k' hstop hcont hstop' hcont'
    rw [hrun', ← hk]

theorem playHand_terminates_witness :
    ValidTable alwaysHit ∧
    ∃ (total : Int) (hand : List Int) (k : Nat), k ≤ 19 ∧
      ∀ fuel : Nat, 20 ≤ fuel →
        playHand ⟨alwaysHit, 0, 0⟩ 1 (fun _ => 0) fuel [2, 2] 0 = .ok (total, hand, 0 + k) :=
  ⟨alwaysHit_valid,
    playHand_terminates ⟨alwaysHit, 0, 0⟩ 1 (fun _ => 0) 0 2 2 alwaysHit_valid
      (by decide) (by decide) (by decide)⟩

/-- C6, as stated, fails: on the soft hand `[1, 5]` (total 16) a table that hits on 16
draws a 6 and `playHand` returns 12, which is below the initial total. -/
theorem playHand_total_can_drop :
    ValidTable hitOnSixteen
    ∧ (sumHand [1, 5]).1 = 16
    ∧ playHand ⟨hitOnSixteen, 0, 0⟩ 1 (fun _ => 5) 20 [1, 5] 0 = .ok (12, [6, 5, 1], 1) :=
  ⟨hitOnSixteen_valid, by decide, by rfl⟩

/-- C6, amended: the total `playHand` returns is at least the plain sum of the two
initial card values, hence at least `sumHand` of the initial hand when that hand holds
no ace. -/
theorem playHand_ge_hard_total (actor : Actor) (u : Int) (src : Source) (pos fuel : Nat)
    (a b : Int) (hv : ValidTable actor.actions) (hu : 1 ≤ u ∧ u ≤ 10)
    (ha : 1 ≤ a ∧ a ≤ 10) (hb : 1 ≤ b ∧ b ≤ 10) (hf : 20 ≤ fuel) :
    ∃ (total : Int) (hand : List Int) (pos1 : Nat),
      playHand actor u src fuel [a, b] pos = .ok (total, hand, pos1)
        ∧ a + b ≤ total
        ∧ (a ≠ 1 ∧ b ≠ 1 → (sumHand [a, b]).1 ≤ total) := by
  obtain ⟨hne, hcards, hsum⟩ := two_cards_facts a b ha hb
  obtain ⟨k, hrun, -, -⟩ := playHand_run actor u src hv hu fuel [a, b] [a, b] pos
    (List.Perm.refl _) hne hcards (by omega) (by rw [hsum]; omega)
  have h1 := sum_le_sumHand ([a, b] ++ drawn src pos k)
  have h2 := drawn_sum_ge src pos k
  rw [List.sum_append, hsum] at h1
  refine ⟨_, _, _, hrun, by omega, fun hna => ?_⟩
  have h3 : (sumHand [a, b]).1 = [a, b].sum := by
    apply sumHand_no_ace
    intro c hc
    simp only [List.mem_cons, List.mem_singleton, List.not_mem_nil, or_false] at hc
    rcases hc with rfl | rfl
    · exact hna.1
    · exact hna.2
  rw [h3, hsum]
  omega

theorem playHand_ge_hard_total_witness :
    ValidTable hitOnSixteen ∧
    ∃ (total : Int) (hand : List Int) (pos1 : Nat),
      playHand ⟨hitOnSixteen, 0, 0⟩ 1 (fun _ => 5) 20 [1, 5] 0 = .ok (total, hand, pos1)
        ∧ 1 + 5 ≤ total
        ∧ ((1 : Int) ≠ 1 ∧ (5 : Int) ≠ 1 → (sumHand [1, 5]).1 ≤ total) :=
  ⟨hitOnSixteen_valid,
    playHand_ge_hard_total ⟨hitOnSixteen, 0, 0⟩ 1 (fun _ => 5) 0 20 1 5 hitOnSixteen_valid
      (by decide) (by decide) (by decide) (by decide)⟩

theorem mem_loopIndices (start end_ i : Nat) :
    i ∈ loopIndices start end_ ↔ start ≤ i ∧ i < end_ := by
  unfold loopIndices
  rw [List.mem_range'_1]
  omega

theorem loopIndices_append (a b c : Nat) (hab : a ≤ b) (hbc : b ≤ c) :
    loopIndices a b ++ loopIndices b c = loopIndices a c := by
  unfold loopIndices
  have h := List.range'_append a (b - a) (c - b) 1
  have h1 : a + 1 * (b - a) = b := by omega
  have h2 : c - b + (b - a) = c - a := by omega
  rw [h1, h2] at h
  exact h

theorem shardRanges_eq (n : Nat) :
    shardRanges n = [(0, n / 8), (n / 8, 2 * (n / 8)), (2 * (n / 8), 3 * (n / 8)),
      (3 * (n / 8), 4 * (n / 8)), (4 * (n / 8), 5 * (n / 8)), (5 * (n / 8), 6 * (n / 8)),
      (6 * (n / 8), 7 * (n / 8)), (7 * (n / 8), n)] := by
  simp [shardRanges, ROUTINES, loopIndices, List.range']

theorem swap_mem (a b : List Actor) (i j : Nat) (h : ByRatio.Swap a i j = some b) :
    ∀ x ∈ b, x ∈ a := by
  unfold ByRatio.Swap at h
  split at h
  · next x y hx hy =>
    cases h
    intro z hz
    rcases List.mem_or_eq_of_mem_set hz with hz | rfl
    · rcases List.mem_or_eq_of_mem_set hz with hz | rfl
      · exact hz
      · exact List.getElem?_mem hy
    · exact List.getElem?_mem hx
  · cases h

theorem applySwaps_mem : ∀ (swaps : List (Nat × Nat)) (a b : List Actor),
    applySwaps swaps a = some b → ∀ x ∈ b, x ∈ a := by
  intro swaps
  induction swaps with
  | nil =>
    intro a b h
    simp only [applySwaps, Option.some.injEq] at h
    rw [h]
    exact fun x hx => hx
  | cons s rest ih =>
    intro a b h
    obtain ⟨i, j⟩ := s
    unfold applySwaps at h
    split at h
    · cases h
    · next a1 h1 =>
      intro x hx
      exact swap_mem a a1 i j h1 x (ih a1 b h x hx)

/-- C9: `mutate` with rate 0 leaves every cell of the table as it was, for every actor
and every outcome of the draws (each `rand.Float32()` draw lies in `[0, 1)`); with any
rate, a cell either keeps its value or the draw made for that cell was below the rate. -/
theorem mutate_changes_only_drawn_cells (actor : Actor) (mutRate : ℚ) (src : Source)
    (pos : Nat) :
    (mutate actor 0 src pos).1.actions = actor.actions
    ∧ (∀ q : Nat, 0 ≤ rand.Float32 src q ∧ rand.Float32 src q < 1)
    ∧ ∀ (ix : Fin 10) (ij : Fin 42),
        (mutate actor mutRate src pos).1.actions ix ij = actor.actions ix ij
          ∨ rand.Float32 src (mutateStateAt actor mutRate src pos ix ij).2 < mutRate := by
  have key : ∀ (r : ℚ) (ix : Fin 10) (ij : Fin 42),
      (mutate actor r src pos).1.actions ix ij = actor.actions ix ij
        ∨ rand.Float32 src (mutateStateAt actor r src pos ix ij).2 < r := by
    intro r ix ij
    obtain ⟨h1, h2⟩ := mutate_cell actor r src pos ix ij
    by_cases hlt : rand.Float32 src (mutateStateAt actor r src pos ix ij).2 < r
    · exact Or.inr hlt
    · left
      rw [h1, ← h2]
      unfold mutateCell
      rw [if_neg hlt]
  refine ⟨?_, float32_range src, key mutRate⟩
  funext ix ij
  rcases key 0 ix ij with h | h
  · exact h
  · exact absurd h (not_lt.mpr (float32_range src _).1)

/-- C10: table validity is an invariant.  After `initialize`, from any prior state,
every cell is `HOLD` or `HIT`; `mutate` keeps a valid table valid for every rate and
every outcome of the draws; so does any run of `Swap` calls, hence sorting, on the
tables of a population; and `playHands` on a valid table returns the actor with the
same table. -/
theorem table_validity_invariant :
    (∀ (actor : Actor) (src : Source) (pos : Nat),
        ValidTable (initializeActor actor src pos).1.actions)
    ∧ (∀ (actor : Actor) (mutRate : ℚ) (src : Source) (pos : Nat),
        ValidTable actor.actions → ValidTable (mutate actor mutRate src pos).1.actions)
    ∧ (∀ (swaps : List (Nat × Nat)) (before after : List Actor),
        applySwaps swaps before = some after →
        (∀ a ∈ before, ValidTable a.actions) → ∀ a ∈ after, ValidTable a.actions)
    ∧ (∀ (src : Source) (fuel : Nat) (actor : Actor) (numHands : Int) (pos : Nat),
        20 ≤ fuel → ValidTable actor.actions →
        ∃ r : Actor × Nat, playHands src fuel actor numHands pos = .ok r
          ∧ r.1.actions = actor.actions ∧ ValidTable r.1.actions) := by
  refine ⟨?_, ?_, ?_, ?_⟩
  · intro actor src pos ix ij
    obtain ⟨q, hq⟩ := initialize_cell actor src pos ix ij
    rw [hq]
    exact intn_two src q
  · intro actor mutRate src pos hv ix ij
    obtain ⟨h1, h2⟩ := mutate_cell actor mutRate src pos ix ij
    rw [h1]
    unfold mutateCell
    split
    · show setCell _ ix ij _ ix ij = HOLD ∨ setCell _ ix ij _ ix ij = HIT
      rw [setCell_same]
      exact intn_two src _
    · show (mutateStateAt actor mutRate src pos ix ij).1 ix ij = HOLD ∨ _
      rw [h2]
      exact hv ix ij
  · intro swaps before after h hv a ha
    exact hv a (applySwaps_mem swaps before after h a ha)
  · intro src fuel actor numHands pos hf hv
    obtain ⟨r, hr, hact, -⟩ := playHandsLoop_ok src fuel hf numHands.toNat actor pos hv
    exact ⟨r, hr, hact, by rw [hact]; exact hv⟩

theorem table_validity_invariant_witness :
    ValidTable alwaysHit
    ∧ ValidTable (mutate ⟨alwaysHit, 0, 0⟩ (1 / 20) (fun _ => 0) 0).1.actions
    ∧ ∃ r : Actor × Nat, playHands (fun _ => 5) 20 ⟨alwaysHit, 0, 0⟩ 3 0 = .ok r
        ∧ r.1.actions = alwaysHit ∧ ValidTable r.1.actions :=
  ⟨alwaysHit_valid,
    table_validity_invariant.2.1 ⟨alwaysHit, 0, 0⟩ (1 / 20) (fun _ => 0) 0 alwaysHit_valid,
    table_validity_invariant.2.2.2 (fun _ => 5) 20 ⟨alwaysHit, 0, 0⟩ 3 0 (by decide)
      alwaysHit_valid⟩

/-- On a descending list of cards that are at least 1, the documented fold from a
non-negative running total adds ten to the plain sum exactly when the list holds an ace
and the plain sum is at most 11. -/
theorem documentedFold_closed (cards : List Int) :
    cards.Sorted (fun a b => a ≥ b) → (∀ c ∈ cards, 1 ≤ c) → ∀ total : Int, 0 ≤ total →
      documentedFold total cards
        = if 1 ∈ cards ∧ total + cards.sum ≤ 11 then total + cards.sum + 10
          else total + cards.sum := by
  induction cards with
  | nil => intro _ _ total _; simp [documentedFold]
  | cons card rest ih =>
    intro hsorted hcards total htotal
    have hrest := List.sorted_cons.mp hsorted
    have hcards' : ∀ c ∈ rest, 1 ≤ c := fun c hc => hcards c (List.mem_cons_of_mem _ hc)
    have hc1 : 1 ≤ card := hcards card (List.mem_cons_self _ _)
    have hlen : (rest.length : Int) ≤ rest.sum := length_le_sum rest hcards'
    unfold documentedFold
    simp only [List.sum_cons, List.length_cons, List.mem_cons]
    by_cases hace : card = 1
    · have hones : ∀ c ∈ rest, c = 1 := by
        intro c hc
        have h1 := hrest.1 c hc
        have h2 := hcards' c hc
        omega
      have hsum : rest.sum = (rest.length : Int) := by
        clear ih hsorted hcards hrest hcards' hlen
        induction rest with
        | nil => simp
        | cons c r ihr =>
          have hc := hones c (List.mem_cons_self _ _)
          have := ihr (fun x hx => hones x (List.mem_cons_of_mem _ hx))
          simp only [List.sum_cons, List.length_cons]
          push_cast
          omega
      by_cases hcond : total + ((rest.length + 1 : Nat) : Int) < 12
      · rw [if_pos ⟨hace, hcond⟩, ih hrest.2 hcards' (total + 11) (by omega)]
        push_cast at hcond
        have hno : ¬ (1 ∈ rest ∧ total + 11 + rest.sum ≤ 11) := by
          rintro ⟨hmem, hle⟩
          have : rest.length = 0 := by omega
          rw [List.length_eq_zero] at this
          rw [this] at hmem
          exact absurd hmem (List.not_mem_nil _)
        rw [if_neg hno, if_pos ⟨Or.inl hace.symm, by omega⟩]
        omega
      · rw [if_neg (fun h => hcond h.2), ih hrest.2 hcards' (total + card) (by omega)]
        push_cast at hcond
        rw [if_neg (by rintro ⟨_, h⟩; omega), if_neg (by rintro ⟨_, h⟩; omega)]
        omega
    · rw [if_neg (fun h => hace h.1), ih hrest.2 hcards' (total + card) (by omega)]
      have hiff : (1 = card ∨ 1 ∈ rest) ↔ 1 ∈ rest := by
        constructor
        · rintro (h | h)
          · exact absurd h.symm hace
          · exact h
        · exact Or.inr
      simp only [hiff, add_assoc]

/-- The closed form of `sumHand` on cards that are at least 1. -/
theorem sumHand_closed (hand : List Int) (hcards : ∀ c ∈ hand, 1 ≤ c) :
    (sumHand hand).1
      = if 1 ∈ hand ∧ hand.sum ≤ 11 then hand.sum + 10 else hand.sum := by
  have hp := sortReverse_perm hand
  have h := documentedFold_closed (sortReverse hand) (List.sorted_insertionSort _ hand)
    (fun c hc => hcards c (hp.mem_iff.mp hc)) 0 (le_refl 0)
  have h0 : (sumHand hand).1 = documentedFold 0 (sortReverse hand) := by
    unfold sumHand
    exact sumLoop_eq_documentedFold _ _ 0 0 (by simp)
  rw [h0, h, hp.sum_eq]
  simp only [zero_add, hp.mem_iff]

/-- A hand of at least two cards, each at least 1, totals at least 4. -/
theorem four_le_sumHand (hand : List Int) (hlen : 2 ≤ hand.length) (hcards : ∀ c ∈ hand, 1 ≤ c) :
    4 ≤ (sumHand hand).1 := by
  rw [sumHand_closed hand hcards]
  have hsum := length_le_sum hand hcards
  split
  · omega
  · next hno =>
    by_cases hace : 1 ∈ hand
    · have : ¬ hand.sum ≤ 11 := fun h => hno ⟨hace, h⟩
      omega
    · have h2 : ∀ c ∈ hand, 2 ≤ c := by
        intro c hc
        have h1 := hcards c hc
        have hne : c ≠ 1 := fun e => hace (e ▸ hc)
        omega
      have hdouble : 2 * (hand.length : Int) ≤ hand.sum := by
        clear hsum hlen hcards hno hace
        induction hand with
        | nil => simp
        | cons c r ih =>
          have hc := h2 c (List.mem_cons_self _ _)
          have := ih (fun x hx => h2 x (List.mem_cons_of_mem _ hx))
          simp only [List.sum_cons, List.length_cons]
          push_cast
          omega
      omega

theorem index_some (t : Table) (r c : Int) (hr : 0 ≤ r ∧ r < 10) (hc : 0 ≤ c ∧ c < 42) :
    index t r c = some (t ⟨r.toNat, by omega⟩ ⟨c.toNat, by omega⟩) := by
  unfold index
  rw [dif_pos ⟨hr, hc⟩]

/-- Two tables that agree on columns 3..19 give the same lookup for a row in 0..9 and a
column in 3..19. -/
theorem index_agree (t t' : Table)
    (hagree : ∀ (i : Fin 10) (j : Fin 42), 3 ≤ j.val → j.val ≤ 19 → t i j = t' i j)
    (r c : Int) (hr : 0 ≤ r ∧ r < 10) (hc : 3 ≤ c ∧ c ≤ 19) :
    index t r c = index t' r c := by
  rw [index_some t r c hr (by omega), index_some t' r c hr (by omega)]
  congr 1
  apply hagree
  · show 3 ≤ c.toNat
    omega
  · show c.toNat ≤ 19
    omega

theorem hand_grows (hand : List Int) (c : Int) (hlen : 2 ≤ hand.length)
    (hcards : ∀ x ∈ hand, 1 ≤ x) (hc : 1 ≤ c) :
    2 ≤ ((sumHand hand).2 ++ [c]).length ∧ (∀ x ∈ (sumHand hand).2 ++ [c], 1 ≤ x)
      ∧ 2 ≤ (sumHand hand).2.length ∧ (∀ x ∈ (sumHand hand).2, 1 ≤ x) := by
  have hp := sumHand_snd_perm hand
  have hl : (sumHand hand).2.length = hand.length := hp.length_eq
  have hm : ∀ x ∈ (sumHand hand).2, 1 ≤ x := fun x hx => hcards x (hp.mem_iff.mp hx)
  refine ⟨by rw [List.length_append]; omega, ?_, by omega, hm⟩
  intro x hx
  rcases List.mem_append.mp hx with h | h
  · exact hm x h
  · rw [List.mem_singleton.mp h]; exact hc

/-- The lookup of `playHand` never leaves the table, whatever the cells hold. -/
theorem playHand_in_range (actor : Actor) (u : Int) (src : Source) (hu : 1 ≤ u ∧ u ≤ 10) :
    ∀ (fuel : Nat) (hand : List Int) (pos : Nat), 2 ≤ hand.length → (∀ c ∈ hand, 1 ≤ c) →
      playHand actor u src fuel hand pos ≠ .error .indexOutOfRange := by
  intro fuel
  induction fuel with
  | zero => intro hand pos _ _; simp [playHand]
  | succ fuel ih =>
    intro hand pos hlen hcards
    have hfour := four_le_sumHand hand hlen hcards
    obtain ⟨g1, g2, g3, g4⟩ := hand_grows hand _ hlen hcards (card_bounds src pos).1
    unfold playHand
    simp only
    by_cases h1 : (sumHand hand).1 > 21
    · rw [if_pos h1]; simp
    rw [if_neg h1]
    by_cases h2 : (sumHand hand).1 = 21
    · rw [if_pos h2]; simp
    rw [if_neg h2]
    obtain ⟨cell, hcell⟩ : ∃ cell, index actor.actions (u - 1) ((sumHand hand).1 - 1)
        = some cell :=
      ⟨_, index_some actor.actions (u - 1) ((sumHand hand).1 - 1) (by omega) (by omega)⟩
    rw [hcell]
    simp only
    by_cases h3 : cell = HOLD
    · rw [if_pos h3]; simp
    rw [if_neg h3]
    by_cases h4 : cell = HIT
    · rw [if_pos h4]; exact ih _ _ g1 g2
    · rw [if_neg h4]; exact ih _ _ g3 g4

/-- Cells outside columns 3..19 never influence `playHand`. -/
theorem playHand_agree (actor actor' : Actor) (u : Int) (src : Source) (hu : 1 ≤ u ∧ u ≤ 10)
    (hagree : ∀ (i : Fin 10) (j : Fin 42), 3 ≤ j.val → j.val ≤ 19 →
      actor.actions i j = actor'.actions i j) :
    ∀ (fuel : Nat) (hand : List Int) (pos : Nat), 2 ≤ hand.length → (∀ c ∈ hand, 1 ≤ c) →
      playHand actor u src fuel hand pos = playHand actor' u src fuel hand pos := by
  intro fuel
  induction fuel with
  | zero => intro hand pos _ _; simp [playHand]
  | succ fuel ih =>
    intro hand pos hlen hcards
    have hfour := four_le_sumHand hand hlen hcards
    obtain ⟨g1, g2, g3, g4⟩ := hand_grows hand _ hlen hcards (card_bounds src pos).1
    unfold playHand
    simp only
    by_cases h1 : (sumHand hand).1 > 21
    · rw [if_pos h1, if_pos h1]
    rw [if_neg h1, if_neg h1]
    by_cases h2 : (sumHand hand).1 = 21
    · rw [if_pos h2, if_pos h2]
    rw [if_neg h2, if_neg h2]
    rw [index_agree actor.actions actor'.actions hagree (u - 1) ((sumHand hand).1 - 1)
      (by omega) (by omega)]
    obtain ⟨cell, hcell⟩ : ∃ cell, index actor'.actions (u - 1) ((sumHand hand).1 - 1)
        = some cell :=
      ⟨_, index_some actor'.actions (u - 1) ((sumHand hand).1 - 1) (by omega) (by omega)⟩
    rw [hcell]
    simp only
    by_cases h3 : cell = HOLD
    · rw [if_pos h3, if_pos h3]
    rw [if_neg h3, if_neg h3]
    by_cases h5 : cell = HIT
    · rw [if_pos h5, if_pos h5]; exact ih _ _ g1 g2
    · rw [if_neg h5, if_neg h5]; exact ih _ _ g3 g4

theorem ext_facts (src : Source) (pos : Nat) (a b : Int) (ha : 1 ≤ a ∧ a ≤ 10)
    (hb : 1 ≤ b ∧ b ≤ 10) (j : Nat) :
    2 ≤ ([a, b] ++ drawn src pos j).length
      ∧ ∀ c ∈ [a, b] ++ drawn src pos j, 1 ≤ c ∧ c ≤ 10 := by
  constructor
  · rw [List.length_append]; simp
  · intro c hc
    rcases List.mem_append.mp hc with h | h
    · simp only [List.mem_cons, List.mem_singleton, List.not_mem_nil, or_false] at h
      rcases h with rfl | rfl
      · exact ha
      · exact hb
    · exact drawn_ge_one src j pos c h

/-- C15, as stated, fails: the soft hand `[1, 5]` totals 16, and with a drawn 10
appended it still totals 16, so the hit does not increase the total. -/
theorem hit_can_keep_total :
    (sumHand [1, 5]).1 = 16 ∧ (sumHand ([1, 5] ++ [10])).1 = 16
      ∧ ¬ ((sumHand ([1, 5] ++ [10])).1 > (sumHand [1, 5]).1) := by
  decide

/-- C15, amended: for a hand of cards in 1..10 (those of at least two cards with total
below 21 among them) and a drawn card in 1..10, the hit strictly increases the plain sum of
the card values; it strictly increases the `sumHand` total when no ace of the hand is
counted as 11 (the total equals the plain sum), and also when the plain sum after the draw
is at most 11. -/
theorem hit_increases_hard_total (hand : List Int) (c : Int)
    (hcards : ∀ x ∈ hand, 1 ≤ x ∧ x ≤ 10) (hc : 1 ≤ c ∧ c ≤ 10) :
    hand.sum < (hand ++ [c]).sum
    ∧ ((sumHand hand).1 = hand.sum → (sumHand hand).1 < (sumHand (hand ++ [c])).1)
    ∧ ((hand ++ [c]).sum ≤ 11 → (sumHand hand).1 < (sumHand (hand ++ [c])).1) := by
  have hsum : (hand ++ [c]).sum = hand.sum + c := by simp
  have hge := sum_le_sumHand (hand ++ [c])
  have hcards' : ∀ x ∈ hand ++ [c], 1 ≤ x := by
    intro x hx
    rcases List.mem_append.mp hx with h | h
    · exact (hcards x h).1
    · rw [List.mem_singleton.mp h]; exact hc.1
  refine ⟨by omega, fun hhard => by omega, fun hsmall => ?_⟩
  rw [sumHand_closed hand (fun x hx => (hcards x hx).1), sumHand_closed (hand ++ [c]) hcards']
  by_cases hace : 1 ∈ hand
  · rw [if_pos ⟨hace, by omega⟩, if_pos ⟨List.mem_append_left _ hace, hsmall⟩]
    omega
  · rw [if_neg (fun h => hace h.1)]
    split <;> omega

theorem hit_increases_hard_total_witness :
    (2 ≤ ([1, 5] : List Int).length ∧ (sumHand [1, 5]).1 < 21)
    ∧ ([1, 5] : List Int).sum < ([1, 5] ++ [10]).sum
    ∧ ((sumHand [1, 5]).1 = ([1, 5] : List Int).sum
        → (sumHand [1, 5]).1 < (sumHand ([1, 5] ++ [10])).1)
    ∧ (([1, 5] ++ [10] : List Int).sum ≤ 11
        → (sumHand [1, 5]).1 < (sumHand ([1, 5] ++ [10])).1) :=
  ⟨by decide, hit_increases_hard_total [1, 5] 10 (by decide) (by decide)⟩

/-- C17: on cards in 1..10, `sumHand` is the plain sum `h` plus ten when the hand holds
an ace and `h ≤ 11`, and `h` otherwise; so the total exceeds `h` by 0 or by 10 (at most one
ace counts as 11), a total that counts an ace as 11 is at most 21, and every
rearrangement of the hand has the same total. -/
theorem sumHand_best_total (hand : List Int) (hcards : ∀ c ∈ hand, 1 ≤ c ∧ c ≤ 10) :
    (sumHand hand).1 = (if 1 ∈ hand ∧ hand.sum ≤ 11 then hand.sum + 10 else hand.sum)
    ∧ ((sumHand hand).1 = hand.sum ∨ (sumHand hand).1 = hand.sum + 10)
    ∧ ((sumHand hand).1 = hand.sum + 10 → (sumHand hand).1 ≤ 21)
    ∧ ∀ hand' : List Int, hand'.Perm hand → (sumHand hand').1 = (sumHand hand).1 := by
  have h := sumHand_closed hand (fun c hc => (hcards c hc).1)
  refine ⟨h, ?_, ?_, fun hand' hp => by rw [sumHand_congr hp]⟩
  · rw [h]; split
    · exact Or.inr rfl
    · exact Or.inl rfl
  · rw [h]; split
    · next hc => intro _; omega
    · intro he; omega

theorem sumHand_best_total_witness :
    (sumHand [1, 1, 9]).1
        = (if (1 : Int) ∈ [1, 1, 9] ∧ ([1, 1, 9] : List Int).sum ≤ 11
            then ([1, 1, 9] : List Int).sum + 10 else ([1, 1, 9] : List Int).sum)
    ∧ ((sumHand [1, 1, 9]).1 = ([1, 1, 9] : List Int).sum
        ∨ (sumHand [1, 1, 9]).1 = ([1, 1, 9] : List Int).sum + 10)
    ∧ ((sumHand [1, 1, 9]).1 = ([1, 1, 9] : List Int).sum + 10 → (sumHand [1, 1, 9]).1 ≤ 21)
    ∧ ∀ hand' : List Int, hand'.Perm [1, 1, 9] → (sumHand hand').1 = (sumHand [1, 1, 9]).1 :=
  sumHand_best_total [1, 1, 9] (by decide)

/-- C18: the table lookup of `playHand` stays in range.  For an upcard in 1..10 and two
initial cards in 1..10 the row index is in 0..9; every hand the loop can hold totals at
least 4, so at a lookup, where the total is below 21, the column index is in 3..19 and
the cell exists; the loop never ends in the out-of-range fault, whatever the table holds;
and two tables that agree on columns 3..19 play alike. -/
theorem playHand_lookup_in_range (actor : Actor) (u : Int) (src : Source) (pos : Nat)
    (a b : Int) (hu : 1 ≤ u ∧ u ≤ 10) (ha : 1 ≤ a ∧ a ≤ 10) (hb : 1 ≤ b ∧ b ≤ 10) :
    (0 ≤ u - 1 ∧ u - 1 ≤ 9)
    ∧ (∀ j : Nat, 4 ≤ (sumHand ([a, b] ++ drawn src pos j)).1)
    ∧ (∀ j : Nat, (sumHand ([a, b] ++ drawn src pos j)).1 < 21 →
        3 ≤ (sumHand ([a, b] ++ drawn src pos j)).1 - 1
        ∧ (sumHand ([a, b] ++ drawn src pos j)).1 - 1 ≤ 19
        ∧ index actor.actions (u - 1) ((sumHand ([a, b] ++ drawn src pos j)).1 - 1) ≠ none)
    ∧ (∀ fuel : Nat, playHand actor u src fuel [a, b] pos ≠ .error .indexOutOfRange)
    ∧ (∀ actor' : Actor,
        (∀ (i : Fin 10) (j : Fin 42), 3 ≤ j.val → j.val ≤ 19 →
          actor.actions i j = actor'.actions i j) →
        ∀ fuel : Nat, playHand actor u src fuel [a, b] pos
          = playHand actor' u src fuel [a, b] pos) := by
  have hfour : ∀ j : Nat, 4 ≤ (sumHand ([a, b] ++ drawn src pos j)).1 := by
    intro j
    obtain ⟨h1, h2⟩ := ext_facts src pos a b ha hb j
    exact four_le_sumHand _ h1 (fun c hc => (h2 c hc).1)
  obtain ⟨h1, h2⟩ := ext_facts src pos a b ha hb 0
  simp only [drawn, List.append_nil] at h1 h2
  refine ⟨by omega, hfour, ?_, ?_, ?_⟩
  · intro j hlt
    have h4 := hfour j
    refine ⟨by omega, by omega, ?_⟩
    rw [index_some actor.actions (u - 1) _ (by omega) (by omega)]
    simp
  · intro fuel
    exact playHand_in_range actor u src hu fuel [a, b] pos h1 (fun c hc => (h2 c hc).1)
  · intro actor' hagree fuel
    exact playHand_agree actor actor' u src hu hagree fuel [a, b] pos h1
      (fun c hc => (h2 c hc).1)

theorem playHand_lookup_in_range_witness :
    (0 ≤ (3 : Int) - 1 ∧ (3 : Int) - 1 ≤ 9)
    ∧ (∀ j : Nat, 4 ≤ (sumHand ([5, 6] ++ drawn (fun _ => 5) 0 j)).1)
    ∧ (∀ j : Nat, (sumHand ([5, 6] ++ drawn (fun _ => 5) 0 j)).1 < 21 →
        3 ≤ (sumHand ([5, 6] ++ drawn (fun _ => 5) 0 j)).1 - 1
        ∧ (sumHand ([5, 6] ++ drawn (fun _ => 5) 0 j)).1 - 1 ≤ 19
        ∧ index alwaysHit (3 - 1) ((sumHand ([5, 6] ++ drawn (fun _ => 5) 0 j)).1 - 1) ≠ none)
    ∧ (∀ fuel : Nat,
        playHand ⟨alwaysHit, 0, 0⟩ 3 (fun _ => 5) fuel [5, 6] 0 ≠ .error .indexOutOfRange)
    ∧ (∀ actor' : Actor,
        (∀ (i : Fin 10) (j : Fin 42), 3 ≤ j.val → j.val ≤ 19 →
          alwaysHit i j = actor'.actions i j) →
        ∀ fuel : Nat, playHand ⟨alwaysHit, 0, 0⟩ 3 (fun _ => 5) fuel [5, 6] 0
          = playHand actor' 3 (fun _ => 5) fuel [5, 6] 0) :=
  playHand_lookup_in_range ⟨alwaysHit, 0, 0⟩ 3 (fun _ => 5) 0 5 6 (by decide) (by decide)
    (by decide)

theorem playHand_congr (actor actor' : Actor) (h : actor.actions = actor'.actions) (u : Int)
    (src : Source) :
    ∀ (fuel : Nat) (hand : List Int) (pos : Nat),
      playHand actor u src fuel hand pos = playHand actor' u src fuel hand pos := by
  intro fuel
  induction fuel with
  | zero => intro hand pos; rfl
  | succ fuel ih =>
    intro hand pos
    unfold playHand
    simp only [h, ih]

theorem handDeltaAt_congr (actor actor' : Actor) (h : actor.actions = actor'.actions)
    (src : Source) (fuel pos : Nat) :
    handDeltaAt src fuel actor pos = handDeltaAt src fuel actor' pos := by
  unfold handDeltaAt
  rw [playHand_congr actor actor' h]

/-- One hand adds the delta of the scoring table and ends at `handEnd`. -/
theorem playOneHand_delta (src : Source) (fuel : Nat) (actor : Actor) (pos : Nat)
    (hv : ValidTable actor.actions) (hf : 20 ≤ fuel) :
    playOneHand src fuel actor pos
      = .ok ({ actor with ratio := actor.ratio + handDeltaAt src fuel actor pos },
          handEnd src fuel actor pos) := by
  have hc0 := card_bounds src pos
  have hc1 := card_bounds src (pos + 1)
  have hc2 := card_bounds src (pos + 2)
  have hc3 := card_bounds src (pos + 3)
  obtain ⟨hne, hcards, hsum⟩ := two_cards_facts _ _ hc0 hc1
  obtain ⟨_, hcardsD, hsumD⟩ := two_cards_facts _ _ hc2 hc3
  obtain ⟨k, hrun, -, -⟩ := playHand_run actor (rand.Intn src (pos + 2) 10 + 1) src hv hc2
    fuel _ _ (pos + 4) (List.Perm.refl _) hne hcards (by omega) (by rw [hsum]; omega)
  obtain ⟨kd, hrunD, -, -⟩ := playDealerHand_run src fuel _ (pos + 4 + k) hcardsD
    (by omega) (by rw [hsumD]; omega)
  generalize (sumHand ([rand.Intn src pos 10 + 1, rand.Intn src (pos + 1) 10 + 1]
      ++ drawn src (pos + 4) k)).1 = p at hrun
  generalize (sumHand ([rand.Intn src pos 10 + 1, rand.Intn src (pos + 1) 10 + 1]
      ++ drawn src (pos + 4) k)).2 = hand1 at hrun
  generalize (sumHand ([rand.Intn src (pos + 2) 10 + 1, rand.Intn src (pos + 3) 10 + 1]
      ++ drawn src (pos + 4 + k) kd)).1 = d at hrunD
  generalize (sumHand ([rand.Intn src (pos + 2) 10 + 1, rand.Intn src (pos + 3) 10 + 1]
      ++ drawn src (pos + 4 + k) kd)).2 = hand2 at hrunD
  have hdelta : handDeltaAt src fuel actor pos = handDelta p d := by
    unfold handDeltaAt
    simp only [hrun, hrunD]
  rw [hdelta]
  unfold playOneHand handEnd
  simp only [hrun, hrunD, handDelta]
  by_cases h21 : p = 21
  · simp only [h21, if_true, le_refl]
  by_cases hbust : p > 21
  · have hle : 21 ≤ p := by omega
    simp only [h21, hbust, hle, if_true, if_false]
    rfl
  · have hle : ¬ 21 ≤ p := by omega
    simp only [h21, hbust, hle, if_false]
    split_ifs <;> rfl

theorem handEnd_congr (actor actor' : Actor) (h : actor.actions = actor'.actions)
    (src : Source) (fuel pos : Nat) :
    handEnd src fuel actor pos = handEnd src fuel actor' pos := by
  unfold handEnd
  rw [playHand_congr actor actor' h]

theorem handDeltas_congr (actor actor' : Actor) (h : actor.actions = actor'.actions)
    (src : Source) (fuel : Nat) :
    ∀ (n pos : Nat), handDeltas src fuel actor n pos = handDeltas src fuel actor' n pos := by
  intro n
  induction n with
  | zero => intro pos; rfl
  | succ n ih =>
    intro pos
    unfold handDeltas
    rw [handDeltaAt_congr actor actor' h, handEnd_congr actor actor' h, ih]

theorem handDeltas_length (src : Source) (fuel : Nat) (actor : Actor) :
    ∀ (n pos : Nat), (handDeltas src fuel actor n pos).length = n := by
  intro n
  induction n with
  | zero => intro pos; rfl
  | succ n ih => intro pos; simp [handDeltas, ih]

/-- The loop of `playHands` adds the deltas of its `n` hands to the ratio and leaves the
table and the lifetime ratio alone. -/
theorem playHandsLoop_sum (src : Source) (fuel : Nat) (hf : 20 ≤ fuel) :
    ∀ (n : Nat) (actor : Actor) (pos : Nat), ValidTable actor.actions →
      ∃ pos1 : Nat, playHandsLoop src fuel n actor pos
        = .ok ({ actor with ratio := actor.ratio + (handDeltas src fuel actor n pos).sum },
            pos1) := by
  intro n
  induction n with
  | zero =>
    intro actor pos _
    exact ⟨pos, by simp [playHandsLoop, handDeltas]⟩
  | succ n ih =>
    intro actor pos hv
    have hone := playOneHand_delta src fuel actor pos hv hf
    obtain ⟨pos1, hrest⟩ := ih { actor with ratio := actor.ratio + handDeltaAt src fuel actor pos }
      (handEnd src fuel actor pos) hv
    refine ⟨pos1, ?_⟩
    unfold playHandsLoop
    simp only [hone]
    rw [hrest]
    have hc := handDeltas_congr
      { actor with ratio := actor.ratio + handDeltaAt src fuel actor pos } actor rfl src fuel n
      (handEnd src fuel actor pos)
    rw [hc]
    simp only [handDeltas, List.sum_cons, add_assoc]

theorem handDelta_values (p d : Int) :
    handDelta p d = 4 ∨ handDelta p d = -2 ∨ handDelta p d = 1 ∨ handDelta p d = 2
      ∨ handDelta p d = -1 := by
  unfold handDelta
  split_ifs <;> simp

theorem sameGenomes_refl (actors : List Actor) : SameGenomes actors actors :=
  ⟨rfl, fun _ a h => ⟨a, h, rfl, rfl⟩⟩

theorem sameGenomes_trans {a b c : List Actor} (h1 : SameGenomes a b) (h2 : SameGenomes b c) :
    SameGenomes a c := by
  refine ⟨h2.1.trans h1.1, fun i x hx => ?_⟩
  obtain ⟨y, hy, hy1, hy2⟩ := h1.2 i x hx
  obtain ⟨z, hz, hz1, hz2⟩ := h2.2 i y hy
  exact ⟨z, hz, hz1.trans hy1, hz2.trans hy2⟩

theorem validPopulation_set (actors : List Actor) (ix : Nat) (a : Actor)
    (hv : ValidPopulation actors) (ha : ValidTable a.actions) :
    ValidPopulation (actors.set ix a) := by
  intro x hx
  rcases List.mem_or_eq_of_mem_set hx with h | h
  · exact hv x h
  · rw [h]; exact ha

/-- The worker loop returns on a valid population when its indices are in range: it keeps
every genome, leaves the actors it does not visit untouched, and leaves at each visited
index the result of `playHands` on the actor it found there. -/
theorem handRoutineLoop_frame (src : Source) (fuel : Nat) (hf : 20 ≤ fuel) (numHands : Int) :
    ∀ (indices : List Nat) (actors : List Actor) (pos : Nat),
      indices.Nodup → (∀ ix ∈ indices, ix < actors.length) → ValidPopulation actors →
      ∃ (actors' : List Actor) (pos' : Nat),
        handRoutineLoop src fuel numHands indices actors pos = .ok (actors', pos')
        ∧ SameGenomes actors actors' ∧ ValidPopulation actors'
        ∧ (∀ i : Nat, i ∉ indices → actors'[i]? = actors[i]?)
        ∧ (∀ (i : Nat) (a : Actor), i ∈ indices → actors[i]? = some a →
            ∃ (a' : Actor) (q q' : Nat), actors'[i]? = some a'
              ∧ playHands src fuel a numHands q = .ok (a', q')) := by
  intro indices
  induction indices with
  | nil =>
    intro actors pos _ _ hv
    exact ⟨actors, pos, rfl, sameGenomes_refl actors, hv, fun _ _ => rfl,
      fun i a hi _ => absurd hi (List.not_mem_nil _)⟩
  | cons ix rest ih =>
    intro actors pos hnd hrange hv
    have hix : ix < actors.length := hrange ix (List.mem_cons_self _ _)
    have hget : actors[ix]? = some actors[ix] := List.getElem?_eq_getElem hix
    have hva : ValidTable actors[ix].actions := hv _ (List.getElem_mem hix)
    obtain ⟨r, hr, hact, hlife⟩ := playHandsLoop_ok src fuel hf numHands.toNat actors[ix] pos hva
    have hplay : playHands src fuel actors[ix] numHands pos = .ok (r.1, r.2) := hr
    obtain ⟨hnotin, hnd'⟩ := List.nodup_cons.mp hnd
    obtain ⟨actors', pos', hloop, hsame, hvalid, hout, hin⟩ := ih (actors.set ix r.1) r.2 hnd'
      (fun i hi => by rw [List.length_set]; exact hrange i (List.mem_cons_of_mem _ hi))
      (validPopulation_set actors ix r.1 hv (by rw [hact]; exact hva))
    refine ⟨actors', pos', ?_, ?_, hvalid, ?_, ?_⟩
    · unfold handRoutineLoop
      simp only [hget, hplay]
      exact hloop
    · refine ⟨by rw [hsame.1, List.length_set], fun i a ha => ?_⟩
      by_cases hi : ix = i
      · subst hi
        rw [hget] at ha
        cases ha
        obtain ⟨a', ha', h1, h2⟩ := hsame.2 ix r.1 (List.getElem?_set_self hix)
        exact ⟨a', ha', h1.trans hact, h2.trans hlife⟩
      · exact hsame.2 i a (by rw [List.getElem?_set_ne hi]; exact ha)
    · intro i hi
      have h1 : ix ≠ i := fun e => hi (e ▸ List.mem_cons_self _ _)
      rw [hout i (fun h => hi (List.mem_cons_of_mem _ h)), List.getElem?_set_ne h1]
    · intro i a hi ha
      by_cases hix' : ix = i
      · subst hix'
        rw [hget] at ha
        cases ha
        exact ⟨r.1, pos, r.2, by rw [hout ix hnotin, List.getElem?_set_self hix], hplay⟩
      · have hi' : i ∈ rest := by
          rcases List.mem_cons.mp hi with h | h
          · exact absurd h.symm hix'
          · exact h
        exact hin i a hi' (by rw [List.getElem?_set_ne hix']; exact ha)

theorem loopIndices_nodup (start end_ : Nat) : (loopIndices start end_).Nodup :=
  List.nodup_range' start (end_ - start)

/-- The effect of one worker, as `handRoutine` packages it. -/
theorem handRoutine_frame (src : Source) (fuel : Nat) (hf : 20 ≤ fuel) (numHands : Int)
    (actors : List Actor) (start end_ pos : Nat) (hend : end_ ≤ actors.length)
    (hv : ValidPopulation actors) :
    ∃ (actors' : List Actor) (pos' : Nat),
      handRoutine src fuel actors numHands start end_ pos
          = .ok (actors', pos', (end_ : Int) - (start : Int))
        ∧ SameGenomes actors actors' ∧ ValidPopulation actors'
        ∧ (∀ i : Nat, (i < start ∨ end_ ≤ i) → actors'[i]? = actors[i]?)
        ∧ (∀ (i : Nat) (a : Actor), start ≤ i → i < end_ → actors[i]? = some a →
            ∃ (a' : Actor) (q q' : Nat), actors'[i]? = some a'
              ∧ playHands src fuel a numHands q = .ok (a', q')) := by
  obtain ⟨actors', pos', hloop, hsame, hvalid, hout, hin⟩ :=
    handRoutineLoop_frame src fuel hf numHands (loopIndices start end_) actors pos
      (loopIndices_nodup start end_)
      (fun ix hix => by have := (mem_loopIndices start end_ ix).mp hix; omega) hv
  refine ⟨actors', pos', ?_, hsame, hvalid, ?_, ?_⟩
  · unfold handRoutine
    simp only [hloop]
  · intro i hi
    exact hout i (fun h => by have := (mem_loopIndices start end_ i).mp h; omega)
  · intro i a h1 h2 ha
    exact hin i a ((mem_loopIndices start end_ i).mpr ⟨h1, h2⟩) ha

theorem shardRanges_disjoint (n : Nat) :
    (shardRanges n).Pairwise
      (fun r s => ∀ i, ¬ (i ∈ loopIndices r.1 r.2 ∧ i ∈ loopIndices s.1 s.2)) := by
  rw [shardRanges_eq]
  simp only [List.pairwise_cons, List.mem_cons, List.mem_singleton, List.not_mem_nil,
    mem_loopIndices, forall_eq_or_imp, forall_eq, List.Pairwise.nil, and_true,
    IsEmpty.forall_iff, implies_true]
  refine ⟨⟨?_, ?_, ?_, ?_, ?_, ?_, ?_⟩, ⟨?_, ?_, ?_, ?_, ?_, ?_⟩, ⟨?_, ?_, ?_, ?_, ?_⟩,
    ⟨?_, ?_, ?_, ?_⟩, ⟨?_, ?_, ?_⟩, ⟨?_, ?_⟩, ?_⟩ <;> intro i <;> omega

theorem shardRanges_cover (n i : Nat) :
    i < n ↔ ∃ r ∈ shardRanges n, i ∈ loopIndices r.1 r.2 := by
  rw [shardRanges_eq]
  simp only [List.mem_cons, List.mem_singleton, List.not_mem_nil, or_false,
    exists_eq_or_imp, exists_eq_left, mem_loopIndices]
  omega

theorem shardRanges_le (n : Nat) : ∀ r ∈ shardRanges n, r.2 ≤ n := by
  rw [shardRanges_eq]
  simp only [List.mem_cons, List.mem_singleton, List.not_mem_nil, or_false,
    forall_eq_or_imp, forall_eq]
  omega

/-- The effect of the workers of `dispatchHands`, for any list of disjoint shards inside
the population. -/
theorem dispatchLoop_frame (srcs : Nat → Source) (fuel : Nat) (hf : 20 ≤ fuel) (numHands : Int) :
    ∀ (shards : List (Nat × Nat)) (w : Nat) (actors : List Actor),
      (∀ r ∈ shards, r.2 ≤ actors.length) →
      shards.Pairwise
        (fun r s => ∀ i, ¬ (i ∈ loopIndices r.1 r.2 ∧ i ∈ loopIndices s.1 s.2)) →
      ValidPopulation actors →
      ∃ actors' : List Actor,
        dispatchLoop srcs fuel numHands shards w actors = .ok actors'
        ∧ SameGenomes actors actors' ∧ ValidPopulation actors'
        ∧ (∀ i : Nat, (∀ r ∈ shards, i ∉ loopIndices r.1 r.2) → actors'[i]? = actors[i]?)
        ∧ (∀ (i : Nat) (a : Actor), (∃ r ∈ shards, i ∈ loopIndices r.1 r.2) →
            actors[i]? = some a →
            ∃ (a' : Actor) (src : Source) (q q' : Nat), actors'[i]? = some a'
              ∧ playHands src fuel a numHands q = .ok (a', q')) := by
  intro shards
  induction shards with
  | nil =>
    intro w actors _ _ hv
    refine ⟨actors, rfl, sameGenomes_refl actors, hv, fun _ _ => rfl, ?_⟩
    rintro i a ⟨r, hr, _⟩ _
    exact absurd hr (List.not_mem_nil _)
  | cons shard rest ih =>
    intro w actors hle hdisj hv
    obtain ⟨start, end_⟩ := shard
    obtain ⟨hfirst, hdisj'⟩ := List.pairwise_cons.mp hdisj
    obtain ⟨actors1, pos1, hrun, hsame1, hvalid1, hout1, hin1⟩ :=
      handRoutine_frame (srcs w) fuel hf numHands actors start end_ 0
        (hle (start, end_) (List.mem_cons_self _ _)) hv
    obtain ⟨actors', hloop, hsame, hvalid, hout, hin⟩ := ih (w + 1) actors1
      (fun r hr => by rw [hsame1.1]; exact hle r (List.mem_cons_of_mem _ hr)) hdisj' hvalid1
    refine ⟨actors', ?_, sameGenomes_trans hsame1 hsame, hvalid, ?_, ?_⟩
    · unfold dispatchLoop
      simp only [hrun]
      exact hloop
    · intro i hi
      rw [hout i (fun r hr => hi r (List.mem_cons_of_mem _ hr))]
      apply hout1
      have := hi (start, end_) (List.mem_cons_self _ _)
      rw [mem_loopIndices] at this
      omega
    · rintro i a ⟨r, hr, hir⟩ ha
      rcases List.mem_cons.mp hr with rfl | hr'
      · rw [mem_loopIndices] at hir
        obtain ⟨a', q, q', ha', hplay⟩ := hin1 i a hir.1 hir.2 ha
        refine ⟨a', srcs w, q, q', ?_, hplay⟩
        rw [hout i (fun s hs hmem => hfirst s hs i
          ⟨(mem_loopIndices start end_ i).mpr hir, hmem⟩)]
        exact ha'
      · have hnot : i ∉ loopIndices start end_ := fun hmem => hfirst r hr' i ⟨hmem, hir⟩
        rw [mem_loopIndices] at hnot
        have hsame_i : actors1[i]? = some a := by
          rw [hout1 i (by omega)]; exact ha
        exact hin i a ⟨r, hr', hir⟩ hsame_i

/-- The effect of `dispatchHands` on a valid population: it returns, keeps every genome,
and leaves at every position the result of `playHands` on the actor it found there. -/
theorem dispatchHands_frame (srcs : Nat → Source) (fuel : Nat) (hf : 20 ≤ fuel)
    (numHands : Int) (actors : List Actor) (hv : ValidPopulation actors) :
    ∃ actors' : List Actor,
      dispatchHands srcs fuel actors numHands = .ok actors'
      ∧ SameGenomes actors actors' ∧ ValidPopulation actors'
      ∧ (∀ (i : Nat) (a : Actor), actors[i]? = some a →
          ∃ (a' : Actor) (src : Source) (q q' : Nat), actors'[i]? = some a'
            ∧ playHands src fuel a numHands q = .ok (a', q')) := by
  obtain ⟨actors', hrun, hsame, hvalid, -, hin⟩ :=
    dispatchLoop_frame srcs fuel hf numHands (shardRanges actors.length) 0 actors
      (shardRanges_le actors.length) (shardRanges_disjoint actors.length) hv
  refine ⟨actors', hrun, hsame, hvalid, fun i a ha => ?_⟩
  have hi : i < actors.length := (List.getElem?_eq_some.mp ha).1
  exact hin i a ((shardRanges_cover actors.length i).mp hi) ha

theorem mutate_valid (actor : Actor) (mutRate : ℚ) (src : Source) (pos : Nat)
    (hv : ValidTable actor.actions) : ValidTable (mutate actor mutRate src pos).1.actions := by
  intro ix ij
  obtain ⟨h1, h2⟩ := mutate_cell actor mutRate src pos ix ij
  rw [h1]
  unfold mutateCell
  split
  · show setCell _ ix ij _ ix ij = HOLD ∨ setCell _ ix ij _ ix ij = HIT
    rw [setCell_same]
    exact intn_two src _
  · show (mutateStateAt actor mutRate src pos ix ij).1 ix ij = HOLD ∨ _
    rw [h2]
    exact hv ix ij

theorem initializeActor_valid (actor : Actor) (src : Source) (pos : Nat) :
    ValidTable (initializeActor actor src pos).1.actions := by
  intro ix ij
  obtain ⟨q, hq⟩ := initialize_cell actor src pos ix ij
  rw [hq]
  exact intn_two src q

/-- One hand, when it returns, has written the ratio only. -/
theorem playOneHand_keeps (src : Source) (fuel : Nat) (actor : Actor) (pos : Nat)
    (r : Actor × Nat) (h : playOneHand src fuel actor pos = .ok r) :
    r.1.actions = actor.actions ∧ r.1.lifetimeRatio = actor.lifetimeRatio := by
  unfold playOneHand at h
  simp only at h
  split at h
  · cases h
  · split_ifs at h
    · cases h; exact ⟨rfl, rfl⟩
    · cases h; exact ⟨rfl, rfl⟩
    · split at h
      · cases h
      · split_ifs at h <;> cases h <;> exact ⟨rfl, rfl⟩

theorem playHandsLoop_keeps (src : Source) (fuel : Nat) :
    ∀ (n : Nat) (actor : Actor) (pos : Nat) (r : Actor × Nat),
      playHandsLoop src fuel n actor pos = .ok r →
      r.1.actions = actor.actions ∧ r.1.lifetimeRatio = actor.lifetimeRatio := by
  intro n
  induction n with
  | zero =>
    intro actor pos r h
    simp only [playHandsLoop, Except.ok.injEq] at h
    rw [← h]
    exact ⟨rfl, rfl⟩
  | succ n ih =>
    intro actor pos r h
    unfold playHandsLoop at h
    split at h
    · cases h
    · next actor1 pos1 hone =>
      obtain ⟨h1, h2⟩ := playOneHand_keeps src fuel actor pos _ hone
      obtain ⟨h3, h4⟩ := ih actor1 pos1 r h
      exact ⟨h3.trans h1, h4.trans h2⟩

/-- C11: after `mutate` the ratio is exactly 0, and `playHands` for `G` hands on the
mutated actor then returns with the ratio equal to the sum of the scoring-table deltas of
the hands it played; there are exactly `G` of them when `G ≥ 0` and none when `G ≤ 0`, in
which case the actor and the read position are untouched and the ratio stays 0. -/
theorem playHands_sums_deltas (actor : Actor) (mutRate : ℚ) (msrc : Source) (mpos : Nat)
    (src : Source) (fuel : Nat) (G : Int) (pos : Nat)
    (hv : ValidTable actor.actions) (hf : 20 ≤ fuel) :
    (mutate actor mutRate msrc mpos).1.ratio = 0
    ∧ ∃ r : Actor × Nat,
        playHands src fuel (mutate actor mutRate msrc mpos).1 G pos = .ok r
        ∧ r.1.ratio = (handDeltas src fuel (mutate actor mutRate msrc mpos).1 G.toNat pos).sum
        ∧ (handDeltas src fuel (mutate actor mutRate msrc mpos).1 G.toNat pos).length = G.toNat
        ∧ (0 ≤ G → ((handDeltas src fuel (mutate actor mutRate msrc mpos).1 G.toNat pos).length
            : Int) = G)
        ∧ (G ≤ 0 → r = ((mutate actor mutRate msrc mpos).1, pos) ∧ r.1.ratio = 0) := by
  refine ⟨rfl, ?_⟩
  have hv' := mutate_valid actor mutRate msrc mpos hv
  obtain ⟨pos1, hrun⟩ := playHandsLoop_sum src fuel hf G.toNat (mutate actor mutRate msrc mpos).1
    pos hv'
  have hlen := handDeltas_length src fuel (mutate actor mutRate msrc mpos).1 G.toNat pos
  refine ⟨_, hrun, ?_, hlen, fun hG => by rw [hlen]; omega, fun hG => ?_⟩
  · show (mutate actor mutRate msrc mpos).1.ratio + _ = _
    have h0 : (mutate actor mutRate msrc mpos).1.ratio = 0 := rfl
    rw [h0, zero_add]
  · have hz : G.toNat = 0 := by omega
    have hrun' : playHands src fuel (mutate actor mutRate msrc mpos).1 G pos
        = .ok ((mutate actor mutRate msrc mpos).1, pos) := by
      unfold playHands
      rw [hz]
      rfl
    have heq := Except.ok.inj ((show playHands src fuel (mutate actor mutRate msrc mpos).1 G pos
      = _ from hrun).symm.trans hrun')
    rw [heq]
    exact ⟨rfl, rfl⟩

theorem playHands_sums_deltas_witness :
    ValidTable alwaysHold
    ∧ (mutate ⟨alwaysHold, 3, 7⟩ (1 / 20) (fun _ => 0) 0).1.ratio = 0
    ∧ ∃ r : Actor × Nat,
        playHands (fun _ => 5) 20 (mutate ⟨alwaysHold, 3, 7⟩ (1 / 20) (fun _ => 0) 0).1 3 0
          = .ok r
        ∧ r.1.ratio = (handDeltas (fun _ => 5) 20
            (mutate ⟨alwaysHold, 3, 7⟩ (1 / 20) (fun _ => 0) 0).1 (3 : Int).toNat 0).sum
        ∧ (handDeltas (fun _ => 5) 20
            (mutate ⟨alwaysHold, 3, 7⟩ (1 / 20) (fun _ => 0) 0).1 (3 : Int).toNat 0).length
            = (3 : Int).toNat
        ∧ ((0 : Int) ≤ 3 → ((handDeltas (fun _ => 5) 20
            (mutate ⟨alwaysHold, 3, 7⟩ (1 / 20) (fun _ => 0) 0).1 (3 : Int).toNat 0).length
            : Int) = 3)
        ∧ ((3 : Int) ≤ 0 →
            r = ((mutate ⟨alwaysHold, 3, 7⟩ (1 / 20) (fun _ => 0) 0).1, 0) ∧ r.1.ratio = 0) :=
  ⟨alwaysHold_valid,
    playHands_sums_deltas ⟨alwaysHold, 3, 7⟩ (1 / 20) (fun _ => 0) 0 (fun _ => 5) 20 3 0
      alwaysHold_valid (by decide)⟩

/-- C20: evaluation writes only the generation score.  Whenever `playHands` returns, the
actor's table and lifetime ratio are as before, and on a valid table it does return; a
worker run by `handRoutine` keeps every genome and leaves every actor outside
`[start, end)` exactly as it was; `dispatchHands` keeps every genome. -/
theorem evaluation_writes_only_ratio :
    (∀ (src : Source) (fuel : Nat) (actor : Actor) (numHands : Int) (pos : Nat)
        (r : Actor × Nat), playHands src fuel actor numHands pos = .ok r →
        r.1.actions = actor.actions ∧ r.1.lifetimeRatio = actor.lifetimeRatio)
    ∧ (∀ (src : Source) (fuel : Nat) (actor : Actor) (numHands : Int) (pos : Nat),
        20 ≤ fuel → ValidTable actor.actions →
        ∃ r : Actor × Nat, playHands src fuel actor numHands pos = .ok r)
    ∧ (∀ (src : Source) (fuel : Nat) (actors : List Actor) (numHands : Int)
        (start end_ pos : Nat), 20 ≤ fuel → end_ ≤ actors.length → ValidPopulation actors →
        ∃ (actors' : List Actor) (pos' : Nat),
          handRoutine src fuel actors numHands start end_ pos
              = .ok (actors', pos', (end_ : Int) - (start : Int))
            ∧ SameGenomes actors actors'
            ∧ ∀ i : Nat, (i < start ∨ end_ ≤ i) → actors'[i]? = actors[i]?)
    ∧ (∀ (srcs : Nat → Source) (fuel : Nat) (actors : List Actor) (numHands : Int),
        20 ≤ fuel → ValidPopulation actors →
        ∃ actors' : List Actor, dispatchHands srcs fuel actors numHands = .ok actors'
          ∧ SameGenomes actors actors') := by
  refine ⟨?_, ?_, ?_, ?_⟩
  · intro src fuel actor numHands pos r h
    exact playHandsLoop_keeps src fuel numHands.toNat actor pos r h
  · intro src fuel actor numHands pos hf hv
    obtain ⟨r, hr, -, -⟩ := playHandsLoop_ok src fuel hf numHands.toNat actor pos hv
    exact ⟨r, hr⟩
  · intro src fuel actors numHands start end_ pos hf hend hv
    obtain ⟨actors', pos', hrun, hsame, -, hout, -⟩ :=
      handRoutine_frame src fuel hf numHands actors start end_ pos hend hv
    exact ⟨actors', pos', hrun, hsame, hout⟩
  · intro srcs fuel actors numHands hf hv
    obtain ⟨actors', hrun, hsame, -, -⟩ := dispatchHands_frame srcs fuel hf numHands actors hv
    exact ⟨actors', hrun, hsame⟩

/-- Exchanging two elements of a list rearranges it. -/
theorem set_set_perm {α : Type} (l : List α) (i j : Nat) (hi : i < l.length)
    (hj : j < l.length) : ((l.set i l[j]).set j l[i]).Perm l := by
  classical
  rw [List.perm_iff_count]
  intro b
  have hj' : j < (l.set i l[j]).length := by rw [List.length_set]; exact hj
  rw [List.count_set _ _ _ _ hj', List.count_set _ _ _ _ hi]
  have hget : (l.set i l[j])[j] = l[j] := by
    rw [List.getElem_set]
    split
    · rfl
    · rfl
  rw [hget]
  have hpos : (l[i] == b) = true → 0 < List.count b l := by
    intro h
    have hb : l[i] = b := by simpa using h
    rw [List.count_pos_iff]
    exact hb ▸ List.getElem_mem hi
  by_cases h1 : (l[i] == b) = true <;> by_cases h2 : (l[j] == b) = true
  · have := hpos h1
    simp only [h1, h2, if_true]
    omega
  · have := hpos h1
    simp only [h1, h2, if_true, if_false, Bool.false_eq_true]
    omega
  · simp only [h1, h2, if_true, if_false, Bool.false_eq_true]
    omega
  · simp only [h1, h2, if_false, Bool.false_eq_true]
    omega

theorem swap_perm (a b : List Actor) (i j : Nat) (h : ByRatio.Swap a i j = some b) :
    b.Perm a := by
  unfold ByRatio.Swap at h
  split at h
  · next x y hx hy =>
    cases h
    obtain ⟨hi, hxi⟩ := List.getElem?_eq_some.mp hx
    obtain ⟨hj, hyj⟩ := List.getElem?_eq_some.mp hy
    rw [← hxi, ← hyj]
    exact set_set_perm a i j hi hj
  · cases h

theorem applySwaps_perm : ∀ (swaps : List (Nat × Nat)) (a b : List Actor),
    applySwaps swaps a = some b → b.Perm a := by
  intro swaps
  induction swaps with
  | nil =>
    intro a b h
    simp only [applySwaps, Option.some.injEq] at h
    rw [h]
  | cons s rest ih =>
    intro a b h
    obtain ⟨i, j⟩ := s
    unfold applySwaps at h
    split at h
    · cases h
    · next a1 h1 => exact (ih a1 b h).trans (swap_perm a a1 i j h1)

theorem less_eq (a : List Actor) (i j : Nat) (x y : Actor) (hx : a[i]? = some x)
    (hy : a[j]? = some y) :
    ByRatio.Less a i j = some (decide (x.lifetimeRatio > y.lifetimeRatio)) := by
  unfold ByRatio.Less
  rw [hx, hy]

/-- When every message is positive and the messages still to come add up to what is
missing, the channel is closed on the last message. -/
theorem barrier_waits (total : Int) :
    ∀ (order : List Int) (results : Int) (received : Nat),
      order ≠ [] → (∀ m ∈ order, 1 ≤ m) → results + order.sum = total →
      barrier total results received order = some (received + order.length) := by
  intro order
  induction order with
  | nil => intro _ _ h; exact absurd rfl h
  | cons m rest ih =>
    intro results received _ hpos hsum
    have hm := hpos m (List.mem_cons_self _ _)
    have hrest : ∀ x ∈ rest, 1 ≤ x := fun x hx => hpos x (List.mem_cons_of_mem _ hx)
    simp only [List.sum_cons] at hsum
    unfold barrier
    cases hr : rest with
    | nil =>
      subst hr
      simp only [List.sum_nil] at hsum
      rw [if_pos (by omega)]
      simp
    | cons m2 rest2 =>
      have hlen := length_le_sum rest hrest
      have hl : 0 < rest.length := by rw [hr]; simp
      rw [← hr, if_neg (by omega), ih (results + m) (received + 1) (by rw [hr]; simp) hrest
        (by omega)]
      simp only [List.length_cons]
      congr 1
      omega

/-- For a population of at least eight actors the barrier is sound: in every order of
arrival the channel is closed on the eighth message. -/
theorem barrier_sound_of_eight_le (n : Nat) (hn : 8 ≤ n) (order : List Int)
    (hperm : order.Perm (shardSizes n)) : barrier (n : Int) 0 0 order = some 8 := by
  have hsizes : shardSizes n
      = [((n / 8 : Nat) : Int) - ((0 : Nat) : Int),
          ((2 * (n / 8) : Nat) : Int) - ((n / 8 : Nat) : Int),
          ((3 * (n / 8) : Nat) : Int) - ((2 * (n / 8) : Nat) : Int),
          ((4 * (n / 8) : Nat) : Int) - ((3 * (n / 8) : Nat) : Int),
          ((5 * (n / 8) : Nat) : Int) - ((4 * (n / 8) : Nat) : Int),
          ((6 * (n / 8) : Nat) : Int) - ((5 * (n / 8) : Nat) : Int),
          ((7 * (n / 8) : Nat) : Int) - ((6 * (n / 8) : Nat) : Int),
          ((n : Nat) : Int) - ((7 * (n / 8) : Nat) : Int)] := by
    unfold shardSizes
    rw [shardRanges_eq]
    rfl
  have hpos : ∀ m ∈ shardSizes n, 1 ≤ m := by
    rw [hsizes]
    simp only [List.mem_cons, List.mem_singleton, List.not_mem_nil, or_false,
      forall_eq_or_imp, forall_eq]
    omega
  have hsum : (shardSizes n).sum = (n : Int) := by
    rw [hsizes]
    simp only [List.sum_cons, List.sum_nil]
    omega
  have hlen : order.length = 8 := by
    rw [hperm.length_eq, hsizes]
    rfl
  have h := barrier_waits (n : Int) order 0 0
    (by intro h; rw [h] at hlen; simp at hlen)
    (fun m hm => hpos m (hperm.mem_iff.mp hm)) (by rw [hperm.sum_eq, hsum]; simp)
  rw [h, hlen]

/-- C16 fails on the code for a population below eight: with three actors the shards have
sizes 0, 0, 0, 0, 0, 0, 0 and 3; when the message of the last worker arrives first the
running sum reaches the total at once and the channel is closed after one message, seven
workers still having to send.  With no actors at all it is closed on the first message
in every order. -/
theorem barrier_closes_early :
    shardSizes 3 = [0, 0, 0, 0, 0, 0, 0, 3]
    ∧ ([3, 0, 0, 0, 0, 0, 0, 0] : List Int).Perm (shardSizes 3)
    ∧ barrier 3 0 0 [3, 0, 0, 0, 0, 0, 0, 0] = some 1
    ∧ shardSizes 0 = [0, 0, 0, 0, 0, 0, 0, 0]
    ∧ barrier 0 0 0 (shardSizes 0) = some 1 := by
  refine ⟨by decide, ?_, by decide, by decide, by decide⟩
  have h : shardSizes 3 = [0, 0, 0, 0, 0, 0, 0] ++ [3] := by decide
  rw [h]
  exact @List.perm_append_comm Int [3] [0, 0, 0, 0, 0, 0, 0]

/-! ## Lemmas on the evolution loop -/

theorem initPopulation_facts (src : Source) :
    ∀ (n pos : Nat), (initPopulation src n pos).1.length = n
      ∧ ValidPopulation (initPopulation src n pos).1
      ∧ ∀ a ∈ (initPopulation src n pos).1, a.ratio = 0 ∧ a.lifetimeRatio = 0 := by
  intro n
  induction n with
  | zero =>
    intro pos
    refine ⟨rfl, fun a ha => ?_, fun a ha => ?_⟩ <;>
      exact absurd ha (List.not_mem_nil _)
  | succ n ih =>
    intro pos
    obtain ⟨h1, h2, h3⟩ := ih (initializeActor Actor.zero src pos).2
    refine ⟨by simp [initPopulation, h1], ?_, ?_⟩
    · intro a ha
      simp only [initPopulation, List.mem_cons] at ha
      rcases ha with rfl | ha
      · exact initializeActor_valid Actor.zero src pos
      · exact h2 a ha
    · intro a ha
      simp only [initPopulation, List.mem_cons] at ha
      rcases ha with rfl | ha
      · exact ⟨rfl, rfl⟩
      · exact h3 a ha

/-- A mutation loop over distinct indices inside the population returns; it leaves the
actors it does not visit untouched and puts at each visited index the result of `mutate`
on the actor it found there. -/
theorem mutateLoop_frame (mutRate : ℚ) (src : Source) :
    ∀ (indices : List Nat) (actors : List Actor) (pos : Nat),
      indices.Nodup → (∀ ix ∈ indices, ix < actors.length) →
      ∃ (actors' : List Actor) (pos' : Nat),
        mutateLoop mutRate src indices actors pos = .ok (actors', pos')
        ∧ actors'.length = actors.length
        ∧ (∀ i : Nat, i ∉ indices → actors'[i]? = actors[i]?)
        ∧ (∀ (i : Nat) (a : Actor), i ∈ indices → actors[i]? = some a →
            ∃ q : Nat, actors'[i]? = some (mutate a mutRate src q).1) := by
  intro indices
  induction indices with
  | nil =>
    intro actors pos _ _
    exact ⟨actors, pos, rfl, rfl, fun _ _ => rfl,
      fun i a hi _ => absurd hi (List.not_mem_nil _)⟩
  | cons ix rest ih =>
    intro actors pos hnd hrange
    have hix : ix < actors.length := hrange ix (List.mem_cons_self _ _)
    have hget : actors[ix]? = some actors[ix] := List.getElem?_eq_getElem hix
    obtain ⟨hnotin, hnd'⟩ := List.nodup_cons.mp hnd
    obtain ⟨actors', pos', hloop, hlen, hout, hin⟩ :=
      ih (actors.set ix (mutate actors[ix] mutRate src pos).1)
        (mutate actors[ix] mutRate src pos).2 hnd'
        (fun i hi => by rw [List.length_set]; exact hrange i (List.mem_cons_of_mem _ hi))
    refine ⟨actors', pos', ?_, by rw [hlen, List.length_set], ?_, ?_⟩
    · unfold mutateLoop
      simp only [hget]
      exact hloop
    · intro i hi
      have h1 : ix ≠ i := fun e => hi (e ▸ List.mem_cons_self _ _)
      rw [hout i (fun h => hi (List.mem_cons_of_mem _ h)), List.getElem?_set_ne h1]
    · intro i a hi ha
      by_cases hix' : ix = i
      · subst hix'
        rw [hget] at ha
        cases ha
        exact ⟨pos, by rw [hout ix hnotin, List.getElem?_set_self hix]⟩
      · have hi' : i ∈ rest := by
          rcases List.mem_cons.mp hi with h | h
          · exact absurd h.symm hix'
          · exact h
        exact hin i a hi' (by rw [List.getElem?_set_ne hix']; exact ha)

/-- The mutation phase returns; the actor at position `i` is replaced by the result of
`mutate` on it, with the rate 0.01 when `i` is below a fifth of the population and 0.05
otherwise. -/
theorem mutatePopulation_frame (src : Source) (actors : List Actor) (pos : Nat) :
    ∃ (actors' : List Actor) (pos' : Nat),
      mutatePopulation src actors pos = .ok (actors', pos')
      ∧ actors'.length = actors.length
      ∧ ∀ (i : Nat) (a : Actor), actors[i]? = some a →
          ∃ q : Nat, actors'[i]?
            = some (mutate a (if i < actors.length / 5 then eliteRate else restRate) src q).1 := by
  obtain ⟨a1, p1, hrun1, hlen1, hout1, hin1⟩ :=
    mutateLoop_frame eliteRate src (loopIndices 0 (actors.length / 5)) actors pos
      (loopIndices_nodup _ _)
      (fun ix hix => by have := (mem_loopIndices _ _ ix).mp hix; omega)
  obtain ⟨a2, p2, hrun2, hlen2, hout2, hin2⟩ :=
    mutateLoop_frame restRate src (loopIndices (actors.length / 5) actors.length) a1 p1
      (loopIndices_nodup _ _)
      (fun ix hix => by have := (mem_loopIndices _ _ ix).mp hix; omega)
  refine ⟨a2, p2, ?_, hlen2.trans hlen1, fun i a ha => ?_⟩
  · unfold mutatePopulation
    simp only [hrun1]
    exact hrun2
  · have hi : i < actors.length := (List.getElem?_eq_some.mp ha).1
    by_cases hlt : i < actors.length / 5
    · rw [if_pos hlt]
      obtain ⟨q, hq⟩ := hin1 i a ((mem_loopIndices _ _ i).mpr ⟨Nat.zero_le _, hlt⟩) ha
      refine ⟨q, ?_⟩
      rw [hout2 i (fun h => by have := (mem_loopIndices _ _ i).mp h; omega)]
      exact hq
    · rw [if_neg hlt]
      have h1 : a1[i]? = some a := by
        rw [hout1 i (fun h => by have := (mem_loopIndices _ _ i).mp h; omega)]
        exact ha
      exact hin2 i a ((mem_loopIndices _ _ i).mpr ⟨by omega, hi⟩) h1

/-- The mutation phase keeps a valid population valid. -/
theorem mutatePopulation_valid (src : Source) (actors actors' : List Actor) (pos pos' : Nat)
    (hrun : mutatePopulation src actors pos = .ok (actors', pos'))
    (hv : ValidPopulation actors) : ValidPopulation actors' := by
  obtain ⟨a2, p2, hrun2, hlen, hcell⟩ := mutatePopulation_frame src actors pos
  rw [hrun] at hrun2
  cases hrun2
  intro x hx
  obtain ⟨i, hi⟩ := List.mem_iff_getElem?.mp hx
  have hlt : i < actors.length := by
    rw [← hlen]; exact (List.getElem?_eq_some.mp hi).1
  obtain ⟨q, hq⟩ := hcell i actors[i] (List.getElem?_eq_getElem hlt)
  rw [hi] at hq
  cases hq
  exact mutate_valid _ _ src q (hv _ (List.getElem_mem hlt))

/-- C13: the mutation phase of a generation.  With `n` the population size, the actor at
position `i` of the current order is replaced by `mutate(0.01)` of itself when
`i < n / 5` and by `mutate(0.05)` of itself otherwise; the two loops together visit
`0, 1, ..., n-1`, each index once; for `n < 5` the first loop is empty and every actor
gets `mutate(0.05)`.  The rates are the `float32` values nearest to 0.01 and 0.05. -/
theorem mutation_tiers (src : Source) (actors : List Actor) (pos : Nat) :
    (∃ (actors' : List Actor) (pos' : Nat),
      mutatePopulation src actors pos = .ok (actors', pos')
      ∧ actors'.length = actors.length
      ∧ (∀ (i : Nat) (a : Actor), actors[i]? = some a →
          ∃ q : Nat, actors'[i]?
            = some (mutate a (if i < actors.length / 5 then eliteRate else restRate) src q).1)
      ∧ (actors.length < 5 → ∀ (i : Nat) (a : Actor), actors[i]? = some a →
          ∃ q : Nat, actors'[i]? = some (mutate a restRate src q).1))
    ∧ loopIndices 0 (actors.length / 5) ++ loopIndices (actors.length / 5) actors.length
        = List.range actors.length
    ∧ (actors.length < 5 → loopIndices 0 (actors.length / 5) = [])
    ∧ |eliteRate - 1 / 100| < 1 / 2 ^ 31 ∧ |restRate - 1 / 20| < 1 / 2 ^ 29 := by
  obtain ⟨actors', pos', hrun, hlen, hcell⟩ := mutatePopulation_frame src actors pos
  refine ⟨⟨actors', pos', hrun, hlen, hcell, fun hsmall i a ha => ?_⟩, ?_, ?_, ?_, ?_⟩
  · obtain ⟨q, hq⟩ := hcell i a ha
    rw [if_neg (by omega)] at hq
    exact ⟨q, hq⟩
  · rw [loopIndices_append 0 _ _ (Nat.zero_le _) (Nat.div_le_self _ _)]
    simp [loopIndices, List.range_eq_range']
  · intro hsmall
    have h0 : actors.length / 5 = 0 := by omega
    rw [h0]
    rfl
  · unfold eliteRate
    rw [abs_lt]
    constructor <;> norm_num
  · unfold restRate
    rw [abs_lt]
    constructor <;> norm_num

theorem dropLast_sum_add_last (h : List Int) : h.dropLast.sum + h.getLastD 0 = h.sum := by
  induction h using List.reverseRecOn with
  | nil => rfl
  | append_singleton l a _ =>
    rw [List.dropLast_concat, List.getLastD_concat, List.sum_append]
    simp

/-- The evaluation of a generation next to the ledger: on a valid population described
by the ledger after `gens` generations it returns, and the evaluated population is
described by the extended ledger; the lifetime ratio it is ranked by is the sum of the
scores of the generations before this one. -/
theorem evaluate_ledger (run : Run) (fuel : Nat) (hf : 20 ≤ fuel) (gamesPerGen : Int)
    (gen gens : Nat) (actors : List Actor) (ledger : List (List Int))
    (hv : ValidPopulation actors) (hinv : LedgerInv fuel gamesPerGen gens actors ledger) :
    ∃ evaluated : List Actor,
      evaluateGeneration run fuel gamesPerGen gen actors = .ok evaluated
      ∧ evaluated.length = actors.length ∧ ValidPopulation evaluated
      ∧ LedgerInv fuel gamesPerGen (gens + 1) evaluated (ledgerAfterEvaluate ledger evaluated)
      ∧ ∀ (i : Nat) (a : Actor) (h : List Int), evaluated[i]? = some a → ledger[i]? = some h →
          a.lifetimeRatio = h.sum := by
  obtain ⟨a1, p1, hmut, hlen1, hcell⟩ := mutatePopulation_frame (run.mutSrc gen) actors 0
  have hv1 := mutatePopulation_valid (run.mutSrc gen) actors a1 0 p1 hmut hv
  obtain ⟨a2, hdisp, hsame, hv2, hplay⟩ :=
    dispatchHands_frame (run.workSrc gen) fuel hf gamesPerGen a1 hv1
  have hlen2 : a2.length = actors.length := hsame.1.trans hlen1
  have key : ∀ (i : Nat) (a' : Actor) (h : List Int), a2[i]? = some a' → ledger[i]? = some h →
      a'.lifetimeRatio = h.sum
        ∧ ∃ (src : Source) (player : Actor) (pos : Nat),
            a'.ratio = (handDeltas src fuel player gamesPerGen.toNat pos).sum := by
    intro i a' h ha' hh
    have hi : i < actors.length := by
      rw [← hlen2]; exact (List.getElem?_eq_some.mp ha').1
    have hold := hinv.2 i actors[i] h (List.getElem?_eq_getElem hi) hh
    obtain ⟨q, hq⟩ := hcell i actors[i] (List.getElem?_eq_getElem hi)
    have hm0 : (mutate actors[i] (if i < actors.length / 5 then eliteRate else restRate)
        (run.mutSrc gen) q).1.ratio = 0 := rfl
    have hml : (mutate actors[i] (if i < actors.length / 5 then eliteRate else restRate)
        (run.mutSrc gen) q).1.lifetimeRatio = actors[i].lifetimeRatio + actors[i].ratio := rfl
    generalize (mutate actors[i] (if i < actors.length / 5 then eliteRate else restRate)
        (run.mutSrc gen) q).1 = m at hq hm0 hml
    obtain ⟨a'', src, q1, q2, ha'', hrun⟩ := hplay i m hq
    rw [ha'] at ha''
    cases ha''
    have hvm : ValidTable m.actions := hv1 _ (List.getElem?_mem hq)
    obtain ⟨q3, hsum⟩ := playHandsLoop_sum src fuel hf gamesPerGen.toNat m q1 hvm
    have hrun' : playHandsLoop src fuel gamesPerGen.toNat m q1 = .ok (a', q2) := hrun
    rw [hsum] at hrun'
    have heq := (Prod.mk.inj (Except.ok.inj hrun')).1
    rw [← heq]
    refine ⟨?_, src, m, q1, ?_⟩
    · show m.lifetimeRatio = h.sum
      rw [hml, hold.2.2.1, hold.2.1]
      exact dropLast_sum_add_last h
    · show m.ratio + _ = _
      rw [hm0, zero_add]
  refine ⟨a2, ?_, hlen2, hv2, ⟨?_, ?_⟩, fun i a h ha hh => (key i a h ha hh).1⟩
  · unfold evaluateGeneration
    simp only [hmut]
    exact hdisp
  · unfold ledgerAfterEvaluate
    rw [List.length_zipWith, hinv.1, hlen2]
    simp
  · intro i a' hh ha' hhh
    unfold ledgerAfterEvaluate at hhh
    rw [List.getElem?_zipWith, ha'] at hhh
    cases hl : ledger[i]? with
    | none => rw [hl] at hhh; cases hhh
    | some h =>
      rw [hl] at hhh
      simp only [Option.some.injEq] at hhh
      have hi : i < actors.length := by
        rw [← hlen2]; exact (List.getElem?_eq_some.mp ha').1
      have hold := hinv.2 i actors[i] h (List.getElem?_eq_getElem hi) hl
      obtain ⟨hlife, src, player, pos, hscore⟩ := key i a' h ha' hl
      rw [← hhh]
      refine ⟨by rw [List.length_append, hold.1]; rfl, ?_, ?_, ?_⟩
      · rw [List.getLastD_concat]
      · rw [List.dropLast_concat]; exact hlife
      · intro s hs
        rcases List.mem_append.mp hs with hs | hs
        · exact hold.2.2.2 s hs
        · rw [List.mem_singleton.mp hs]
          exact ⟨src, player, pos, hscore⟩

theorem swap_length (a b : List Actor) (i j : Nat) (h : ByRatio.Swap a i j = some b) :
    b.length = a.length := (swap_perm a b i j h).length_eq

/-- A `Swap` of the population and the same swap of the ledger keep the ledger in step. -/
theorem swap_ledger (fuel : Nat) (gamesPerGen : Int) (gens : Nat) (a b : List Actor)
    (ledger : List (List Int)) (i j : Nat) (hswap : ByRatio.Swap a i j = some b)
    (hinv : LedgerInv fuel gamesPerGen gens a ledger) :
    LedgerInv fuel gamesPerGen gens b (swapLedger ledger i j) := by
  unfold ByRatio.Swap at hswap
  split at hswap
  · next x y hx hy =>
    cases hswap
    have hi : i < a.length := (List.getElem?_eq_some.mp hx).1
    have hj : j < a.length := (List.getElem?_eq_some.mp hy).1
    have hi' : i < ledger.length := by rw [hinv.1]; exact hi
    have hj' : j < ledger.length := by rw [hinv.1]; exact hj
    have hli : ledger[i]? = some ledger[i] := List.getElem?_eq_getElem hi'
    have hlj : ledger[j]? = some ledger[j] := List.getElem?_eq_getElem hj'
    unfold swapLedger
    rw [hli, hlj]
    simp only
    refine ⟨by simp only [List.length_set]; exact hinv.1, fun k c h hc hh => ?_⟩
    rw [List.getElem?_set, List.getElem?_set] at hc hh
    simp only [List.length_set] at hc hh
    by_cases hjk : j = k
    · rw [if_pos hjk, if_pos hj] at hc
      rw [if_pos hjk, if_pos hj'] at hh
      cases hc
      cases hh
      exact hinv.2 i x _ hx hli
    · rw [if_neg hjk] at hc hh
      by_cases hik : i = k
      · rw [if_pos hik, if_pos hi] at hc
        rw [if_pos hik, if_pos hi'] at hh
        cases hc
        cases hh
        exact hinv.2 j y _ hy hlj
      · rw [if_neg hik] at hc hh
        exact hinv.2 k c h hc hh
  · cases hswap

/-- The ranking step next to the ledger: when the `Swap` calls are inside the population
it returns a population of the same size that the swapped ledger still describes. -/
theorem rank_ledger (fuel : Nat) (gamesPerGen : Int) (gens : Nat) :
    ∀ (swaps : List (Nat × Nat)) (a : List Actor) (ledger : List (List Int)),
      (∀ s ∈ swaps, s.1 < a.length ∧ s.2 < a.length) → ValidPopulation a →
      LedgerInv fuel gamesPerGen gens a ledger →
      ∃ b : List Actor, applySwaps swaps a = some b ∧ b.length = a.length
        ∧ ValidPopulation b ∧ LedgerInv fuel gamesPerGen gens b (ledgerSwaps swaps ledger) := by
  intro swaps
  induction swaps with
  | nil =>
    intro a ledger _ hv hinv
    exact ⟨a, rfl, rfl, hv, hinv⟩
  | cons s rest ih =>
    intro a ledger hrange hv hinv
    obtain ⟨i, j⟩ := s
    obtain ⟨hi, hj⟩ := hrange (i, j) (List.mem_cons_self _ _)
    have hswap : ByRatio.Swap a i j = some ((a.set i a[j]).set j a[i]) := by
      unfold ByRatio.Swap
      rw [List.getElem?_eq_getElem hi, List.getElem?_eq_getElem hj]
    have hlen := swap_length a _ i j hswap
    obtain ⟨b, hb, hblen, hbv, hbinv⟩ := ih ((a.set i a[j]).set j a[i]) (swapLedger ledger i j)
      (fun s hs => by rw [hlen]; exact hrange s (List.mem_cons_of_mem _ hs))
      (fun x hx => hv x (swap_mem a _ i j hswap x hx))
      (swap_ledger fuel gamesPerGen gens a _ ledger i j hswap hinv)
    refine ⟨b, ?_, hblen.trans hlen, hbv, hbinv⟩
    unfold applySwaps
    simp only [hswap]
    exact hb

theorem initial_ledger (fuel : Nat) (gamesPerGen : Int) (src : Source) (n : Nat) :
    LedgerInv fuel gamesPerGen 0 (initPopulation src n 0).1 (List.replicate n []) := by
  obtain ⟨hlen, -, hzero⟩ := initPopulation_facts src n 0
  refine ⟨by rw [List.length_replicate, hlen], fun i a h ha hh => ?_⟩
  rw [List.getElem?_replicate] at hh
  split at hh
  · cases hh
    obtain ⟨h1, h2⟩ := hzero a (List.getElem?_mem ha)
    exact ⟨rfl, h1, h2, fun s hs => absurd hs (List.not_mem_nil _)⟩
  · cases hh

/-- One generation next to the ledger. -/
theorem generation_ledger (run : Run) (fuel : Nat) (hf : 20 ≤ fuel) (gamesPerGen : Int)
    (n : Nat) (hswaps : ∀ (g : Nat) (s : Nat × Nat), s ∈ run.swaps g → s.1 < n ∧ s.2 < n)
    (gen gens : Nat) (actors : List Actor) (ledger : List (List Int))
    (hlen : actors.length = n) (hv : ValidPopulation actors)
    (hinv : LedgerInv fuel gamesPerGen gens actors ledger) :
    ∃ (sorted : List Actor) (ledger' : List (List Int)),
      generationLedger run fuel gamesPerGen gen (actors, ledger) = .ok (sorted, ledger')
      ∧ sorted.length = n ∧ ValidPopulation sorted
      ∧ LedgerInv fuel gamesPerGen (gens + 1) sorted ledger' := by
  obtain ⟨evaluated, heval, hlen2, hv2, hinv2, -⟩ :=
    evaluate_ledger run fuel hf gamesPerGen gen gens actors ledger hv hinv
  obtain ⟨sorted, hsort, hlen3, hv3, hinv3⟩ := rank_ledger fuel gamesPerGen (gens + 1)
    (run.swaps gen) evaluated (ledgerAfterEvaluate ledger evaluated)
    (fun s hs => by rw [hlen2, hlen]; exact hswaps gen s hs) hv2 hinv2
  refine ⟨sorted, _, ?_, by rw [hlen3, hlen2, hlen], hv3, hinv3⟩
  unfold generationLedger rankGeneration
  simp only [heval, hsort]

/-- The loop over the generations next to the ledger. -/
theorem generations_ledger (run : Run) (fuel : Nat) (hf : 20 ≤ fuel) (gamesPerGen : Int)
    (n : Nat) (hswaps : ∀ (g : Nat) (s : Nat × Nat), s ∈ run.swaps g → s.1 < n ∧ s.2 < n) :
    ∀ (count gen gens : Nat) (actors : List Actor) (ledger : List (List Int)),
      actors.length = n → ValidPopulation actors →
      LedgerInv fuel gamesPerGen gens actors ledger →
      ∃ (actors' : List Actor) (ledger' : List (List Int)),
        generationsLedger run fuel gamesPerGen count gen (actors, ledger)
            = .ok (actors', ledger')
          ∧ actors'.length = n ∧ ValidPopulation actors'
          ∧ LedgerInv fuel gamesPerGen (gens + count) actors' ledger' := by
  intro count
  induction count with
  | zero =>
    intro gen gens actors ledger hlen hv hinv
    exact ⟨actors, ledger, rfl, hlen, hv, hinv⟩
  | succ count ih =>
    intro gen gens actors ledger hlen hv hinv
    obtain ⟨a1, l1, hgen, hlen1, hv1, hinv1⟩ :=
      generation_ledger run fuel hf gamesPerGen n hswaps gen gens actors ledger hlen hv hinv
    obtain ⟨a2, l2, hrest, hlen2, hv2, hinv2⟩ := ih (gen + 1) (gens + 1) a1 l1 hlen1 hv1 hinv1
    refine ⟨a2, l2, ?_, hlen2, hv2, ?_⟩
    · unfold generationsLedger
      simp only [hgen]
      exact hrest
    · have : gens + (count + 1) = gens + 1 + count := by omega
      rw [this]
      exact hinv2

/-- The ledger is a bystander: the population of the run with the ledger is the
population of the run without it. -/
theorem generationsLedger_fst (run : Run) (fuel : Nat) (gamesPerGen : Int) :
    ∀ (count gen : Nat) (st r : List Actor × List (List Int)),
      generationsLedger run fuel gamesPerGen count gen st = .ok r →
      generationsLoop run fuel gamesPerGen count gen st.1 = .ok r.1 := by
  intro count
  induction count with
  | zero =>
    intro gen st r h
    simp only [generationsLedger, Except.ok.injEq] at h
    rw [← h]
    rfl
  | succ count ih =>
    intro gen st r h
    unfold generationsLedger at h
    split at h
    · cases h
    · next st1 hst1 =>
      have hgen : generation run fuel gamesPerGen gen st.1 = .ok st1.1 := by
        unfold generationLedger at hst1
        unfold generation
        split at hst1
        · cases hst1
        · next evaluated heval =>
          split at hst1
          · cases hst1
          · next sorted hsorted =>
            cases hst1
            exact hsorted
      unfold generationsLoop
      simp only [hgen]
      exact ih (gen + 1) st1 r h

theorem intn_zero_source (pos n : Nat) : rand.Intn (fun _ => 0) pos n = 0 := by
  simp [rand.Intn]

theorem initialize_quiet :
    (initializeActor Actor.zero (fun _ => 0) 0).1 = ⟨alwaysHold, 0, 0⟩ := by
  have hact : (initializeActor Actor.zero (fun _ => 0) 0).1.actions = alwaysHold := by
    funext ix ij
    obtain ⟨q, hq⟩ := initialize_cell Actor.zero (fun _ => 0) 0 ix ij
    rw [hq, intn_zero_source]
    rfl
  have hratio : (initializeActor Actor.zero (fun _ => 0) 0).1.ratio = 0 := rfl
  have hlife : (initializeActor Actor.zero (fun _ => 0) 0).1.lifetimeRatio = 0 := rfl
  generalize (initializeActor Actor.zero (fun _ => 0) 0).1 = a at hact hratio hlife
  cases a
  simp only at hact hratio hlife
  rw [hact, hratio, hlife]

theorem mutate_quiet (mutRate : ℚ) (pos : Nat) :
    (mutate ⟨alwaysHold, 0, 0⟩ mutRate (fun _ => 0) pos).1 = ⟨alwaysHold, 0, 0⟩ := by
  have hact : (mutate ⟨alwaysHold, 0, 0⟩ mutRate (fun _ => 0) pos).1.actions = alwaysHold := by
    funext ix ij
    obtain ⟨h1, h2⟩ := mutate_cell ⟨alwaysHold, 0, 0⟩ mutRate (fun _ => 0) pos ix ij
    rw [h1]
    unfold mutateCell
    split
    · show setCell _ ix ij _ ix ij = _
      rw [setCell_same, intn_zero_source]
      rfl
    · exact h2
  have hratio : (mutate ⟨alwaysHold, 0, 0⟩ mutRate (fun _ => 0) pos).1.ratio = 0 := rfl
  have hlife : (mutate ⟨alwaysHold, 0, 0⟩ mutRate (fun _ => 0) pos).1.lifetimeRatio = 0 := rfl
  generalize (mutate ⟨alwaysHold, 0, 0⟩ mutRate (fun _ => 0) pos).1 = a at hact hratio hlife
  cases a
  simp only at hact hratio hlife
  rw [hact, hratio, hlife]

theorem quiet_population : (initPopulation quietRun.initSrc 1 0).1 = [⟨alwaysHold, 0, 0⟩] := by
  show [(initializeActor Actor.zero (fun _ => 0) 0).1] = _
  rw [initialize_quiet]

theorem quiet_evaluation :
    evaluateGeneration quietRun 20 1 0 [⟨alwaysHold, 0, 0⟩] = .ok [⟨alwaysHold, -1, 0⟩] := by
  have hmut : mutatePopulation (quietRun.mutSrc 0) [⟨alwaysHold, 0, 0⟩] 0
      = .ok ([⟨alwaysHold, 0, 0⟩], (mutate ⟨alwaysHold, 0, 0⟩ restRate (fun _ => 0) 0).2) := by
    have h : mutatePopulation (quietRun.mutSrc 0) [⟨alwaysHold, 0, 0⟩] 0
        = .ok ([(mutate ⟨alwaysHold, 0, 0⟩ restRate (fun _ => 0) 0).1],
            (mutate ⟨alwaysHold, 0, 0⟩ restRate (fun _ => 0) 0).2) := rfl
    rw [h, mutate_quiet]
  unfold evaluateGeneration
  simp only [hmut]
  rfl

/-- C14, as stated, fails: in the run of one actor and one hand per generation in which
every card is a 6, the actor ends the evaluation of generation 0 with the score -1 (12
against the dealer's 18) and the lifetime ratio 0, so the key it is ranked by at the end of
generation 0 does not include the score of generation 0. -/
theorem ranking_key_misses_current_score :
    (initPopulation quietRun.initSrc 1 0).1 = [⟨alwaysHold, 0, 0⟩]
    ∧ evaluateGeneration quietRun 20 1 0 (initPopulation quietRun.initSrc 1 0).1
        = .ok [⟨alwaysHold, -1, 0⟩]
    ∧ (⟨alwaysHold, -1, 0⟩ : Actor).ratio = -1
    ∧ (⟨alwaysHold, -1, 0⟩ : Actor).lifetimeRatio = 0 := by
  refine ⟨quiet_population, ?_, rfl, rfl⟩
  rw [quiet_population]
  exact quiet_evaluation

/-- C14, amended: when `runDNA` ranks the population at the end of generation `g`, the
lifetime ratio of each actor is the sum of the scores the actor earned in the generations
`0 .. g-1`; the score of generation `g` is the actor's ratio and is not part of the key. -/
theorem ranking_key_sums_earlier_scores (run : Run) (fuel n g : Nat) (gamesPerGen : Int)
    (hf : 20 ≤ fuel)
    (hswaps : ∀ (k : Nat) (s : Nat × Nat), s ∈ run.swaps k → s.1 < n ∧ s.2 < n) :
    ∃ (actors : List Actor) (ledger : List (List Int)) (evaluated : List Actor),
      runLedger run fuel n g gamesPerGen = .ok (actors, ledger)
      ∧ evaluateGeneration run fuel gamesPerGen g actors = .ok evaluated
      ∧ evaluated.length = n ∧ ledger.length = n
      ∧ ∀ (i : Nat) (a : Actor) (h : List Int), evaluated[i]? = some a → ledger[i]? = some h →
          h.length = g ∧ a.lifetimeRatio = h.sum
          ∧ LedgerOf fuel gamesPerGen (g + 1) a (h ++ [a.ratio]) := by
  obtain ⟨hlen0, hv0, -⟩ := initPopulation_facts run.initSrc n 0
  obtain ⟨actors, ledger, hrun, hlen, hv, hinv⟩ :=
    generations_ledger run fuel hf gamesPerGen n hswaps g 0 0 _ _ hlen0 hv0
      (initial_ledger fuel gamesPerGen run.initSrc n)
  rw [Nat.zero_add] at hinv
  obtain ⟨evaluated, heval, hlen2, -, hinv2, hkey⟩ :=
    evaluate_ledger run fuel hf gamesPerGen g g actors ledger hv hinv
  refine ⟨actors, ledger, evaluated, hrun, heval, by rw [hlen2, hlen], by rw [hinv.1, hlen],
    fun i a h ha hh => ?_⟩
  have hi : i < actors.length := by
    rw [← hlen2]; exact (List.getElem?_eq_some.mp ha).1
  refine ⟨(hinv.2 i actors[i] h (List.getElem?_eq_getElem hi) hh).1, hkey i a h ha hh, ?_⟩
  apply hinv2.2 i a (h ++ [a.ratio]) ha
  unfold ledgerAfterEvaluate
  rw [List.getElem?_zipWith, ha, hh]

theorem ranking_key_sums_earlier_scores_witness :
    ∃ (actors : List Actor) (ledger : List (List Int)) (evaluated : List Actor),
      runLedger quietRun 20 1 2 1 = .ok (actors, ledger)
      ∧ evaluateGeneration quietRun 20 1 2 actors = .ok evaluated
      ∧ evaluated.length = 1 ∧ ledger.length = 1
      ∧ ∀ (i : Nat) (a : Actor) (h : List Int), evaluated[i]? = some a → ledger[i]? = some h →
          h.length = 2 ∧ a.lifetimeRatio = h.sum
          ∧ LedgerOf 20 1 (2 + 1) a (h ++ [a.ratio]) :=
  ranking_key_sums_earlier_scores quietRun 20 1 2 1 (by decide)
    (fun _ s hs => absurd hs (List.not_mem_nil _))

/-- C19: at the end of the loop of `runDNA` over `N` generations (`N ≥ 1`, and `N = 0`
too, with no score at all) every actor's ratio
is the score it earned in the last generation and its lifetime ratio is the sum of the
scores it earned in the generations before the last, the last score left out; each score
is the sum of the scoring-table deltas of the hands of one `playHands` call.  For `N = 1`
every lifetime ratio is 0, and the population ranked at the end of generation 0 has the
key 0 throughout. -/
theorem final_lifetime_omits_last_score (run : Run) (fuel n N : Nat) (gamesPerGen : Int)
    (hf : 20 ≤ fuel)
    (hswaps : ∀ (k : Nat) (s : Nat × Nat), s ∈ run.swaps k → s.1 < n ∧ s.2 < n) :
    (∃ (actors : List Actor) (ledger : List (List Int)),
      runLedger run fuel n N gamesPerGen = .ok (actors, ledger)
      ∧ runDNA run fuel n (N : Int) gamesPerGen = .ok actors
      ∧ actors.length = n ∧ ledger.length = n
      ∧ (∀ (i : Nat) (a : Actor) (h : List Int), actors[i]? = some a → ledger[i]? = some h →
          LedgerOf fuel gamesPerGen N a h
          ∧ a.ratio = h.getLastD 0 ∧ a.lifetimeRatio = (h.take (N - 1)).sum)
      ∧ (N = 1 → ∀ a ∈ actors, a.lifetimeRatio = 0))
    ∧ ∃ evaluated : List Actor,
        evaluateGeneration run fuel gamesPerGen 0 (initPopulation run.initSrc n 0).1
          = .ok evaluated
        ∧ ∀ a ∈ evaluated, a.lifetimeRatio = 0 := by
  obtain ⟨hlen0, hv0, hzero⟩ := initPopulation_facts run.initSrc n 0
  have hinit := initial_ledger fuel gamesPerGen run.initSrc n
  obtain ⟨actors, ledger, hrun, hlen, hv, hinv⟩ :=
    generations_ledger run fuel hf gamesPerGen n hswaps N 0 0 _ _ hlen0 hv0 hinit
  rw [Nat.zero_add] at hinv
  have hcell : ∀ (i : Nat) (a : Actor) (h : List Int), actors[i]? = some a →
      ledger[i]? = some h →
      LedgerOf fuel gamesPerGen N a h
        ∧ a.ratio = h.getLastD 0 ∧ a.lifetimeRatio = (h.take (N - 1)).sum := by
    intro i a h ha hh
    have hl := hinv.2 i a h ha hh
    refine ⟨hl, hl.2.1, ?_⟩
    rw [hl.2.2.1, List.dropLast_eq_take, hl.1]
  refine ⟨⟨actors, ledger, hrun, ?_, hlen, by rw [hinv.1, hlen], hcell, ?_⟩, ?_⟩
  · have h := generationsLedger_fst run fuel gamesPerGen N 0 _ _ hrun
    unfold runDNA
    rw [Int.toNat_ofNat]
    exact h
  · intro hone a ha
    obtain ⟨i, hi⟩ := List.mem_iff_getElem?.mp ha
    have hil : i < ledger.length := by
      rw [hinv.1]; exact (List.getElem?_eq_some.mp hi).1
    obtain ⟨hl, -, hlife⟩ := hcell i a ledger[i] hi (List.getElem?_eq_getElem hil)
    rw [hlife, hone]
    simp
  · obtain ⟨evaluated, heval, hlen2, -, -, hkey⟩ :=
      evaluate_ledger run fuel hf gamesPerGen 0 0 _ _ hv0 hinit
    refine ⟨evaluated, heval, fun a ha => ?_⟩
    obtain ⟨i, hi⟩ := List.mem_iff_getElem?.mp ha
    have hin : i < n := by
      rw [← hlen0, ← hlen2]; exact (List.getElem?_eq_some.mp hi).1
    have hrep : (List.replicate n ([] : List Int))[i]? = some [] := by
      rw [List.getElem?_replicate, if_pos hin]
    rw [hkey i a [] hi hrep]
    rfl

theorem final_lifetime_omits_last_score_witness :
    (1 ≤ 1)
    ∧ (∃ (actors : List Actor) (ledger : List (List Int)),
      runLedger quietRun 20 1 1 1 = .ok (actors, ledger)
      ∧ runDNA quietRun 20 1 ((1 : Nat) : Int) 1 = .ok actors
      ∧ actors.length = 1 ∧ ledger.length = 1
      ∧ (∀ (i : Nat) (a : Actor) (h : List Int), actors[i]? = some a → ledger[i]? = some h →
          LedgerOf 20 1 1 a h
          ∧ a.ratio = h.getLastD 0 ∧ a.lifetimeRatio = (h.take (1 - 1)).sum)
      ∧ (1 = 1 → ∀ a ∈ actors, a.lifetimeRatio = 0))
    ∧ ∃ evaluated : List Actor,
        evaluateGeneration quietRun 20 1 0 (initPopulation quietRun.initSrc 1 0).1
          = .ok evaluated
        ∧ ∀ a ∈ evaluated, a.lifetimeRatio = 0 :=
  ⟨le_refl 1, final_lifetime_omits_last_score quietRun 20 1 1 1 (by decide)
    (fun _ s hs => absurd hs (List.not_mem_nil _))⟩

/-! ## Hands, shards, the score step and the ranking step -/

/-- A call of `playHands` for at least one hand is the loop body followed by the call for
the remaining hands; for exactly one hand it is the loop body. -/
theorem playHands_step (src : Source) (fuel : Nat) (actor : Actor) (pos : Nat)
    (r : Actor × Nat) (h : playOneHand src fuel actor pos = .ok r) :
    playHands src fuel actor 1 pos = .ok r
      ∧ ∀ n : Nat, playHands src fuel actor ((n : Int) + 1) pos
          = playHands src fuel r.1 (n : Int) r.2 := by
  constructor
  · show playHandsLoop src fuel 1 actor pos = .ok r
    unfold playHandsLoop
    simp only [h]
    rfl
  · intro n
    have hn : ((n : Int) + 1).toNat = n + 1 := by omega
    unfold playHands
    rw [hn, Int.toNat_ofNat]
    conv_lhs => unfold playHandsLoop
    simp only [h]

/-- C1: `playHands` returns, a call for no hand changes nothing, and each hand of
`playHands` is one run of the loop body, which changes the actor's ratio by exactly one
delta of the scoring table: with `p` the total returned by `playHand`, if `p ≥ 21` the
delta depends on `p` alone (`+4` at 21, `-2` above) and the read position stays where
`playHand` left it, so the dealer draws no card; if `p < 21` the dealer hand is played
and the delta is that of `p` against the dealer total `d`.  In both cases `playHands` for
one hand returns the actor with that delta added, and `playHands` for `n + 1` hands
continues from there with `n` hands. -/
theorem playHands_scores_each_hand (src : Source) (fuel : Nat) (actor : Actor) (pos : Nat)
    (hv : ValidTable actor.actions) (hf : 20 ≤ fuel) :
    playHands src fuel actor 0 pos = .ok (actor, pos)
    ∧ (∀ G : Int, ∃ r : Actor × Nat, playHands src fuel actor G pos = .ok r)
    ∧ (∀ n : Nat, playHands src fuel actor ((n : Int) + 1) pos
        = (playOneHand src fuel actor pos).bind fun r => playHands src fuel r.1 (n : Int) r.2)
    ∧ ∃ (p : Int) (hand1 : List Int) (pos1 : Nat),
        playHand actor (rand.Intn src (pos + 2) 10 + 1) src fuel
            [rand.Intn src pos 10 + 1, rand.Intn src (pos + 1) 10 + 1] (pos + 4)
          = .ok (p, hand1, pos1)
        ∧ ((21 ≤ p ∧ ∀ d : Int,
              playOneHand src fuel actor pos
                = .ok ({ actor with ratio := actor.ratio + handDelta p d }, pos1)
              ∧ playHands src fuel actor 1 pos
                = .ok ({ actor with ratio := actor.ratio + handDelta p d }, pos1)
              ∧ ∀ n : Nat, playHands src fuel actor ((n : Int) + 1) pos
                = playHands src fuel { actor with ratio := actor.ratio + handDelta p d }
                    (n : Int) pos1)
          ∨ (p < 21 ∧ ∃ (d : Int) (hand2 : List Int) (pos2 : Nat),
              playDealerHand src fuel
                  [rand.Intn src (pos + 2) 10 + 1, rand.Intn src (pos + 3) 10 + 1] pos1
                = .ok (d, hand2, pos2)
              ∧ playOneHand src fuel actor pos
                = .ok ({ actor with ratio := actor.ratio + handDelta p d }, pos2)
              ∧ playHands src fuel actor 1 pos
                = .ok ({ actor with ratio := actor.ratio + handDelta p d }, pos2)
              ∧ ∀ n : Nat, playHands src fuel actor ((n : Int) + 1) pos
                = playHands src fuel { actor with ratio := actor.ratio + handDelta p d }
                    (n : Int) pos2)) := by
  refine ⟨rfl, fun G => ?_, fun n => ?_, ?_⟩
  · obtain ⟨r, hr, -, -⟩ := playHandsLoop_ok src fuel hf G.toNat actor pos hv
    exact ⟨r, hr⟩
  · have hn : ((n : Int) + 1).toNat = n + 1 := by omega
    unfold playHands
    rw [hn, Int.toNat_ofNat]
    conv_lhs => unfold playHandsLoop
    cases playOneHand src fuel actor pos with
    | error e => rfl
    | ok r => rfl
  · have hc0 := card_bounds src pos
    have hc1 := card_bounds src (pos + 1)
    have hc2 := card_bounds src (pos + 2)
    have hc3 := card_bounds src (pos + 3)
    obtain ⟨hne, hcards, hsum⟩ := two_cards_facts _ _ hc0 hc1
    obtain ⟨_, hcardsD, hsumD⟩ := two_cards_facts _ _ hc2 hc3
    obtain ⟨k, hrun, -, -⟩ := playHand_run actor (rand.Intn src (pos + 2) 10 + 1) src hv hc2
      fuel _ _ (pos + 4) (List.Perm.refl _) hne hcards (by omega) (by rw [hsum]; omega)
    generalize (sumHand ([rand.Intn src pos 10 + 1, rand.Intn src (pos + 1) 10 + 1]
        ++ drawn src (pos + 4) k)).1 = p at hrun
    generalize (sumHand ([rand.Intn src pos 10 + 1, rand.Intn src (pos + 1) 10 + 1]
        ++ drawn src (pos + 4) k)).2 = hand1 at hrun
    refine ⟨p, hand1, pos + 4 + k, hrun, ?_⟩
    by_cases h21 : p = 21
    · left
      refine ⟨by omega, fun d => ?_⟩
      have hone : playOneHand src fuel actor pos
          = .ok ({ actor with ratio := actor.ratio + handDelta p d }, pos + 4 + k) := by
        unfold playOneHand
        simp only [hrun]
        simp only [h21, if_true, handDelta]
      exact ⟨hone, playHands_step src fuel actor pos _ hone⟩
    by_cases hbust : p > 21
    · left
      refine ⟨by omega, fun d => ?_⟩
      have hone : playOneHand src fuel actor pos
          = .ok ({ actor with ratio := actor.ratio + handDelta p d }, pos + 4 + k) := by
        unfold playOneHand
        simp only [hrun]
        simp only [h21, hbust, if_true, if_false, handDelta]
        rfl
      exact ⟨hone, playHands_step src fuel actor pos _ hone⟩
    · right
      obtain ⟨kd, hrunD, -, -⟩ := playDealerHand_run src fuel _ (pos + 4 + k) hcardsD
        (by omega) (by rw [hsumD]; omega)
      generalize (sumHand ([rand.Intn src (pos + 2) 10 + 1, rand.Intn src (pos + 3) 10 + 1]
          ++ drawn src (pos + 4 + k) kd)).1 = d at hrunD
      generalize (sumHand ([rand.Intn src (pos + 2) 10 + 1, rand.Intn src (pos + 3) 10 + 1]
          ++ drawn src (pos + 4 + k) kd)).2 = hand2 at hrunD
      have hone : playOneHand src fuel actor pos
          = .ok ({ actor with ratio := actor.ratio + handDelta p d }, pos + 4 + k + kd) := by
        unfold playOneHand
        simp only [hrun, hrunD]
        simp only [h21, hbust, if_false, handDelta]
        split_ifs <;> rfl
      exact ⟨by omega, d, hand2, pos + 4 + k + kd, hrunD, hone,
        playHands_step src fuel actor pos _ hone⟩

theorem playHands_scores_each_hand_witness :
    ValidTable alwaysHold
    ∧ playHands (fun _ => 5) 20 ⟨alwaysHold, 0, 0⟩ 1 0 = .ok (⟨alwaysHold, -1, 0⟩, 5)
    ∧ playHands (fun _ => 5) 20 ⟨alwaysHold, 0, 0⟩ 0 0 = .ok (⟨alwaysHold, 0, 0⟩, 0)
    ∧ (∀ G : Int, ∃ r : Actor × Nat,
        playHands (fun _ => 5) 20 ⟨alwaysHold, 0, 0⟩ G 0 = .ok r)
    ∧ ∃ (p : Int) (hand1 : List Int) (pos1 : Nat),
        playHand ⟨alwaysHold, 0, 0⟩ (rand.Intn (fun _ => 5) (0 + 2) 10 + 1) (fun _ => 5) 20
            [rand.Intn (fun _ => 5) 0 10 + 1, rand.Intn (fun _ => 5) (0 + 1) 10 + 1] (0 + 4)
          = .ok (p, hand1, pos1)
        ∧ ((21 ≤ p ∧ ∀ d : Int,
              playOneHand (fun _ => 5) 20 ⟨alwaysHold, 0, 0⟩ 0
                = .ok ({ (⟨alwaysHold, 0, 0⟩ : Actor) with ratio := 0 + handDelta p d }, pos1)
              ∧ playHands (fun _ => 5) 20 ⟨alwaysHold, 0, 0⟩ 1 0
                = .ok ({ (⟨alwaysHold, 0, 0⟩ : Actor) with ratio := 0 + handDelta p d }, pos1)
              ∧ ∀ n : Nat, playHands (fun _ => 5) 20 ⟨alwaysHold, 0, 0⟩ ((n : Int) + 1) 0
                = playHands (fun _ => 5) 20
                    { (⟨alwaysHold, 0, 0⟩ : Actor) with ratio := 0 + handDelta p d }
                    (n : Int) pos1)
          ∨ (p < 21 ∧ ∃ (d : Int) (hand2 : List Int) (pos2 : Nat),
              playDealerHand (fun _ => 5) 20
                  [rand.Intn (fun _ => 5) (0 + 2) 10 + 1, rand.Intn (fun _ => 5) (0 + 3) 10 + 1]
                  pos1
                = .ok (d, hand2, pos2)
              ∧ playOneHand (fun _ => 5) 20 ⟨alwaysHold, 0, 0⟩ 0
                = .ok ({ (⟨alwaysHold, 0, 0⟩ : Actor) with ratio := 0 + handDelta p d }, pos2)
              ∧ playHands (fun _ => 5) 20 ⟨alwaysHold, 0, 0⟩ 1 0
                = .ok ({ (⟨alwaysHold, 0, 0⟩ : Actor) with ratio := 0 + handDelta p d }, pos2)
              ∧ ∀ n : Nat, playHands (fun _ => 5) 20 ⟨alwaysHold, 0, 0⟩ ((n : Int) + 1) 0
                = playHands (fun _ => 5) 20
                    { (⟨alwaysHold, 0, 0⟩ : Actor) with ratio := 0 + handDelta p d }
                    (n : Int) pos2)) :=
  have h := playHands_scores_each_hand (fun _ => 5) 20 ⟨alwaysHold, 0, 0⟩ 0 alwaysHold_valid
    (by decide)
  ⟨alwaysHold_valid, rfl, h.1, h.2.1, h.2.2.2⟩

/-- C8: the accumulate-then-reset score step.  Go adds `ratio` to `lifetimeRatio` in 64-bit
`int`; for every actor state whose sum fits in 64 bits, every rate and every outcome of
the draws, after `mutate` the lifetime ratio is the old lifetime ratio plus the old ratio
(which is also the value the 64-bit addition gives, since it does not wrap) and the ratio
is 0; `initialize` does the same, so an actor initialized from the zero value has
lifetime ratio 0 and ratio 0. -/
theorem score_step_accumulates_then_resets (actor : Actor) (mutRate : ℚ) (src : Source)
    (pos : Nat) (hfit : FitsInt64 (actor.lifetimeRatio + actor.ratio)) :
    (mutate actor mutRate src pos).1.lifetimeRatio = actor.lifetimeRatio + actor.ratio
    ∧ (mutate actor mutRate src pos).1.lifetimeRatio
        = wrapInt64 (actor.lifetimeRatio + actor.ratio)
    ∧ (mutate actor mutRate src pos).1.ratio = 0
    ∧ (initializeActor actor src pos).1.lifetimeRatio = actor.lifetimeRatio + actor.ratio
    ∧ (initializeActor actor src pos).1.lifetimeRatio
        = wrapInt64 (actor.lifetimeRatio + actor.ratio)
    ∧ (initializeActor actor src pos).1.ratio = 0
    ∧ (initializeActor Actor.zero src pos).1.lifetimeRatio = 0
    ∧ (initializeActor Actor.zero src pos).1.ratio = 0 := by
  have hw : actor.lifetimeRatio + actor.ratio
      = wrapInt64 (actor.lifetimeRatio + actor.ratio) := by
    unfold FitsInt64 at hfit
    unfold wrapInt64
    omega
  exact ⟨rfl, hw, rfl, rfl, hw, rfl, rfl, rfl⟩

/-- An actor with lifetime ratio 7 and ratio 3 leaves the score step with lifetime ratio
10 and ratio 0. -/
theorem score_step_accumulates_then_resets_witness :
    FitsInt64 ((⟨alwaysHold, 3, 7⟩ : Actor).lifetimeRatio + (⟨alwaysHold, 3, 7⟩ : Actor).ratio)
    ∧ (mutate ⟨alwaysHold, 3, 7⟩ (1 / 20) (fun _ => 0) 0).1.lifetimeRatio = 10
    ∧ (mutate ⟨alwaysHold, 3, 7⟩ (1 / 20) (fun _ => 0) 0).1.ratio = 0
    ∧ (initializeActor ⟨alwaysHold, 3, 7⟩ (fun _ => 0) 0).1.lifetimeRatio = 10
    ∧ (initializeActor ⟨alwaysHold, 3, 7⟩ (fun _ => 0) 0).1.ratio = 0 :=
  have hfit : FitsInt64
      ((⟨alwaysHold, 3, 7⟩ : Actor).lifetimeRatio + (⟨alwaysHold, 3, 7⟩ : Actor).ratio) :=
    ⟨by decide, by decide⟩
  have h := score_step_accumulates_then_resets ⟨alwaysHold, 3, 7⟩ (1 / 20) (fun _ => 0) 0 hfit
  ⟨hfit, h.1, h.2.2.1, h.2.2.2.1, h.2.2.2.2.2.1⟩

theorem handRoutineLoop_cons (src : Source) (fuel : Nat) (numHands : Int) (ix : Nat)
    (rest : List Nat) (actors : List Actor) (pos : Nat) :
    handRoutineLoop src fuel numHands (ix :: rest) actors pos
      = match actors[ix]? with
        | none => .error .indexOutOfRange
        | some actor =>
          match playHands src fuel actor numHands pos with
          | .error e => .error e
          | .ok (actor1, pos1) =>
            handRoutineLoop src fuel numHands rest (actors.set ix actor1) pos1 := rfl

/-- The worker loop over a concatenation of index lists is the loop over the first list
followed by the loop over the second, from the state and read position the first left. -/
theorem handRoutineLoop_append (src : Source) (fuel : Nat) (numHands : Int) :
    ∀ (l₁ l₂ : List Nat) (actors : List Actor) (pos : Nat),
      handRoutineLoop src fuel numHands (l₁ ++ l₂) actors pos
        = match handRoutineLoop src fuel numHands l₁ actors pos with
          | .error e => .error e
          | .ok (actors1, pos1) => handRoutineLoop src fuel numHands l₂ actors1 pos1 := by
  intro l₁
  induction l₁ with
  | nil => intro l₂ actors pos; rfl
  | cons ix rest ih =>
    intro l₂ actors pos
    rw [List.cons_append, handRoutineLoop_cons, handRoutineLoop_cons]
    cases actors[ix]? with
    | none => rfl
    | some actor =>
      simp only
      cases playHands src fuel actor numHands pos with
      | error e => rfl
      | ok r => exact ih l₂ _ _

/-- What `handRoutine` returns is what its loop returns, with the message `end - start`. -/
theorem handRoutine_ok_iff (src : Source) (fuel : Nat) (actors : List Actor) (numHands : Int)
    (start end_ pos : Nat) (actors1 : List Actor) (pos1 : Nat) (m : Int) :
    handRoutine src fuel actors numHands start end_ pos = .ok (actors1, pos1, m)
      ↔ handRoutineLoop src fuel numHands (loopIndices start end_) actors pos
          = .ok (actors1, pos1) ∧ m = (end_ : Int) - (start : Int) := by
  unfold handRoutine
  cases handRoutineLoop src fuel numHands (loopIndices start end_) actors pos with
  | error e => simp
  | ok r =>
    obtain ⟨a, p⟩ := r
    simp only [Except.ok.injEq, Prod.mk.injEq]
    constructor
    · rintro ⟨h1, h2, h3⟩
      exact ⟨⟨h1, h2⟩, h3.symm⟩
    · rintro ⟨⟨h1, h2⟩, h3⟩
      exact ⟨h1, h2, h3.symm⟩

/-- A worker with an empty range calls nothing. -/
theorem handRoutine_empty (src : Source) (fuel : Nat) (actors : List Actor) (numHands : Int)
    (start end_ pos : Nat) (h : end_ ≤ start) :
    handRoutine src fuel actors numHands start end_ pos
      = .ok (actors, pos, (end_ : Int) - (start : Int)) := by
  rw [handRoutine_ok_iff]
  have h0 : loopIndices start end_ = [] := by
    unfold loopIndices
    rw [Nat.sub_eq_zero_of_le h]
    rfl
  rw [h0]
  exact ⟨rfl, rfl⟩

/-- A worker with a range of one index makes one call of `playHands`, on the actor at that
index, and stores the result there. -/
theorem handRoutine_single (src : Source) (fuel : Nat) (actors : List Actor) (numHands : Int)
    (i pos : Nat) (a a1 : Actor) (pos1 : Nat) (ha : actors[i]? = some a)
    (hplay : playHands src fuel a numHands pos = .ok (a1, pos1)) :
    handRoutine src fuel actors numHands i (i + 1) pos = .ok (actors.set i a1, pos1, 1) := by
  rw [handRoutine_ok_iff]
  have h1 : loopIndices i (i + 1) = [i] := by
    unfold loopIndices
    rw [Nat.add_sub_cancel_left]
    rfl
  rw [h1]
  refine ⟨?_, by push_cast; ring⟩
  rw [handRoutineLoop_cons]
  simp only [ha, hplay]
  rfl

/-- A worker on `[start, end)` is a worker on `[start, mid)` followed by a worker on
`[mid, end)` that starts where the first stopped: the indices are visited in increasing
order. -/
theorem handRoutine_split (src : Source) (fuel : Nat) (actors : List Actor) (numHands : Int)
    (start mid end_ pos : Nat) (h1 : start ≤ mid) (h2 : mid ≤ end_)
    (actors1 : List Actor) (pos1 : Nat) (m1 : Int) (actors2 : List Actor) (pos2 : Nat)
    (m2 : Int)
    (hfirst : handRoutine src fuel actors numHands start mid pos = .ok (actors1, pos1, m1))
    (hsecond : handRoutine src fuel actors1 numHands mid end_ pos1 = .ok (actors2, pos2, m2)) :
    handRoutine src fuel actors numHands start end_ pos = .ok (actors2, pos2, m1 + m2) := by
  rw [handRoutine_ok_iff] at hfirst hsecond ⊢
  rw [← loopIndices_append start mid end_ h1 h2, handRoutineLoop_append, hfirst.1]
  exact ⟨hsecond.1, by rw [hfirst.2, hsecond.2]; ring⟩

/-- C7: for every population size `n` the eight ranges that `dispatchHands` hands to
`handRoutine` are `[i*c, (i+1)*c)` for `i = 0..6` and `[7*c, n)` with `c = n / 8`; the
indices the workers visit, shard after shard and in increasing order inside a shard, are
exactly `0, 1, ..., n-1`, each once; the ranges are pairwise disjoint and cover `0..n-1`;
the last shard has `c + n mod 8` members.  `handRoutine` calls `playHands` once for each
index of its range, in increasing order: on an empty range it calls nothing, on a range of
one index it makes that one call and stores its result, and on `[start, end)` it is the
worker on `[start, mid)` followed by the worker on `[mid, end)`; on a valid population it
returns with the result of `playHands` at every index of the range and every other actor
untouched.  `dispatchHands` on a valid population of `n` actors returns with, at every
position, the result of one `playHands` call on the actor that stood there. -/
theorem shards_partition_population (n : Nat) :
    shardRanges n = [(0, n / 8), (n / 8, 2 * (n / 8)), (2 * (n / 8), 3 * (n / 8)),
      (3 * (n / 8), 4 * (n / 8)), (4 * (n / 8), 5 * (n / 8)), (5 * (n / 8), 6 * (n / 8)),
      (6 * (n / 8), 7 * (n / 8)), (7 * (n / 8), n)]
    ∧ ((shardRanges n).map fun r => loopIndices r.1 r.2).flatten = List.range n
    ∧ (∀ start end_ : Nat, (loopIndices start end_).Pairwise (fun i j => i < j)
        ∧ ∀ i, i ∈ loopIndices start end_ ↔ start ≤ i ∧ i < end_)
    ∧ (shardRanges n).Pairwise
        (fun r s => ∀ i, ¬ (i ∈ loopIndices r.1 r.2 ∧ i ∈ loopIndices s.1 s.2))
    ∧ (∀ i, i < n ↔ ∃ r ∈ shardRanges n, i ∈ loopIndices r.1 r.2)
    ∧ n - 7 * (n / 8) = n / 8 + n % 8
    ∧ (∀ (src : Source) (fuel : Nat) (actors : List Actor) (numHands : Int)
        (start end_ pos : Nat), end_ ≤ start →
        handRoutine src fuel actors numHands start end_ pos
          = .ok (actors, pos, (end_ : Int) - (start : Int)))
    ∧ (∀ (src : Source) (fuel : Nat) (actors : List Actor) (numHands : Int) (i pos : Nat)
        (a a1 : Actor) (pos1 : Nat), actors[i]? = some a →
        playHands src fuel a numHands pos = .ok (a1, pos1) →
        handRoutine src fuel actors numHands i (i + 1) pos = .ok (actors.set i a1, pos1, 1))
    ∧ (∀ (src : Source) (fuel : Nat) (actors : List Actor) (numHands : Int)
        (start mid end_ pos : Nat), start ≤ mid → mid ≤ end_ →
        ∀ (actors1 : List Actor) (pos1 : Nat) (m1 : Int) (actors2 : List Actor) (pos2 : Nat)
          (m2 : Int),
        handRoutine src fuel actors numHands start mid pos = .ok (actors1, pos1, m1) →
        handRoutine src fuel actors1 numHands mid end_ pos1 = .ok (actors2, pos2, m2) →
        handRoutine src fuel actors numHands start end_ pos = .ok (actors2, pos2, m1 + m2))
    ∧ (∀ (src : Source) (fuel : Nat) (actors : List Actor) (numHands : Int)
        (start end_ pos : Nat), 20 ≤ fuel → end_ ≤ actors.length → ValidPopulation actors →
        ∃ (actors' : List Actor) (pos' : Nat),
          handRoutine src fuel actors numHands start end_ pos
              = .ok (actors', pos', (end_ : Int) - (start : Int))
            ∧ actors'.length = actors.length
            ∧ (∀ i : Nat, (i < start ∨ end_ ≤ i) → actors'[i]? = actors[i]?)
            ∧ (∀ (i : Nat) (a : Actor), start ≤ i → i < end_ → actors[i]? = some a →
                ∃ (a' : Actor) (q q' : Nat), actors'[i]? = some a'
                  ∧ playHands src fuel a numHands q = .ok (a', q')))
    ∧ (∀ (srcs : Nat → Source) (fuel : Nat) (actors : List Actor) (numHands : Int),
        20 ≤ fuel → actors.length = n → ValidPopulation actors →
        ∃ actors' : List Actor,
          dispatchHands srcs fuel actors numHands = .ok actors'
            ∧ actors'.length = n
            ∧ ∀ i : Nat, i < n → ∃ (a a' : Actor) (src : Source) (q q' : Nat),
                actors[i]? = some a ∧ actors'[i]? = some a'
                  ∧ playHands src fuel a numHands q = .ok (a', q')) := by
  refine ⟨shardRanges_eq n, ?_, ?_, shardRanges_disjoint n, shardRanges_cover n, by omega,
    handRoutine_empty, ?_, ?_, ?_, ?_⟩
  · rw [shardRanges_eq]
    simp only [List.map_cons, List.map_nil, List.flatten_cons, List.flatten_nil,
      List.append_nil]
    rw [loopIndices_append (6 * (n / 8)) _ n (by omega) (by omega),
      loopIndices_append (5 * (n / 8)) _ n (by omega) (by omega),
      loopIndices_append (4 * (n / 8)) _ n (by omega) (by omega),
      loopIndices_append (3 * (n / 8)) _ n (by omega) (by omega),
      loopIndices_append (2 * (n / 8)) _ n (by omega) (by omega),
      loopIndices_append (n / 8) _ n (by omega) (by omega),
      loopIndices_append 0 _ n (by omega) (by omega)]
    simp [loopIndices, List.range_eq_range']
  · intro start end_
    refine ⟨?_, mem_loopIndices start end_⟩
    unfold loopIndices
    exact List.pairwise_lt_range' start (end_ - start)
  · intro src fuel actors numHands i pos a a1 pos1 ha hplay
    exact handRoutine_single src fuel actors numHands i pos a a1 pos1 ha hplay
  · intro src fuel actors numHands start mid end_ pos h1 h2 actors1 pos1 m1 actors2 pos2 m2
      hfirst hsecond
    exact handRoutine_split src fuel actors numHands start mid end_ pos h1 h2 actors1 pos1 m1
      actors2 pos2 m2 hfirst hsecond
  · intro src fuel actors numHands start end_ pos hf hend hv
    obtain ⟨actors', pos', hrun, hsame, -, hout, hin⟩ :=
      handRoutine_frame src fuel hf numHands actors start end_ pos hend hv
    exact ⟨actors', pos', hrun, hsame.1, hout, hin⟩
  · intro srcs fuel actors numHands hf hlen hv
    obtain ⟨actors', hrun, hsame, -, hin⟩ :=
      dispatchHands_frame srcs fuel hf numHands actors hv
    refine ⟨actors', hrun, hsame.1.trans hlen, fun i hi => ?_⟩
    have hi' : i < actors.length := by rw [hlen]; exact hi
    obtain ⟨a', src, q, q', ha', hplay⟩ := hin i actors[i] (List.getElem?_eq_getElem hi')
    exact ⟨actors[i], a', src, q, q', List.getElem?_eq_getElem hi', ha', hplay⟩

/-- A population of three actors that hold on every total, one hand each, every card a
6: the last worker gets all three, and each ends with the score of one hand. -/
theorem shards_partition_population_witness :
    shardRanges 3 = [(0, 0), (0, 0), (0, 0), (0, 0), (0, 0), (0, 0), (0, 0), (0, 3)]
    ∧ ((shardRanges 3).map fun r => loopIndices r.1 r.2).flatten = [0, 1, 2]
    ∧ dispatchHands (fun _ _ => 5) 20
        [⟨alwaysHold, 0, 0⟩, ⟨alwaysHold, 0, 0⟩, ⟨alwaysHold, 0, 0⟩] 1
        = .ok [⟨alwaysHold, -1, 0⟩, ⟨alwaysHold, -1, 0⟩, ⟨alwaysHold, -1, 0⟩]
    ∧ handRoutine (fun _ => 5) 20
        [⟨alwaysHold, 0, 0⟩, ⟨alwaysHold, 0, 0⟩, ⟨alwaysHold, 0, 0⟩] 1 1 3 0
        = .ok ([⟨alwaysHold, 0, 0⟩, ⟨alwaysHold, -1, 0⟩, ⟨alwaysHold, -1, 0⟩], 10, 2) :=
  have h := shards_partition_population 3
  ⟨by decide, h.2.1, rfl, rfl⟩

/-! ## Lemmas on the insertion sort -/

theorem getElem?_at_length {α : Type} (l : List α) (y : α) (t : List α) :
    (l ++ y :: t)[l.length]? = some y := by
  induction l with
  | nil => simp
  | cons a l ih => simpa using ih

theorem getElem?_after_length {α : Type} (l : List α) (y x : α) (t : List α) :
    (l ++ y :: x :: t)[l.length + 1]? = some x := by
  induction l with
  | nil => simp
  | cons a l ih => simpa using ih

theorem set_set_at_length {α : Type} (l : List α) (y x : α) (t : List α) :
    ((l ++ y :: x :: t).set (l.length + 1) y).set l.length x = l ++ x :: y :: t := by
  induction l with
  | nil => rfl
  | cons a l ih => simp [ih]

theorem applySwaps_cons (i j : Nat) (rest : List (Nat × Nat)) (a : List Actor) :
    applySwaps ((i, j) :: rest) a
      = match ByRatio.Swap a i j with
        | none => none
        | some a1 => applySwaps rest a1 := rfl

theorem applySwaps_append : ∀ (s t : List (Nat × Nat)) (a : List Actor),
    applySwaps (s ++ t) a = (applySwaps s a).bind (applySwaps t) := by
  intro s
  induction s with
  | nil => intro t a; rfl
  | cons p rest ih =>
    intro t a
    obtain ⟨i, j⟩ := p
    rw [List.cons_append, applySwaps_cons, applySwaps_cons]
    cases ByRatio.Swap a i j with
    | none => rfl
    | some a1 => exact ih t a1

/-- The inner loop sinks the element that follows a prefix into the prefix: seen from the
end of the prefix, it is an ordered insertion by lifetime ratio. -/
theorem insertionInner_sinks : ∀ (revPre : List Actor) (x : Actor) (post : List Actor),
    applySwaps (insertionInner revPre.length (revPre.reverse ++ x :: post))
        (revPre.reverse ++ x :: post)
      = some ((List.orderedInsert lifeLe x revPre).reverse ++ post) := by
  intro revPre
  induction revPre with
  | nil => intro x post; rfl
  | cons y r ih =>
    intro x post
    have hlist : (y :: r).reverse ++ x :: post = r.reverse ++ y :: x :: post := by simp
    have hlen : (y :: r).length = r.reverse.length + 1 := by simp
    have hrl : r.length = r.reverse.length := by simp
    rw [hlist, hlen]
    have hx : (r.reverse ++ y :: x :: post)[r.reverse.length + 1]? = some x :=
      getElem?_after_length _ _ _ _
    have hy : (r.reverse ++ y :: x :: post)[r.reverse.length]? = some y :=
      getElem?_at_length _ _ _
    have hless : ByRatio.Less (r.reverse ++ y :: x :: post) (r.reverse.length + 1)
        r.reverse.length = some (decide (x.lifetimeRatio > y.lifetimeRatio)) := by
      unfold ByRatio.Less
      rw [hx, hy]
    have hswap : ByRatio.Swap (r.reverse ++ y :: x :: post) (r.reverse.length + 1)
        r.reverse.length = some (r.reverse ++ x :: y :: post) := by
      unfold ByRatio.Swap
      rw [hx, hy]
      simp only
      rw [set_set_at_length]
    unfold insertionInner
    rw [hless]
    by_cases hgt : x.lifetimeRatio > y.lifetimeRatio
    · have hd : decide (x.lifetimeRatio > y.lifetimeRatio) = true := decide_eq_true hgt
      rw [hd]
      simp only [hswap]
      unfold applySwaps
      simp only [hswap]
      have hih := ih x (y :: post)
      rw [hrl] at hih
      rw [hih]
      have hins : List.orderedInsert lifeLe x (y :: r) = y :: List.orderedInsert lifeLe x r := by
        rw [List.orderedInsert]
        rw [if_neg (by show ¬ x.lifetimeRatio ≤ y.lifetimeRatio; omega)]
      rw [hins]
      simp
    · have hd : decide (x.lifetimeRatio > y.lifetimeRatio) = false := decide_eq_false hgt
      rw [hd]
      simp only
      have hins : List.orderedInsert lifeLe x (y :: r) = x :: y :: r := by
        rw [List.orderedInsert]
        rw [if_pos (by show x.lifetimeRatio ≤ y.lifetimeRatio; omega)]
      rw [hins]
      simp [applySwaps]

theorem loopIndices_cons (start end_ : Nat) (h : start < end_) :
    loopIndices start end_ = start :: loopIndices (start + 1) end_ := by
  unfold loopIndices
  have h1 : end_ - start = (end_ - (start + 1)) + 1 := by omega
  rw [h1]
  rfl

/-- The outer loop inserts the elements after the prefix one by one. -/
theorem insertionOuter_sorts : ∀ (rest revPre : List Actor),
    applySwaps
        (insertionOuter (loopIndices revPre.length (revPre.length + rest.length))
          (revPre.reverse ++ rest))
        (revPre.reverse ++ rest)
      = some ((rest.foldl (fun acc x => List.orderedInsert lifeLe x acc) revPre).reverse) := by
  intro rest
  induction rest with
  | nil =>
    intro revPre
    have h0 : loopIndices revPre.length (revPre.length + ([] : List Actor).length) = [] := by
      unfold loopIndices
      simp
    rw [h0]
    simp [insertionOuter, applySwaps]
  | cons x post ih =>
    intro revPre
    have hidx : loopIndices revPre.length (revPre.length + (x :: post).length)
        = revPre.length
          :: loopIndices (revPre.length + 1) (revPre.length + 1 + post.length) := by
      rw [loopIndices_cons _ _ (by simp)]
      congr 2
      simp only [List.length_cons]
      omega
    rw [hidx]
    have hinner := insertionInner_sinks revPre x post
    unfold insertionOuter
    simp only [hinner]
    rw [applySwaps_append, hinner]
    simp only [Option.some_bind]
    have hih := ih (List.orderedInsert lifeLe x revPre)
    rw [List.orderedInsert_length] at hih
    rw [hih]
    rfl

theorem foldl_insert_sorted : ∀ (rest acc : List Actor), acc.Sorted lifeLe →
    (rest.foldl (fun acc x => List.orderedInsert lifeLe x acc) acc).Sorted lifeLe := by
  haveI : IsTotal Actor lifeLe := ⟨fun a b => le_total a.lifetimeRatio b.lifetimeRatio⟩
  haveI : IsTrans Actor lifeLe := ⟨fun a b c hab hbc => le_trans hab hbc⟩
  intro rest
  induction rest with
  | nil => intro acc h; exact h
  | cons x post ih =>
    intro acc h
    exact ih _ (List.Sorted.orderedInsert x acc h)

/-- The insertion sort returns, and what it returns is in non-increasing order of
lifetime ratio. -/
theorem sortActors_sorted (actors : List Actor) :
    ∃ sorted : List Actor, sortActors actors = some sorted
      ∧ ∀ (i j : Nat) (hi : i < sorted.length) (hj : j < sorted.length), i < j →
          sorted[j].lifetimeRatio ≤ sorted[i].lifetimeRatio := by
  cases actors with
  | nil => exact ⟨[], rfl, fun i j hi => absurd hi (Nat.not_lt_zero _)⟩
  | cons x rest =>
    have h := insertionOuter_sorts rest [x]
    have hlen : ([x] : List Actor).length + rest.length = (x :: rest).length := by
      simp only [List.length_cons, List.length_nil]
      omega
    rw [hlen] at h
    refine ⟨_, h, ?_⟩
    have hsorted := foldl_insert_sorted rest [x] (List.sorted_singleton x)
    have hrev : List.Pairwise (fun a b : Actor => b.lifetimeRatio ≤ a.lifetimeRatio)
        (rest.foldl (fun acc x => List.orderedInsert lifeLe x acc) [x]).reverse :=
      List.pairwise_reverse.mpr hsorted
    exact List.pairwise_iff_getElem.mp hrev

theorem sortedByLess_of_ordered (a : List Actor)
    (h : ∀ (i j : Nat) (hi : i < a.length) (hj : j < a.length), i < j →
      a[j].lifetimeRatio ≤ a[i].lifetimeRatio) : SortedByLess a := by
  intro i j hij hj
  have hi : i < a.length := by omega
  rw [less_eq a j i _ _ (List.getElem?_eq_getElem hj) (List.getElem?_eq_getElem hi)]
  have := h i j hi hj hij
  rw [decide_eq_false (by omega)]

theorem ordered_of_sortedByLess (a : List Actor) (h : SortedByLess a) :
    ∀ (i j : Nat) (hi : i < a.length) (hj : j < a.length), i < j →
      a[j].lifetimeRatio ≤ a[i].lifetimeRatio := by
  intro i j hi hj hij
  have h1 := h i j hij hj
  rw [less_eq a j i _ _ (List.getElem?_eq_getElem hj) (List.getElem?_eq_getElem hi)] at h1
  have hd : decide (a[j].lifetimeRatio > a[i].lifetimeRatio) = false := by simpa using h1
  have := of_decide_eq_false hd
  omega

/-- C12: the ranking step.  Run with the library's insertion sort, which reaches the
population only through the code's `Less` and `Swap`, the step returns, and the
population it leaves is a rearrangement of the population before (no actor lost,
duplicated or altered) in non-increasing order of lifetime ratio: an actor at a later
index never has the larger lifetime ratio.  The same holds for the loop body of `runDNA`
that ranks the evaluated population.  For any other run of `Swap` calls the step leaves a
rearrangement, and it meets the library's postcondition exactly when it is in that order.
`Less(i, j)` is exactly `a[i].lifetimeRatio > a[j].lifetimeRatio`, and two populations
with the same lifetime ratios give the same answers, whatever their ratios. -/
theorem ranking_orders_by_lifetime (before : List Actor) :
    (∃ after : List Actor, sortActors before = some after
      ∧ (∀ (run : Run) (gen : Nat), run.swaps gen = insertionSortSwaps before →
          rankGeneration run gen before = .ok after)
      ∧ (∀ (run : Run) (fuel : Nat) (gamesPerGen : Int) (gen : Nat) (actors : List Actor),
          evaluateGeneration run fuel gamesPerGen gen actors = .ok before →
          run.swaps gen = insertionSortSwaps before →
          generation run fuel gamesPerGen gen actors = .ok after)
      ∧ after.Perm before
      ∧ (∀ (i j : Nat) (hij : i < j) (hj : j < after.length),
          (after.get ⟨j, hj⟩).lifetimeRatio ≤ (after.get ⟨i, by omega⟩).lifetimeRatio)
      ∧ SortedByLess after)
    ∧ (∀ (run : Run) (gen : Nat) (after : List Actor),
        rankGeneration run gen before = .ok after →
        after.Perm before
        ∧ (SortedByLess after ↔
            ∀ (i j : Nat) (hij : i < j) (hj : j < after.length),
              (after.get ⟨j, hj⟩).lifetimeRatio ≤ (after.get ⟨i, by omega⟩).lifetimeRatio))
    ∧ (∀ (a : List Actor) (i j : Nat) (x y : Actor), a[i]? = some x → a[j]? = some y →
        ByRatio.Less a i j = some (decide (x.lifetimeRatio > y.lifetimeRatio)))
    ∧ (∀ (a a' : List Actor) (i j : Nat),
        a.map (fun x => x.lifetimeRatio) = a'.map (fun x => x.lifetimeRatio) →
        ByRatio.Less a i j = ByRatio.Less a' i j) := by
  refine ⟨?_, ?_, less_eq, ?_⟩
  · obtain ⟨after, hsort, hord⟩ := sortActors_sorted before
    have hrank : ∀ (run : Run) (gen : Nat), run.swaps gen = insertionSortSwaps before →
        rankGeneration run gen before = .ok after := by
      intro run gen hsw
      unfold rankGeneration
      rw [hsw]
      unfold sortActors at hsort
      rw [hsort]
    refine ⟨after, hsort, hrank, ?_, applySwaps_perm _ _ _ hsort, ?_,
      sortedByLess_of_ordered after hord⟩
    · intro run fuel gamesPerGen gen actors hev hsw
      unfold generation
      rw [hev]
      exact hrank run gen hsw
    · intro i j hij hj
      simp only [List.get_eq_getElem]
      exact hord i j (by omega) hj hij
  · intro run gen after hrun
    have happ : applySwaps (run.swaps gen) before = some after := by
      unfold rankGeneration at hrun
      cases happ : applySwaps (run.swaps gen) before with
      | none => rw [happ] at hrun; cases hrun
      | some sorted =>
        rw [happ] at hrun
        rw [Except.ok.inj hrun]
    refine ⟨applySwaps_perm _ _ _ happ, ?_, ?_⟩
    · intro hs i j hij hj
      simp only [List.get_eq_getElem]
      exact ordered_of_sortedByLess after hs i j (by omega) hj hij
    · intro h
      apply sortedByLess_of_ordered
      intro i j hi hj hij
      have := h i j hij hj
      simpa only [List.get_eq_getElem] using this
  · intro a a' i j hmap
    have hget : ∀ k : Nat, (a[k]?).map (fun x => x.lifetimeRatio)
        = (a'[k]?).map (fun x => x.lifetimeRatio) := by
      intro k
      rw [← List.getElem?_map, ← List.getElem?_map, hmap]
    have hvia : ∀ l : List Actor, ByRatio.Less l i j
        = match (l[i]?).map (fun x => x.lifetimeRatio), (l[j]?).map (fun x => x.lifetimeRatio) with
          | some x, some y => some (decide (x > y))
          | _, _ => none := by
      intro l
      unfold ByRatio.Less
      cases l[i]? <;> cases l[j]? <;> rfl
    rw [hvia a, hvia a', hget i, hget j]

/-- A population of three with lifetime ratios 1, 5, 3 is ranked to 5, 3, 1 by the two
`Swap` calls `(1, 0)` and `(2, 1)`, the ratios travelling with their actors. -/
theorem ranking_orders_by_lifetime_witness :
    insertionSortSwaps [⟨alwaysHold, 3, 1⟩, ⟨alwaysHold, -2, 5⟩, ⟨alwaysHold, 0, 3⟩]
        = [(1, 0), (2, 1)]
    ∧ sortActors [⟨alwaysHold, 3, 1⟩, ⟨alwaysHold, -2, 5⟩, ⟨alwaysHold, 0, 3⟩]
        = some [⟨alwaysHold, -2, 5⟩, ⟨alwaysHold, 0, 3⟩, ⟨alwaysHold, 3, 1⟩]
    ∧ rankGeneration ⟨fun _ => 0, fun _ _ => 0, fun _ _ _ => 0, fun _ => [(1, 0), (2, 1)]⟩ 0
          [⟨alwaysHold, 3, 1⟩, ⟨alwaysHold, -2, 5⟩, ⟨alwaysHold, 0, 3⟩]
        = .ok [⟨alwaysHold, -2, 5⟩, ⟨alwaysHold, 0, 3⟩, ⟨alwaysHold, 3, 1⟩]
    ∧ SortedByLess [⟨alwaysHold, -2, 5⟩, ⟨alwaysHold, 0, 3⟩, ⟨alwaysHold, 3, 1⟩]
    ∧ ([⟨alwaysHold, -2, 5⟩, ⟨alwaysHold, 0, 3⟩, ⟨alwaysHold, 3, 1⟩] : List Actor).Perm
        [⟨alwaysHold, 3, 1⟩, ⟨alwaysHold, -2, 5⟩, ⟨alwaysHold, 0, 3⟩] := by
  have hsw : insertionSortSwaps [⟨alwaysHold, 3, 1⟩, ⟨alwaysHold, -2, 5⟩, ⟨alwaysHold, 0, 3⟩]
      = [(1, 0), (2, 1)] := by decide
  have hs : sortActors [⟨alwaysHold, 3, 1⟩, ⟨alwaysHold, -2, 5⟩, ⟨alwaysHold, 0, 3⟩]
      = some [⟨alwaysHold, -2, 5⟩, ⟨alwaysHold, 0, 3⟩, ⟨alwaysHold, 3, 1⟩] := rfl
  obtain ⟨⟨after, hsort, hrank, _, hperm, _, hsorted⟩, _⟩ :=
    ranking_orders_by_lifetime [⟨alwaysHold, 3, 1⟩, ⟨alwaysHold, -2, 5⟩, ⟨alwaysHold, 0, 3⟩]
  have hafter : after = [⟨alwaysHold, -2, 5⟩, ⟨alwaysHold, 0, 3⟩, ⟨alwaysHold, 3, 1⟩] :=
    Option.some.inj (hsort.symm.trans hs)
  subst hafter
  exact ⟨hsw, hs,
    hrank ⟨fun _ => 0, fun _ _ => 0, fun _ _ _ => 0, fun _ => [(1, 0), (2, 1)]⟩ 0 hsw.symm,
    hsorted, hperm⟩

end GenJack
